import Mathlib

/-!
# Clock Signal: cycle-range dispatch and TMS9918 scanline drawing

A shallow embedding of

* `ClockReceiver/RangeDispatcher.hpp` (`RangeDispatcher`, `SubrangeDispatcher`), and
* `Components/9918/Implementation/Draw.hpp` (`draw_tms_character`, `draw_sms`),

together with the properties of the specification that concern them.

Conventions of the embedding:

* a template call `target.perform<n>(...)` is recorded as the entry `n` of a call trace;
  a dispatch returns the trace of calls it made, in order;
* a failed `assert` is the result `none`;
* `SequencerT::max` and `ClassifierT::max` are natural numbers (they are cycle counts, and
  the `static_assert` bounds them by 2048); the run-time arguments `begin` and `end`
  are `int` in the source and `Int` here.
-/

set_option linter.unusedSectionVars false

namespace Reflection

/-! ## RangeDispatcher -/

namespace RangeDispatcher

/-- The chain `index2048(0)` of the private `dispatch<use_end>`, entered at `case n`
and falling through the following cases; `fuel` is the number of cases left in
the switch (`2048 - n`).  The result is the list of `perform<n>` calls made. -/
def index (use_end : Bool) (max : Nat) (end_ : Int) : Nat → Nat → List Nat
  | 0, _ => []
  | fuel + 1, n =>
    if n ≤ max then
      if n = max then []
      else if n < max ∧ use_end = true ∧ end_ = (n : Int) then []
      else n :: index use_end max end_ fuel (n + 1)
    else index use_end max end_ fuel (n + 1)

/-- The private `dispatch<use_end>(target, begin, end)`: `switch(begin)` over the
cases `0 .. 2047`, with `default: assert(false)`. -/
def dispatch_use_end (use_end : Bool) (max : Nat) (begin_ end_ : Int) : Option (List Nat) :=
  if 0 ≤ begin_ ∧ begin_ < 2048 then
    some (index use_end max end_ (2048 - begin_.toNat) begin_.toNat)
  else none

/-- The public `dispatch(target, begin, end)`. -/
def dispatch (max : Nat) (begin_ end_ : Int) : Option (List Nat) :=
  if end_ < (max : Int) then dispatch_use_end true max begin_ end_
  else dispatch_use_end false max begin_ end_

end RangeDispatcher

/-! ## SubrangeDispatcher -/

/-- The calls a `SubrangeDispatcher` makes on its target: `begin<region>(n)`,
`advance<region>(length)` and `end<region>(n)`. -/
inductive Call (τ : Type) where
  | begin_ (region : τ) (n : Int)
  | advance (region : τ) (length : Int)
  | end_ (region : τ) (n : Int)
  deriving DecidableEq, Repr

namespace SubrangeDispatcher

variable {τ : Type} [DecidableEq τ]

/-- The loop of `find_begin`: `while(n && region(n - 1) == type) --n;`. -/
def find_begin_loop (region : Nat → τ) (type : τ) : Nat → Nat
  | 0 => 0
  | n + 1 => if region n = type then find_begin_loop region type n else n + 1

/-- The source's `find_begin(n)`. -/
def find_begin (region : Nat → τ) (n : Nat) : Nat :=
  find_begin_loop region (region n) n

/-- The loop of `find_end`: `while(n < max && region(n) == type) ++n;`, with `fuel`
bounding the number of iterations (`max - n` suffices). -/
def find_end_loop (region : Nat → τ) (max : Nat) (type : τ) : Nat → Nat → Nat
  | 0, n => n
  | fuel + 1, n =>
    if n < max ∧ region n = type then find_end_loop region max type fuel (n + 1) else n

/-- The source's `find_end(n)`. -/
def find_end (region : Nat → τ) (max : Nat) (n : Nat) : Nat :=
  find_end_loop region max (region n) (max - n) n

/-- The chain `index2048(0)` of `SubrangeDispatcher::dispatch`, entered at `case n`
and falling through; `fuel` is the number of cases left (`2048 - n`).  The result is
the list of calls made on the target. -/
def index (region : Nat → τ) (max : Nat) (begin_ end_ : Int) : Nat → Nat → List (Call τ)
  | 0, _ => []
  | fuel + 1, n =>
    if n ≤ max then
      if n = find_begin region n ∧ (n : Int) ≥ end_ then []
      else
        (if n = find_begin region n then [Call.begin_ (region n) (n : Int)] else []) ++
        (if (n : Int) = (find_end region max n : Int) - 1 then
          let clipped_begin : Int := Max.max begin_ (find_begin region n : Int)
          let clipped_end : Int := Min.min end_ (find_end region max n : Int)
          Call.advance (region n) (clipped_end - clipped_begin) ::
            (if clipped_end = (n : Int) + 1 then [Call.end_ (region n) ((n : Int) + 1)]
             else [])
        else []) ++
        index region max begin_ end_ fuel (n + 1)
    else index region max begin_ end_ fuel (n + 1)

/-- The source's `SubrangeDispatcher::dispatch(target, begin, end)`: `switch(begin)` over
the cases `0 .. 2047`, with `default: assert(false)`. -/
def dispatch (region : Nat → τ) (max : Nat) (begin_ end_ : Int) : Option (List (Call τ)) :=
  if 0 ≤ begin_ ∧ begin_ < 2048 then
    some (index region max begin_ end_ (2048 - begin_.toNat) begin_.toNat)
  else none

end SubrangeDispatcher

/-! ### Runs of a classifier (the specification's vocabulary) -/

section Runs

variable {τ : Type} [DecidableEq τ]

/-- A run of the classifier `region` with bound `max`: a maximal span `[s, e)` of indices
of `[0, max)` that share one region tag. -/
def IsRun (region : Nat → τ) (max s e : Nat) : Prop :=
  s < e ∧ e ≤ max ∧
  (∀ i, s ≤ i → i < e → region i = region s) ∧
  (s = 0 ∨ region (s - 1) ≠ region s) ∧
  (e = max ∨ region e ≠ region s)

/-- The region tags, in order, of the `begin` calls of a trace. -/
def beginCalls : List (Call τ) → List (τ × Int)
  | [] => []
  | Call.begin_ r n :: cs => (r, n) :: beginCalls cs
  | _ :: cs => beginCalls cs

/-- The `(tag, length)` pairs, in order, of the `advance` calls of a trace. -/
def advanceCalls : List (Call τ) → List (τ × Int)
  | [] => []
  | Call.advance r l :: cs => (r, l) :: advanceCalls cs
  | _ :: cs => advanceCalls cs

/-- The `(tag, position)` pairs, in order, of the `end` calls of a trace. -/
def endCalls : List (Call τ) → List (τ × Int)
  | [] => []
  | Call.end_ r n :: cs => (r, n) :: endCalls cs
  | _ :: cs => endCalls cs

end Runs

section RunLists

variable {τ : Type} [DecidableEq τ]

/-- The position `p` starts a run: it is `0`, or its tag differs from its predecessor's. -/
def RunStart (region : Nat → τ) (p : Nat) : Prop :=
  p = 0 ∨ region (p - 1) ≠ region p

/-- The runs met from the run start `p` on, in order: `[p, e)`, then the runs from `e`. -/
def runsFrom (region : Nat → τ) (max : Nat) : Nat → Nat → List (Nat × Nat)
  | 0, _ => []
  | fuel + 1, p =>
    if p < max then
      (p, SubrangeDispatcher.find_end region max p) ::
        runsFrom region max fuel (SubrangeDispatcher.find_end region max p)
    else []

/-- All runs of `[0, max)`, in increasing order. -/
def allRuns (region : Nat → τ) (max : Nat) : List (Nat × Nat) :=
  runsFrom region max max 0

/-- The calls the specification prescribes for the run `r = [s, e)` in a dispatch over
`[begin, end)`: a region start if `s` lies in the interval, one advance by the overlap,
a region end if the interval reaches `e`. -/
def runCalls (region : Nat → τ) (begin_ end_ : Int) (r : Nat × Nat) : List (Call τ) :=
  (if begin_ ≤ (r.1 : Int) ∧ (r.1 : Int) < end_ then [Call.begin_ (region r.1) (r.1 : Int)]
   else []) ++
  (Call.advance (region r.1) (Min.min end_ (r.2 : Int) - Max.max begin_ (r.1 : Int)) ::
    (if (r.2 : Int) ≤ end_ then [Call.end_ (region r.1) (r.2 : Int)] else []))

/-- The run `r = [s, e)` is visited by a dispatch over `[begin, end)`: `begin` lies strictly
inside it, or its start lies in `[begin, end)`. -/
def touched (begin_ end_ : Int) (r : Nat × Nat) : Bool :=
  decide (((r.1 : Int) < begin_ ∧ begin_ < (r.2 : Int)) ∨
    (begin_ ≤ (r.1 : Int) ∧ (r.1 : Int) < end_))

/-- The total of the lengths of the `advance` calls of a trace that are delivered while
the position of the target lies in `[s, e)`; the position is `cursor` at the start of the
trace and moves on by the length of each `advance`. -/
def advanceTotalIn (s e : Nat) : Int → List (Call τ) → Int
  | _, [] => 0
  | cursor, Call.advance _ l :: cs =>
    (if (s : Int) ≤ cursor ∧ cursor < (e : Int) then l else 0) +
      advanceTotalIn s e (cursor + l) cs
  | cursor, _ :: cs => advanceTotalIn s e cursor cs

/-- The sum of the lengths of the `advance` calls of a trace. -/
def advanceSum : List (Call τ) → Int
  | [] => 0
  | Call.advance _ l :: cs => l + advanceSum cs
  | _ :: cs => advanceSum cs

end RunLists

/-- The two region tags of the specification's concrete scenario. -/
inductive TagAB where
  | A
  | B
  deriving DecidableEq, Repr

/-- The classifier of the specification's concrete scenario (`max = 10`): tag `A` on
the indices `0 .. 3`, tag `B` from `4` on. -/
def regionAB (n : Nat) : TagAB := if n < 4 then TagAB.A else TagAB.B

end Reflection

/-! ## The scanline renderer (`Components/9918/Implementation/Draw.hpp`)

Conventions of the embedding:

* the pixel positions `start`, `end` and the loop counters over them are natural numbers
  (every caller passes `0 ≤ start ≤ end`); differences that the source keeps in an `int`
  (`pixels_left`, `length`) are `Int`;
* `uint8_t` values are read through `byte` (reduction modulo 256), the `uint32_t` tile
  pattern is kept modulo `2 ^ 32`, and its bytes are taken in little-endian order;
* the row of output pixels is a map from offsets relative to `pixel_origin_` to pixel
  values, and `pixel_target_` is an offset relative to `pixel_origin_`;
* a `LineBuffer` holds its active sprites as the list `active_sprites[0 .. active_sprite_slot)`;
* `shift_position` counts consumed sprite half-pixels and is a natural number;
* local arrays that the source leaves uninitialised start from an arbitrary content that
  is a parameter of the function;
* a `while(true)` loop takes fuel and yields `none` when the fuel runs out.
-/

namespace TMS

/-- Modelled from the spec: the `ScreenMode` enumeration is declared outside the given
sources; these are the modes that `Draw.hpp` names, and the baseline tile/sprite modes
other than `MultiColour` (`ColouredText`, `Graphics`) and `Blank`. -/
inductive ScreenMode where
  | Blank
  | Text
  | MultiColour
  | ColouredText
  | Graphics
  | SMSMode4
  | YamahaText80
  | YamahaGraphics3
  | YamahaGraphics4
  | YamahaGraphics5
  | YamahaGraphics6
  | YamahaGraphics7
  deriving DecidableEq, Repr

/-- The value of a `uint8_t`. -/
def byte (v : Nat) : Nat := v % 256

/-- An entry of `LineBuffer::active_sprites`. -/
structure ActiveSprite where
  /-- The horizontal position; negative when the sprite hangs off the left edge. -/
  x : Int
  /-- The progress through the sprite's pattern. -/
  shift_position : Nat
  /-- The bytes `image[0 .. 3]`. -/
  image : Nat → Nat

/-- The per-scanline `LineBuffer`. -/
structure LineBuffer where
  /-- The bytes `patterns[column][0 .. 3]`. -/
  patterns : Nat → Nat → Nat
  /-- The bytes `flags[column]`. -/
  flags : Nat → Nat
  /-- The entries `active_sprites[0 .. active_sprite_slot)`. -/
  active_sprites : List ActiveSprite
  latched_horizontal_scroll : Nat

/-- What `Draw.hpp` uses and the given sources do not declare: `Numeric::bit_reverse`, the
status constants, and whether the personality is a Sega VDP. -/
structure Externals where
  bit_reverse : Nat → Nat
  StatusSpriteCollisionShift : Nat
  StatusSpriteCollision : Nat
  is_sega_vdp : Bool

/-- The state of `Base<personality>` that the drawing functions read and write. -/
structure Base where
  /-- The buffer `line_buffers_[output_pointer_.row]`. -/
  line_buffer : LineBuffer
  /-- The row `output_pointer_.row`. -/
  row : Int
  screen_mode_ : ScreenMode
  background_colour_ : Nat
  text_colour_ : Nat
  sprites_magnified_ : Bool
  sprites_16x16_ : Bool
  status_ : Nat
  /-- The write cursor, as an offset from `pixel_origin_`. -/
  pixel_target_ : Int
  /-- The output row: the pixel at each offset from `pixel_origin_`. -/
  pixels : Int → Nat
  /-- The table `palette()`. -/
  palette : Nat → Nat
  /-- The table `Storage<personality>::colour_ram_`. -/
  colour_ram_ : Nat → Nat
  horizontal_scroll_lock_ : Bool
  hide_left_column_ : Bool

/-- A loop `for(c = c0; c < c0 + count; ++c) body`. -/
def for_loop {σ : Type} (body : Nat → σ → σ) : Nat → Nat → σ → σ
  | 0, _, s => s
  | count + 1, c, s => for_loop body count (c + 1) (body c s)

/-- The store `p[i] = v`. -/
def store {ι : Type} [DecidableEq ι] (p : ι → Nat) (i : ι) (v : Nat) : ι → Nat :=
  fun j => if j = i then v else p j

/-! ### `draw_tms_character`: background -/

/-- The MultiColour pixel `palette()[(patterns[c >> 3][0] >> ((c & 4) ^ 4)) & 15]`. -/
def multicolour_pixel (b : Base) (c : Nat) : Nat :=
  b.palette ((byte (b.line_buffer.patterns (c >>> 3) 0) >>> ((c &&& 4) ^^^ 4)) &&& 15)

/-- The pair `colours[0 .. 1]` selected by a colour byte. -/
def colours (b : Base) (colour : Nat) (i : Nat) : Nat :=
  if i = 0 then b.palette (if colour &&& 15 ≠ 0 then colour &&& 15 else b.background_colour_)
  else b.palette (if colour >>> 4 ≠ 0 then colour >>> 4 else b.background_colour_)

/-- The loop `for(c = 0; c < length; ++c) { pixel_target_[c] = colours[pattern & 1];
pattern >>= 1; }` on the pair of `pattern` and the output row. -/
def pattern_pixels (colours : Nat → Nat) (pixel_target_ : Int) (length : Int)
    (pattern : Nat) (pixels : Int → Nat) : Nat × (Int → Nat) :=
  for_loop (fun c (s : Nat × (Int → Nat)) =>
      (s.1 >>> 1, store s.2 (pixel_target_ + (c : Int)) (colours (s.1 &&& 1))))
    length.toNat 0 (pattern, pixels)

/-- The variables of the `while(true)` loop of the background pass. -/
structure BackgroundState where
  background_pixels_left : Int
  length : Int
  byte_column : Nat
  pattern : Nat
  colour : Nat
  pixel_target_ : Int
  pixels : Int → Nat

/-- The `while(true)` loop of the background pass of `draw_tms_character`; the result is
the final `pixel_target_` and output row. -/
def background_loop (ext : Externals) (b : Base) :
    Nat → BackgroundState → Option (Int × (Int → Nat))
  | 0, _ => none
  | fuel + 1, st =>
    let background_pixels_left := st.background_pixels_left - st.length
    let pixels := (pattern_pixels (colours b st.colour) st.pixel_target_ st.length
      st.pattern st.pixels).2
    let pixel_target_ := st.pixel_target_ + st.length
    if background_pixels_left = 0 then some (pixel_target_, pixels)
    else
      let length := Min.min 8 background_pixels_left
      let byte_column := st.byte_column + 1
      background_loop ext b fuel
        { background_pixels_left := background_pixels_left
          length := length
          byte_column := byte_column
          pattern := ext.bit_reverse (byte (b.line_buffer.patterns byte_column 0))
          colour := byte (b.line_buffer.patterns byte_column 1)
          pixel_target_ := pixel_target_
          pixels := pixels }

/-- The background pass of `draw_tms_character(start, end)`: the final `pixel_target_` and
output row. -/
def draw_tms_background (ext : Externals) (b : Base) (start end_ : Nat) :
    Option (Int × (Int → Nat)) :=
  let pixels_left : Int := (end_ : Int) - (start : Int)
  if b.screen_mode_ = ScreenMode.MultiColour then
    some (b.pixel_target_,
      for_loop (fun c px => store px (b.pixel_target_ + (c : Int)) (multicolour_pixel b c))
        (end_ - start) start b.pixels)
  else
    let shift := start &&& 7
    let byte_column := start >>> 3
    let length : Int := Min.min pixels_left (8 - (shift : Int))
    background_loop ext b (pixels_left.toNat + 1)
      { background_pixels_left := pixels_left
        length := length
        byte_column := byte_column
        pattern := ext.bit_reverse (byte (b.line_buffer.patterns byte_column 0)) >>> shift
        colour := byte (b.line_buffer.patterns byte_column 1)
        pixel_target_ := b.pixel_target_
        pixels := b.pixels }

/-! ### Sprites: the loops shared in shape by `draw_tms_character` and `draw_sms` -/

/-- The loop `for(c = pixel_start; c < end && sprite.shift_position < shifter_target; ++c)
{ body; sprite.shift_position += shift_advance; }`, with `fuel` bounding the iterations
(`end - pixel_start` suffices). -/
def sprite_columns {α : Type} (shift_advance shifter_target end_ : Nat)
    (body : ActiveSprite → Nat → α → α) : Nat → Nat → ActiveSprite → α → ActiveSprite × α
  | 0, _, sprite, a => (sprite, a)
  | fuel + 1, c, sprite, a =>
    if c < end_ ∧ sprite.shift_position < shifter_target then
      sprite_columns shift_advance shifter_target end_ body fuel (c + 1)
        { sprite with shift_position := sprite.shift_position + shift_advance }
        (body sprite c a)
    else (sprite, a)

/-- The body of the loop over the sprites, for one sprite: `if(sprite.shift_position <
shifter_target) { pixel_start = std::max(start, sprite.x); for(...) ... }`. -/
def draw_sprite {α : Type} (shift_advance shifter_target start end_ : Nat)
    (body : ActiveSprite → Nat → α → α) (sprite : ActiveSprite) (a : α) : ActiveSprite × α :=
  if sprite.shift_position < shifter_target then
    let pixel_start : Int := Max.max (start : Int) sprite.x
    sprite_columns shift_advance shifter_target end_ body (end_ - pixel_start.toNat)
      pixel_start.toNat sprite a
  else (sprite, a)

/-- The loop `for(index = active_sprite_slot - 1; index >= 0; --index)`: the sprites later
in the list are drawn first. -/
def draw_sprites {α : Type} (shift_advance shifter_target start end_ : Nat)
    (body : ActiveSprite → Nat → α → α) : List ActiveSprite → α → List ActiveSprite × α
  | [], a => ([], a)
  | sprite :: rest, a =>
    let later := draw_sprites shift_advance shifter_target start end_ body rest a
    let this := draw_sprite shift_advance shifter_target start end_ body sprite later.2
    (this.1 :: later.1, this.2)

/-- The clipping at the start of a line: `if(sprite.x < 0) sprite.shift_position -=
shift_advance * sprite.x;` for every active sprite. -/
def clip_left (shift_advance : Nat) (sprites : List ActiveSprite) : List ActiveSprite :=
  sprites.map (fun sprite =>
    if sprite.x < 0 then
      { sprite with
        shift_position := sprite.shift_position + shift_advance * (-sprite.x).toNat }
    else sprite)

/-- The zeroing `memset(&sprite_buffer[start], 0, size_t(end - start) * sizeof(...))` of an
uninitialised `sprite_buffer`. -/
def memset_zero (buffer : Nat → Nat) (start end_ : Nat) : Nat → Nat :=
  fun c => if start ≤ c ∧ c < end_ then 0 else buffer c

/-! ### `draw_tms_character`: sprites -/

/-- The locals and the output row that the sprite loop of `draw_tms_character` updates. -/
structure SpriteState where
  sprite_buffer : Nat → Nat
  sprite_collision : Nat
  pixels : Int → Nat

/-- The table `sprite_colour_selection_masks`. -/
def sprite_colour_selection_masks (i : Nat) : Nat := if i = 0 then 0x00000000 else 0xffffffff

/-- The table `colour_masks`. -/
def colour_masks (i : Nat) : Nat := if i = 0 then 0 else 1

/-- The pattern bit that a sprite at a given `shift_position` shows:
`shift = (shift_position >> 1) ^ 7; (image[shift >> 3] >> (shift & 7)) & 1`. -/
def tms_sprite_bit (sprite : ActiveSprite) : Nat :=
  let shift := (sprite.shift_position >>> 1) ^^^ 7
  (byte (sprite.image (shift >>> 3)) >>> (shift &&& 7)) &&& 1

/-- The pixel that the sprite loop stores over `pixel`: `(pixel &
sprite_colour_selection_masks[sprite_colour ^ 1]) | (palette()[image[2] & 15] &
sprite_colour_selection_masks[sprite_colour])`, with `sprite_colour` already masked by
`colour_masks[image[2] & 15]`. -/
def tms_sprite_pixel (b : Base) (sprite : ActiveSprite) (pixel : Nat) : Nat :=
  let sprite_colour := tms_sprite_bit sprite &&& colour_masks (byte (sprite.image 2) &&& 15)
  (pixel &&& sprite_colour_selection_masks (sprite_colour ^^^ 1)) |||
    (b.palette (byte (sprite.image 2) &&& 15) &&& sprite_colour_selection_masks sprite_colour)

/-- The body of the inner sprite loop of `draw_tms_character`, at column `c`. -/
def tms_sprite_body (b : Base) (sprite : ActiveSprite) (c : Nat) (s : SpriteState) :
    SpriteState :=
  let sprite_colour := tms_sprite_bit sprite
  { sprite_collision := s.sprite_collision ||| (s.sprite_buffer c &&& sprite_colour)
    sprite_buffer := store s.sprite_buffer c (s.sprite_buffer c ||| sprite_colour)
    pixels := store s.pixels (c : Int) (tms_sprite_pixel b sprite (s.pixels (c : Int))) }

/-- The source's `draw_tms_character(start, end)`; `sprite_buffer` is the content that the
uninitialised local `sprite_buffer` happens to have. -/
def draw_tms_character (ext : Externals) (b : Base) (start end_ : Nat)
    (sprite_buffer : Nat → Nat) : Option Base :=
  match draw_tms_background ext b start end_ with
  | none => none
  | some (pixel_target_, pixels) =>
    if b.line_buffer.active_sprites.length ≠ 0 then
      let shift_advance := if b.sprites_magnified_ then 1 else 2
      let sprites :=
        if start = 0 then clip_left shift_advance b.line_buffer.active_sprites
        else b.line_buffer.active_sprites
      let shifter_target := if b.sprites_16x16_ then 32 else 16
      let drawn := draw_sprites shift_advance shifter_target start end_ (tms_sprite_body b)
        sprites
        { sprite_buffer := memset_zero sprite_buffer start end_
          sprite_collision := 0
          pixels := pixels }
      some { b with
        line_buffer := { b.line_buffer with active_sprites := drawn.1 }
        pixel_target_ := pixel_target_
        pixels := drawn.2.pixels
        status_ := b.status_ ||| (drawn.2.sprite_collision <<< ext.StatusSpriteCollisionShift) }
    else
      some { b with pixel_target_ := pixel_target_, pixels := pixels }

/-! ### `draw_sms` -/

/-- The read `*reinterpret_cast<const uint32_t *>(line_buffer.patterns[byte_column])`. -/
def load_pattern (line_buffer : LineBuffer) (byte_column : Nat) : Nat :=
  byte (line_buffer.patterns byte_column 0) |||
  (byte (line_buffer.patterns byte_column 1) <<< 8) |||
  (byte (line_buffer.patterns byte_column 2) <<< 16) |||
  (byte (line_buffer.patterns byte_column 3) <<< 24)

/-- The byte `pattern_index[k]` of the `uint32_t pattern`. -/
def pattern_index (pattern : Nat) (k : Nat) : Nat := (pattern >>> (8 * k)) &&& 0xff

/-- The colour stored for a tile pixel when `flags[byte_column] & 2` is set. -/
def sms_tile_colour_flipped (pattern palette_offset : Nat) : Nat :=
  ((pattern_index pattern 3 &&& 0x01) <<< 3) |||
  ((pattern_index pattern 2 &&& 0x01) <<< 2) |||
  ((pattern_index pattern 1 &&& 0x01) <<< 1) |||
  ((pattern_index pattern 0 &&& 0x01) <<< 0) |||
  palette_offset

/-- The colour stored for a tile pixel when `flags[byte_column] & 2` is clear. -/
def sms_tile_colour (pattern palette_offset : Nat) : Nat :=
  ((pattern_index pattern 3 &&& 0x80) >>> 4) |||
  ((pattern_index pattern 2 &&& 0x80) >>> 5) |||
  ((pattern_index pattern 1 &&& 0x80) >>> 6) |||
  ((pattern_index pattern 0 &&& 0x80) >>> 7) |||
  palette_offset

/-- The variables of the `while(true)` loop of the tile pass of `draw_sms`. -/
structure TileState where
  pixels_left : Int
  length : Int
  byte_column : Nat
  pattern : Nat
  tile_offset : Nat
  colour_buffer : Nat → Nat

/-- The two inner loops of the tile pass: `length` pixels of the current tile, stored from
`tile_offset` on, the pattern shifting right (flipped) or left by one per pixel. -/
def tile_pixels (flipped : Bool) (palette_offset : Nat) (length : Int)
    (s : Nat × Nat × (Nat → Nat)) : Nat × Nat × (Nat → Nat) :=
  for_loop (fun _ (s : Nat × Nat × (Nat → Nat)) =>
      if flipped then
        (s.1 >>> 1, s.2.1 + 1, store s.2.2 s.2.1 (sms_tile_colour_flipped s.1 palette_offset))
      else
        ((s.1 <<< 1) % 2 ^ 32, s.2.1 + 1, store s.2.2 s.2.1 (sms_tile_colour s.1 palette_offset)))
    length.toNat 0 s

/-- The `while(true)` loop of the tile pass of `draw_sms`; the result is the final
`colour_buffer`. -/
def tile_loop (b : Base) : Nat → TileState → Option (Nat → Nat)
  | 0, _ => none
  | fuel + 1, st =>
    let palette_offset := (byte (b.line_buffer.flags st.byte_column) &&& 0x18) <<< 1
    let drawn := tile_pixels (byte (b.line_buffer.flags st.byte_column) &&& 2 ≠ 0)
      palette_offset st.length (st.pattern, st.tile_offset, st.colour_buffer)
    let pixels_left := st.pixels_left - st.length
    if pixels_left = 0 then some drawn.2.2
    else
      let length := Min.min 8 pixels_left
      let byte_column := st.byte_column + 1
      tile_loop b fuel
        { pixels_left := pixels_left
          length := length
          byte_column := byte_column
          pattern := load_pattern b.line_buffer byte_column
          tile_offset := drawn.2.1
          colour_buffer := drawn.2.2 }

/-- The border and tile passes of `draw_sms(start, end, ...)`: the `colour_buffer` that they
leave, starting from the content `colour_buffer` of the uninitialised local. -/
def draw_sms_tiles (b : Base) (start end_ : Nat) (colour_buffer : Nat → Nat) :
    Option (Nat → Nat) :=
  let scrolled : Bool := decide (b.row ≥ 16) || !b.horizontal_scroll_lock_
  let fine := b.line_buffer.latched_horizontal_scroll &&& 7
  let border : (Nat → Nat) × Nat :=
    if scrolled then
      for_loop (fun c (s : (Nat → Nat) × Nat) =>
          (store s.1 c (16 + b.background_colour_), s.2 + 1))
        (fine - start) start (colour_buffer, start)
    else (colour_buffer, start)
  let tile_start : Nat := if scrolled then start - fine else start
  let tile_end : Nat := if scrolled then end_ - fine else end_
  if tile_start < end_ then
    let shift := tile_start &&& 7
    let byte_column := tile_start >>> 3
    let pixels_left : Int := (tile_end : Int) - (tile_start : Int)
    let length : Int := Min.min pixels_left (8 - (shift : Int))
    let pattern := load_pattern b.line_buffer byte_column
    tile_loop b (pixels_left.toNat + 1)
      { pixels_left := pixels_left
        length := length
        byte_column := byte_column
        pattern :=
          if byte (b.line_buffer.flags byte_column) &&& 2 ≠ 0 then pattern >>> shift
          else (pattern <<< shift) % 2 ^ 32
        tile_offset := border.2
        colour_buffer := border.1 }
  else some border.1

/-- The locals that the sprite loop of `draw_sms` updates. -/
structure SmsSpriteState where
  sprite_buffer : Nat → Nat
  sprite_collision : Nat

/-- The colour that a sprite at a given `shift_position` shows in `draw_sms`. -/
def sms_sprite_colour (sprite : ActiveSprite) : Nat :=
  let shift := sprite.shift_position >>> 1
  (((byte (sprite.image 3) <<< shift) &&& 0x80) >>> 4) |||
  (((byte (sprite.image 2) <<< shift) &&& 0x80) >>> 5) |||
  (((byte (sprite.image 1) <<< shift) &&& 0x80) >>> 6) |||
  (((byte (sprite.image 0) <<< shift) &&& 0x80) >>> 7)

/-- The body of the inner sprite loop of `draw_sms`, at column `c`. -/
def sms_sprite_body (sprite : ActiveSprite) (c : Nat) (s : SmsSpriteState) : SmsSpriteState :=
  if sms_sprite_colour sprite ≠ 0 then
    { sprite_collision := s.sprite_collision ||| s.sprite_buffer c
      sprite_buffer := store s.sprite_buffer c (sms_sprite_colour sprite ||| 0x10) }
  else s

/-- The loop that draws the sprite buffer onto the colour buffer, at column `c`. -/
def sms_merge (sprite_buffer : Nat → Nat) (c : Nat) (colour_buffer : Nat → Nat) : Nat → Nat :=
  if sprite_buffer c ≠ 0 ∧ (colour_buffer c &&& 0x20 = 0 ∨ colour_buffer c &&& 0xf = 0) then
    store colour_buffer c (sprite_buffer c)
  else colour_buffer

/-- The sprite pass of `draw_sms(start, end, ...)` (`if(line_buffer.active_sprite_slot) { ...
}`), given the colour buffer `tiles` that the tile pass left: the active sprites, the colour
buffer and the `status_` that result. -/
def draw_sms_sprites (ext : Externals) (b : Base) (start end_ : Nat)
    (tiles sprite_buffer : Nat → Nat) : List ActiveSprite × (Nat → Nat) × Nat :=
  if b.line_buffer.active_sprites.length ≠ 0 then
    let shift_advance := if b.sprites_magnified_ then 1 else 2
    let sprites :=
      if start = 0 then clip_left shift_advance b.line_buffer.active_sprites
      else b.line_buffer.active_sprites
    let drawn := draw_sprites shift_advance 16 start end_ sms_sprite_body sprites
      { sprite_buffer := memset_zero sprite_buffer start end_, sprite_collision := 0 }
    (drawn.1,
      for_loop (sms_merge drawn.2.sprite_buffer) (end_ - start) start tiles,
      if drawn.2.sprite_collision ≠ 0 then b.status_ ||| ext.StatusSpriteCollision
      else b.status_)
  else (b.line_buffer.active_sprites, tiles, b.status_)

/-- The end of `draw_sms(start, end, cram_dot)`: the mapping of `colour_buffer` to output
pixels, the first of them combined with `cram_dot`, and the hiding of the left column; the
result is the output row. -/
def draw_sms_output (b : Base) (start end_ : Nat) (cram_dot : Nat)
    (colour_buffer : Nat → Nat) : Int → Nat :=
  let first := store b.pixels (b.pixel_target_ + (start : Int))
    (b.colour_ram_ (colour_buffer start &&& 0x1f) ||| cram_dot)
  let mapped := for_loop (fun c px =>
      store px (b.pixel_target_ + (c : Int)) (b.colour_ram_ (colour_buffer c &&& 0x1f)))
    (end_ - (start + 1)) (start + 1) first
  if end_ = 256 ∧ b.hide_left_column_ = true then
    for_loop (fun c px => store px (c : Int) (b.colour_ram_ (16 + b.background_colour_)))
      8 0 mapped
  else mapped

/-- The source's `draw_sms(start, end, cram_dot)`; `colour_buffer` and `sprite_buffer` are the
contents that the uninitialised locals of those names happen to have. -/
def draw_sms (ext : Externals) (b : Base) (start end_ : Nat) (cram_dot : Nat)
    (colour_buffer sprite_buffer : Nat → Nat) : Option Base :=
  if ext.is_sega_vdp then
    match draw_sms_tiles b start end_ colour_buffer with
    | none => none
    | some tiles =>
      let sprited := draw_sms_sprites ext b start end_ tiles sprite_buffer
      some { b with
        line_buffer := { b.line_buffer with active_sprites := sprited.1 }
        status_ := sprited.2.2
        pixels := draw_sms_output b start end_ cram_dot sprited.2.1 }
  else some b

/-! ### Closed forms used to state the properties of the renderer -/

/-- The background pixel of column `x` in the character modes other than MultiColour: the
colour pair of the column's colour byte, indexed by bit `x & 7` of the bit-reversed
pattern byte. -/
def character_pixel (ext : Externals) (b : Base) (x : Nat) : Nat :=
  colours b (byte (b.line_buffer.patterns (x >>> 3) 1))
    ((ext.bit_reverse (byte (b.line_buffer.patterns (x >>> 3) 0)) >>> (x &&& 7)) &&& 1)

/-- The background pixel of column `x` as `draw_tms_character` computes it. -/
def tms_background_pixel (ext : Externals) (b : Base) (x : Nat) : Nat :=
  if b.screen_mode_ = ScreenMode.MultiColour then multicolour_pixel b x
  else character_pixel ext b x

/-- The sprite after `j` pixels of it have been drawn. -/
def sprite_at (shift_advance : Nat) (sprite : ActiveSprite) (j : Nat) : ActiveSprite :=
  { sprite with shift_position := sprite.shift_position + shift_advance * j }

/-- The column `std::max(start, sprite.x)` at which a call over `[start, end)` starts to
draw a sprite. -/
def pixel_start (start : Nat) (sprite : ActiveSprite) : Nat :=
  (Max.max (start : Int) sprite.x).toNat

/-- A call over `[start, end)` draws the sprite, as it is on entry to the sprite loop, at
the column `c`: the column is at or after `pixel_start`, before `end`, and the sprite is not
yet exhausted there. -/
def covers (shift_advance shifter_target start end_ : Nat) (sprite : ActiveSprite) (c : Nat) :
    Prop :=
  pixel_start start sprite ≤ c ∧ c < end_ ∧
    sprite.shift_position + shift_advance * (c - pixel_start start sprite) < shifter_target

instance (shift_advance shifter_target start end_ : Nat) (sprite : ActiveSprite) (c : Nat) :
    Decidable (covers shift_advance shifter_target start end_ sprite c) := by
  unfold covers
  infer_instance

/-- The number of iterations of the loop `sprite_columns`. -/
def sprite_steps (shift_advance shifter_target end_ : Nat) : Nat → Nat → Nat → Nat
  | 0, _, _ => 0
  | fuel + 1, c, shift_position =>
    if c < end_ ∧ shift_position < shifter_target then
      1 + sprite_steps shift_advance shifter_target end_ fuel (c + 1)
        (shift_position + shift_advance)
    else 0

/-- The sprite as a call over `[start, end)` leaves it. -/
def advance_sprite (shift_advance shifter_target start end_ : Nat) (sprite : ActiveSprite) :
    ActiveSprite :=
  if sprite.shift_position < shifter_target then
    sprite_at shift_advance sprite
      (sprite_steps shift_advance shifter_target end_ (end_ - pixel_start start sprite)
        (pixel_start start sprite) sprite.shift_position)
  else sprite

/-- The value that the sprite loops of a call over `[start, end)` leave at the column `c` of
a buffer that each sprite drawn at `c` updates by `upd`, starting from the value `v`; the
sprites later in the list update first. -/
def sprites_over {β : Type} (shift_advance shifter_target start end_ : Nat)
    (upd : ActiveSprite → β → β) (c : Nat) : List ActiveSprite → β → β
  | [], v => v
  | sprite :: rest, v =>
    if covers shift_advance shifter_target start end_ sprite c then
      upd (sprite_at shift_advance sprite (c - pixel_start start sprite))
        (sprites_over shift_advance shifter_target start end_ upd c rest v)
    else sprites_over shift_advance shifter_target start end_ upd c rest v

/-- The value `sprites_magnified_ ? 1 : 2` of `shift_advance`. -/
def shift_advance (b : Base) : Nat := if b.sprites_magnified_ then 1 else 2

/-- The value `sprites_16x16_ ? 32 : 16` of `shifter_target`. -/
def shifter_target (b : Base) : Nat := if b.sprites_16x16_ then 32 else 16

/-- The active sprites on entry to the sprite loop of a call that starts at `start`: clipped
on the left when `start` is `0`. -/
def sprites_on_entry (b : Base) (start : Nat) : List ActiveSprite :=
  if start = 0 then clip_left (shift_advance b) b.line_buffer.active_sprites
  else b.line_buffer.active_sprites

/-- A sprite, as it is on entry to the sprite loop of a `draw_tms_character` over `[start,
end)`, has a set bit at the column `c` as the source decodes it: the call draws it there,
and `tms_sprite_bit` of the position that it has reached there is `1`. -/
def tms_presents (b : Base) (start end_ : Nat) (sprite : ActiveSprite) (c : Nat) : Prop :=
  covers (shift_advance b) (shifter_target b) start end_ sprite c ∧
  tms_sprite_bit (sprite_at (shift_advance b) sprite (c - pixel_start start sprite)) = 1

/-- Two distinct active sprites have a set bit, as the source decodes it, at one column of
`[start, end)`. -/
def tms_sprites_overlap (b : Base) (start end_ : Nat) : Prop :=
  ∃ (i j : Nat) (s₁ s₂ : ActiveSprite) (c : Nat), i ≠ j ∧
    (sprites_on_entry b start)[i]? = some s₁ ∧ (sprites_on_entry b start)[j]? = some s₂ ∧
    tms_presents b start end_ s₁ c ∧ tms_presents b start end_ s₂ c

/-- Some sprite of the list presents a set pattern bit at a column where a sprite later in
the list does. -/
def tms_overlap_in (b : Base) (start end_ : Nat) : List ActiveSprite → Prop
  | [] => False
  | sprite :: rest =>
    tms_overlap_in b start end_ rest ∨
    ∃ c, tms_presents b start end_ sprite c ∧ ∃ s ∈ rest, tms_presents b start end_ s c

/-- The colour that the tile pass of `draw_sms` stores for the pixel `t` of the tile row:
the pattern of the byte column `t >> 3`, shifted by `t & 7` in the direction that
`flags & 2` selects. -/
def sms_tile_pixel (b : Base) (t : Nat) : Nat :=
  let byte_column := t >>> 3
  let palette_offset := (byte (b.line_buffer.flags byte_column) &&& 0x18) <<< 1
  if byte (b.line_buffer.flags byte_column) &&& 2 ≠ 0 then
    sms_tile_colour_flipped (load_pattern b.line_buffer byte_column >>> (t &&& 7)) palette_offset
  else
    sms_tile_colour ((load_pattern b.line_buffer byte_column <<< (t &&& 7)) % 2 ^ 32)
      palette_offset

/-- The condition `output_pointer_.row >= 16 || !horizontal_scroll_lock_` of `draw_sms`. -/
def sms_scrolled (b : Base) : Bool := decide (b.row ≥ 16) || !b.horizontal_scroll_lock_

/-- The colour-buffer entry of column `c` before sprites: the border colour left of the fine
scroll, the tile pixel otherwise. -/
def sms_background (b : Base) (c : Nat) : Nat :=
  if sms_scrolled b then
    if c < b.line_buffer.latched_horizontal_scroll &&& 7 then 16 + b.background_colour_
    else sms_tile_pixel b (c - (b.line_buffer.latched_horizontal_scroll &&& 7))
  else sms_tile_pixel b c

/-- The colour-buffer entry that the merge of `draw_sms` leaves, from the sprite-buffer and
the colour-buffer entries of a column. -/
def sms_merged (sprite : Nat) (colour : Nat) : Nat :=
  if sprite ≠ 0 ∧ (colour &&& 0x20 = 0 ∨ colour &&& 0xf = 0) then sprite else colour

/-- The update of a sprite-buffer entry by a sprite drawn over it in `draw_sms`. -/
def sms_sprite_over (sprite : ActiveSprite) (v : Nat) : Nat :=
  if sms_sprite_colour sprite ≠ 0 then sms_sprite_colour sprite ||| 0x10 else v

/-- The colour-buffer entry of column `c` that a `draw_sms` over `[start, end)` maps to a
pixel. -/
def sms_colour (b : Base) (start end_ : Nat) (c : Nat) : Nat :=
  sms_merged
    (sprites_over (shift_advance b) 16 start end_ sms_sprite_over c (sprites_on_entry b start) 0)
    (sms_background b c)

/-- The pattern that the tile pass holds `sh` pixels into a byte column. -/
def tile_pattern_at (b : Base) (col sh : Nat) : Nat :=
  if byte (b.line_buffer.flags col) &&& 2 ≠ 0 then load_pattern b.line_buffer col >>> sh
  else (load_pattern b.line_buffer col <<< sh) % 2 ^ 32

/-! ### A concrete state, used to instantiate the properties -/

/-- The reversal of the low eight bits of `v`; it stands for `Numeric::bit_reverse` in the
concrete state below. -/
def reverse_byte (v : Nat) : Nat :=
  (((v >>> 0) &&& 1) <<< 7) ||| (((v >>> 1) &&& 1) <<< 6) ||| (((v >>> 2) &&& 1) <<< 5) |||
  (((v >>> 3) &&& 1) <<< 4) ||| (((v >>> 4) &&& 1) <<< 3) ||| (((v >>> 5) &&& 1) <<< 2) |||
  (((v >>> 6) &&& 1) <<< 1) ||| (((v >>> 7) &&& 1) <<< 0)

/-- Externals of a Sega VDP: collision is bit 5 of the status. -/
def sampleExternals : Externals :=
  { bit_reverse := reverse_byte
    StatusSpriteCollisionShift := 5
    StatusSpriteCollision := 0x20
    is_sega_vdp := true }

/-- A state with two active sprites, the first hanging three pixels off the left edge and
of the transparent colour index, the second at column `2`; fine scroll `3`; the write
cursor at the row origin. -/
def sampleBase : Base :=
  { line_buffer :=
      { patterns := fun col k => if k = 0 then 0xa5 + col else 0x4f
        flags := fun col => if col % 2 = 0 then 0 else 2
        active_sprites :=
          [ { x := -3, shift_position := 0, image := fun k => if k = 2 then 0 else 0xff },
            { x := 2, shift_position := 0, image := fun _ => 0xf1 } ]
        latched_horizontal_scroll := 3 }
    row := 20
    screen_mode_ := ScreenMode.Graphics
    background_colour_ := 2
    text_colour_ := 15
    sprites_magnified_ := false
    sprites_16x16_ := false
    status_ := 0
    pixel_target_ := 0
    pixels := fun _ => 0
    palette := fun i => 100 + i
    colour_ram_ := fun i => 200 + i
    horizontal_scroll_lock_ := false
    hide_left_column_ := true }

/-- The contract assumed of `Numeric::bit_reverse`, which is declared outside the given
sources and is a parameter of the model (`Externals.bit_reverse`): of a byte it returns the
byte with the bits in the opposite order, so that bit `j` of the result is bit `7 - j` of
the argument. -/
def ReversesBytes (bit_reverse : Nat → Nat) : Prop :=
  ∀ v, v < 256 → ∀ j, j < 8 → (bit_reverse v).testBit j = v.testBit (7 - j)

/-- The state of the specification's background-only scenario: a character mode other than
MultiColour, all pattern bytes zero, background colour `2`, no active sprite, the write
cursor at the row origin. -/
def zeroPatternBase : Base :=
  { line_buffer :=
      { patterns := fun _ _ => 0
        flags := fun _ => 0
        active_sprites := []
        latched_horizontal_scroll := 0 }
    row := 0
    screen_mode_ := ScreenMode.Graphics
    background_colour_ := 2
    text_colour_ := 15
    sprites_magnified_ := false
    sprites_16x16_ := false
    status_ := 0
    pixel_target_ := 0
    pixels := fun _ => 0
    palette := fun i => 100 + i
    colour_ram_ := fun i => 200 + i
    horizontal_scroll_lock_ := false
    hide_left_column_ := false }

/-- The same state in MultiColour mode. -/
def zeroPatternMultiColour : Base :=
  { zeroPatternBase with screen_mode_ := ScreenMode.MultiColour }

/-- Sprite `sprite` has a set bit, as the source decodes it, at column `c` of the call over
`[start, end)`, and its colour index `image[2] & 15` is not `0`. -/
def tms_shows (b : Base) (start end_ : Nat) (sprite : ActiveSprite) (c : Nat) : Prop :=
  tms_presents b start end_ sprite c ∧ byte (sprite.image 2) &&& 15 ≠ 0

/-- The local `sprite_buffer` of `draw_sms(start, end, ...)` after the loop that draws all
sprites into it, from the content `sprite_buffer` of the uninitialised local. -/
def sms_sprite_buffer (b : Base) (start end_ : Nat) (sprite_buffer : Nat → Nat) : Nat → Nat :=
  let shift_advance := if b.sprites_magnified_ then 1 else 2
  let sprites :=
    if start = 0 then clip_left shift_advance b.line_buffer.active_sprites
    else b.line_buffer.active_sprites
  (draw_sprites shift_advance 16 start end_ sms_sprite_body sprites
    { sprite_buffer := memset_zero sprite_buffer start end_, sprite_collision := 0 }).2.sprite_buffer

/-! ### Sequences of calls on one scanline -/

/-- A sequence of calls `draw(start, end)` on one line, made in order on the state that the
call before left. -/
def run_calls (draw : Base → Nat → Nat → Option Base) : List (Nat × Nat) → Base → Option Base
  | [], b => some b
  | call :: rest, b =>
    match draw b call.1 call.2 with
    | none => none
    | some b' => run_calls draw rest b'

/-- The calls `draw_tms_character(start, end)` of a list of ranges, in order. -/
def draw_tms_character_calls (ext : Externals) (sprite_buffer : Nat → Nat) :
    List (Nat × Nat) → Base → Option Base :=
  run_calls (fun b start end_ => draw_tms_character ext b start end_ sprite_buffer)

/-- The calls `draw_sms(start, end, cram_dot)` of a list of ranges, in order. -/
def draw_sms_calls (ext : Externals) (cram_dot : Nat) (colour_buffer sprite_buffer : Nat → Nat) :
    List (Nat × Nat) → Base → Option Base :=
  run_calls (fun b start end_ => draw_sms ext b start end_ cram_dot colour_buffer sprite_buffer)

/-- The ranges of a list are non-decreasing and non-overlapping and none starts before
column `p`: each has `start ≤ end`, and each starts at or after the end of the one
before. -/
def ranges_from (p : Nat) : List (Nat × Nat) → Prop
  | [] => True
  | call :: rest => p ≤ call.1 ∧ call.1 ≤ call.2 ∧ ranges_from call.2 rest

instance ranges_from_decidable : (p : Nat) → (calls : List (Nat × Nat)) →
    Decidable (ranges_from p calls)
  | _, [] => isTrue trivial
  | p, call :: rest =>
    let _ := ranges_from_decidable call.2 rest
    (inferInstance : Decidable (p ≤ call.1 ∧ call.1 ≤ call.2 ∧ ranges_from call.2 rest))

/-- The sprites as the sprite loops of a sequence of calls leave them, with no clipping. -/
def advance_calls (shift_advance shifter_target : Nat) :
    List (Nat × Nat) → List ActiveSprite → List ActiveSprite
  | [], sprites => sprites
  | call :: rest, sprites =>
    advance_calls shift_advance shifter_target rest
      (sprites.map (advance_sprite shift_advance shifter_target call.1 call.2))

/-! ### `draw_tms_text` -/

/-- The pair `colours[0 .. 1]` of `draw_tms_text`: `{ palette()[background_colour_],
palette()[text_colour_] }`. -/
def text_colours (b : Base) (i : Nat) : Nat :=
  if i = 0 then b.palette b.background_colour_ else b.palette b.text_colour_

/-- The locals that the `while(true)` loop of `draw_tms_text` updates, with the write cursor
and the output row. -/
structure TextState where
  pixels_left : Int
  length : Int
  byte_column : Nat
  pattern : Nat
  pixel_target_ : Int
  pixels : Int → Nat

/-- The `while(true)` loop of `draw_tms_text`; the result is the final `pixel_target_` and
output row. -/
def text_loop (ext : Externals) (b : Base) : Nat → TextState → Option (Int × (Int → Nat))
  | 0, _ => none
  | fuel + 1, st =>
    let pixels_left := st.pixels_left - st.length
    let pixels := (pattern_pixels (text_colours b) st.pixel_target_ st.length
      st.pattern st.pixels).2
    let pixel_target_ := st.pixel_target_ + st.length
    if pixels_left = 0 then some (pixel_target_, pixels)
    else
      let length := Min.min 6 pixels_left
      let byte_column := st.byte_column + 1
      text_loop ext b fuel
        { pixels_left := pixels_left
          length := length
          byte_column := byte_column
          pattern := ext.bit_reverse (byte (b.line_buffer.patterns byte_column 0))
          pixel_target_ := pixel_target_
          pixels := pixels }

/-- The source's `draw_tms_text(start, end)`. -/
def draw_tms_text (ext : Externals) (b : Base) (start end_ : Nat) : Option Base :=
  let shift := start % 6
  let byte_column := start / 6
  let pixels_left : Int := (end_ : Int) - (start : Int)
  let length : Int := Min.min pixels_left (6 - (shift : Int))
  match text_loop ext b (pixels_left.toNat + 1)
      { pixels_left := pixels_left
        length := length
        byte_column := byte_column
        pattern := ext.bit_reverse (byte (b.line_buffer.patterns byte_column 0)) >>> shift
        pixel_target_ := b.pixel_target_
        pixels := b.pixels } with
  | none => none
  | some (pixel_target_, pixels) =>
    some { b with pixel_target_ := pixel_target_, pixels := pixels }

/-- The pixel of column `x` in text mode: the colour pair indexed by bit `x % 6` of the
bit-reversed pattern byte of the 6-pixel column `x / 6`. -/
def text_pixel (ext : Externals) (b : Base) (x : Nat) : Nat :=
  text_colours b ((ext.bit_reverse (byte (b.line_buffer.patterns (x / 6) 0)) >>> (x % 6)) &&& 1)

/-! ### The sprite pattern, stated apart from the source's decoding -/

/-- The pattern bit that a sprite presents at its `shift_position`, stated from the sprite's
data and not from the source's shifts: `shift_position` counts half pixels, so the sprite
is at pixel `shift_position / 2` of its row of up to sixteen pixels; the row is held in
the bytes `image[0]`, `image[1]`, eight pixels each, the leftmost pixel in the most
significant bit. -/
def spec_pattern_bit (sprite : ActiveSprite) : Bool :=
  (byte (sprite.image (sprite.shift_position / 2 / 8))).testBit
    (7 - sprite.shift_position / 2 % 8)

/-- A sprite, as it is on entry to the sprite loop of a `draw_tms_character` over `[start,
end)`, presents a set pattern bit at the column `c`: the column is one of those at which
the call reaches the sprite, and the pattern bit of the position that the sprite has
there is set. -/
def spec_presents (b : Base) (start end_ : Nat) (sprite : ActiveSprite) (c : Nat) : Prop :=
  covers (shift_advance b) (shifter_target b) start end_ sprite c ∧
  spec_pattern_bit (sprite_at (shift_advance b) sprite (c - pixel_start start sprite)) = true

instance (b : Base) (start end_ : Nat) (sprite : ActiveSprite) (c : Nat) :
    Decidable (spec_presents b start end_ sprite c) := by
  unfold spec_presents
  infer_instance

/-- Two distinct active sprites both present a set pattern bit at one column of `[start,
end)`. -/
def spec_sprites_overlap (b : Base) (start end_ : Nat) : Prop :=
  ∃ (i j : Nat) (s₁ s₂ : ActiveSprite) (c : Nat), i ≠ j ∧
    (sprites_on_entry b start)[i]? = some s₁ ∧ (sprites_on_entry b start)[j]? = some s₂ ∧
    spec_presents b start end_ s₁ c ∧ spec_presents b start end_ s₂ c

/-- A sprite presents a set pattern bit with a non-zero colour index `image[2] & 15` at
the column `c` of the call over `[start, end)`. -/
def spec_shows (b : Base) (start end_ : Nat) (sprite : ActiveSprite) (c : Nat) : Prop :=
  spec_presents b start end_ sprite c ∧ byte (sprite.image 2) &&& 15 ≠ 0

instance (b : Base) (start end_ : Nat) (sprite : ActiveSprite) (c : Nat) :
    Decidable (spec_shows b start end_ sprite c) := by
  unfold spec_shows
  infer_instance

/-- The sample state with two sprites of non-zero colour index that overlap: slot `0`, of
colour index `5`, hangs three pixels off the left edge, and slot `1`, of colour index `1`,
starts at column `2`. -/
def overlapBase : Base :=
  { sampleBase with
    line_buffer :=
      { sampleBase.line_buffer with
        active_sprites :=
          [ { x := -3, shift_position := 0, image := fun k => if k = 2 then 0x05 else 0xff },
            { x := 2, shift_position := 0, image := fun _ => 0xf1 } ] } }

end TMS

namespace Reflection

/-! ### Lemmas on `RangeDispatcher` -/

namespace RangeDispatcher

/-- With a stop index `stop ≤ max` that is either `max` itself or the compared `end`,
the chain entered at `n ≤ stop` performs exactly `n, n+1, ..., stop - 1`. -/
theorem index_eq_range (use_end : Bool) (max : Nat) (end_ : Int) (stop : Nat)
    (hstop : stop ≤ max)
    (hcase : stop = max ∨ (use_end = true ∧ end_ = (stop : Int)))
    (hskip : use_end = true → end_ = (stop : Int)) :
    ∀ (fuel n : Nat), n ≤ stop → stop < n + fuel →
      index use_end max end_ fuel n = List.range' n (stop - n) := by
  intro fuel
  induction fuel with
  | zero => intro n h1 h2; omega
  | succ fuel ih =>
    intro n h1 h2
    unfold index
    have hn : n ≤ max := le_trans h1 hstop
    rw [if_pos hn]
    by_cases hns : n = stop
    · subst hns
      rcases hcase with h | ⟨hu, he⟩
      · rw [if_pos h]; simp
      · by_cases hm : n = max
        · rw [if_pos hm]; simp
        · rw [if_neg hm, if_pos ⟨by omega, hu, he⟩]; simp
    · have hlt : n < stop := lt_of_le_of_ne h1 hns
      have hm : n ≠ max := by omega
      rw [if_neg hm]
      have hne : ¬ (n < max ∧ use_end = true ∧ end_ = (n : Int)) := by
        rintro ⟨_, hu, he⟩
        have := hskip hu
        omega
      rw [if_neg hne, ih (n + 1) (by omega) (by omega)]
      have : stop - n = (stop - (n + 1)) + 1 := by omega
      rw [this, List.range'_succ]

/-- The public dispatch, under its precondition, performs `begin, ..., end - 1`. -/
theorem dispatch_eq_range (max : Nat) (hmax : max < 2048) (begin_ end_ : Int)
    (h0 : 0 ≤ begin_) (h1 : begin_ ≤ end_) (h2 : end_ ≤ (max : Int)) :
    dispatch max begin_ end_
      = some (List.range' begin_.toNat ((end_ - begin_).toNat)) := by
  have hb : 0 ≤ begin_ ∧ begin_ < 2048 := ⟨h0, by omega⟩
  have hlen : (end_ - begin_).toNat = end_.toNat - begin_.toNat := by omega
  unfold dispatch dispatch_use_end
  by_cases he : end_ < (max : Int)
  · rw [if_pos he, if_pos hb, hlen]
    congr 1
    exact index_eq_range true max end_ end_.toNat (by omega)
      (Or.inr ⟨rfl, by omega⟩) (fun _ => by omega) _ _ (by omega) (by omega)
  · rw [if_neg he, if_pos hb, hlen]
    congr 1
    have hem : end_.toNat = max := by omega
    rw [hem]
    exact index_eq_range false max end_ max le_rfl (Or.inl rfl)
      (fun h => by cases h) _ _ (by omega) (by omega)

theorem count_range' (a len n : Nat) :
    (List.range' a len).count n = if a ≤ n ∧ n < a + len then 1 else 0 := by
  induction len generalizing a with
  | zero =>
    have : ¬ (a ≤ n ∧ n < a + 0) := by omega
    rw [if_neg this]; rfl
  | succ len ih =>
    rw [List.range'_succ, List.count_cons, ih (a + 1)]
    by_cases h1 : a = n
    · subst h1
      have h3 : ¬ (a + 1 ≤ a ∧ a < a + 1 + len) := by omega
      have h4 : a ≤ a ∧ a < a + (len + 1) := by omega
      simp [h3, h4]
    · have h1' : ¬ (a == n) = true := by simpa using h1
      by_cases h2 : a + 1 ≤ n ∧ n < a + 1 + len
      · rw [if_pos h2, if_pos (show a ≤ n ∧ n < a + (len + 1) by omega), if_neg h1']
      · rw [if_neg h2, if_neg h1', if_neg (show ¬ (a ≤ n ∧ n < a + (len + 1)) by omega)]

end RangeDispatcher

/-! ### Lemmas on `find_begin`, `find_end` and runs -/

namespace SubrangeDispatcher

variable {τ : Type} [DecidableEq τ]

theorem find_begin_loop_le (region : Nat → τ) (t : τ) (n : Nat) :
    find_begin_loop region t n ≤ n := by
  induction n with
  | zero => simp [find_begin_loop]
  | succ n ih =>
    unfold find_begin_loop
    split
    · omega
    · exact le_rfl

theorem find_begin_loop_same (region : Nat → τ) (t : τ) (n : Nat) :
    ∀ i, find_begin_loop region t n ≤ i → i < n → region i = t := by
  induction n with
  | zero => intro i _ h; omega
  | succ n ih =>
    intro i h1 h2
    unfold find_begin_loop at h1
    split at h1
    · rename_i hr
      by_cases hi : i = n
      · subst hi; exact hr
      · exact ih i h1 (by omega)
    · omega

theorem find_begin_loop_stop (region : Nat → τ) (t : τ) (n : Nat) :
    find_begin_loop region t n = 0 ∨ region (find_begin_loop region t n - 1) ≠ t := by
  induction n with
  | zero => left; simp [find_begin_loop]
  | succ n ih =>
    unfold find_begin_loop
    split
    · exact ih
    · rename_i hr
      right
      simpa using hr

theorem find_end_loop_ge (region : Nat → τ) (max : Nat) (t : τ) :
    ∀ fuel n, n ≤ find_end_loop region max t fuel n := by
  intro fuel
  induction fuel with
  | zero => intro n; simp [find_end_loop]
  | succ fuel ih =>
    intro n
    unfold find_end_loop
    split
    · exact le_trans (Nat.le_succ n) (ih (n + 1))
    · exact le_rfl

theorem find_end_loop_le (region : Nat → τ) (max : Nat) (t : τ) :
    ∀ fuel n, n ≤ max → find_end_loop region max t fuel n ≤ max := by
  intro fuel
  induction fuel with
  | zero => intro n h; simpa [find_end_loop] using h
  | succ fuel ih =>
    intro n h
    unfold find_end_loop
    split
    · rename_i hc
      exact ih (n + 1) hc.1
    · exact h

theorem find_end_loop_same (region : Nat → τ) (max : Nat) (t : τ) :
    ∀ fuel n i, n ≤ i → i < find_end_loop region max t fuel n → region i = t := by
  intro fuel
  induction fuel with
  | zero => intro n i h1 h2; simp [find_end_loop] at h2; omega
  | succ fuel ih =>
    intro n i h1 h2
    unfold find_end_loop at h2
    split at h2
    · rename_i hc
      by_cases hi : i = n
      · subst hi; exact hc.2
      · exact ih (n + 1) i (by omega) h2
    · omega

theorem find_end_loop_stop (region : Nat → τ) (max : Nat) (t : τ) :
    ∀ fuel n, n ≤ max → max ≤ n + fuel →
      find_end_loop region max t fuel n = max ∨
        region (find_end_loop region max t fuel n) ≠ t := by
  intro fuel
  induction fuel with
  | zero => intro n h1 h2; left; simp [find_end_loop]; omega
  | succ fuel ih =>
    intro n h1 h2
    unfold find_end_loop
    split
    · rename_i hc
      exact ih (n + 1) hc.1 (by omega)
    · rename_i hc
      by_cases hn : n < max
      · right
        intro h
        exact hc ⟨hn, h⟩
      · left; omega

theorem find_begin_le (region : Nat → τ) (n : Nat) : find_begin region n ≤ n :=
  find_begin_loop_le region (region n) n

theorem find_end_gt (region : Nat → τ) (max n : Nat) (h : n < max) :
    n < find_end region max n := by
  unfold find_end
  obtain ⟨k, hk⟩ : ∃ k, max - n = k + 1 := ⟨max - n - 1, by omega⟩
  rw [hk]
  unfold find_end_loop
  rw [if_pos ⟨h, rfl⟩]
  exact find_end_loop_ge region max (region n) k (n + 1)

theorem find_end_le (region : Nat → τ) (max n : Nat) (h : n ≤ max) :
    find_end region max n ≤ max :=
  find_end_loop_le region max (region n) (max - n) n h

theorem find_end_at_max (region : Nat → τ) (max n : Nat) (h : max ≤ n) :
    find_end region max n = n := by
  unfold find_end
  have : max - n = 0 := by omega
  rw [this]
  rfl

end SubrangeDispatcher

section RunFacts

variable {τ : Type} [DecidableEq τ]

open SubrangeDispatcher

/-- Two runs that share an index are the same run. -/
theorem IsRun.unique {region : Nat → τ} {max s e s' e' n : Nat}
    (h : IsRun region max s e) (h' : IsRun region max s' e')
    (hn : s ≤ n ∧ n < e) (hn' : s' ≤ n ∧ n < e') : s = s' ∧ e = e' := by
  obtain ⟨h1, h2, h3, h4, h5⟩ := h
  obtain ⟨h1', h2', h3', h4', h5'⟩ := h'
  have hr : region s = region s' := by
    rw [← h3 n hn.1 hn.2, ← h3' n hn'.1 hn'.2]
  constructor
  · rcases Nat.lt_trichotomy s s' with hlt | heq | hgt
    · exfalso
      rcases h4' with h0 | hne
      · omega
      · apply hne
        rw [h3 (s' - 1) (by omega) (by omega), hr]
    · exact heq
    · exfalso
      rcases h4 with h0 | hne
      · omega
      · apply hne
        rw [h3' (s - 1) (by omega) (by omega), hr]
  · rcases Nat.lt_trichotomy e e' with hlt | heq | hgt
    · exfalso
      rcases h5 with h0 | hne
      · omega
      · apply hne
        rw [h3' e (by omega) hlt, hr]
    · exact heq
    · exfalso
      rcases h5' with h0 | hne
      · omega
      · apply hne
        rw [h3 e' (by omega) hgt, hr]

/-- The span that `find_begin` and `find_end` compute around `n < max` is a run. -/
theorem isRun_find (region : Nat → τ) (max n : Nat) (h : n < max) :
    IsRun region max (find_begin region n) (find_end region max n) := by
  have hb := find_begin_le region n
  have he := find_end_gt region max n h
  have hsame : ∀ i, find_begin region n ≤ i → i < find_end region max n →
      region i = region n := by
    intro i h1 h2
    by_cases hi : i < n
    · exact find_begin_loop_same region (region n) n i h1 hi
    · exact find_end_loop_same region max (region n) (max - n) n i (by omega) h2
  have hs : region (find_begin region n) = region n := hsame _ le_rfl (by omega)
  refine ⟨by omega, find_end_le region max n (le_of_lt h), ?_, ?_, ?_⟩
  · intro i h1 h2
    rw [hsame i h1 h2, hs]
  · rw [hs]
    exact find_begin_loop_stop region (region n) n
  · rw [hs]
    exact find_end_loop_stop region max (region n) (max - n) n (le_of_lt h) (by omega)

/-- `find_begin` and `find_end` at an index of a run return that run. -/
theorem IsRun.find_eq {region : Nat → τ} {max s e n : Nat}
    (h : IsRun region max s e) (h1 : s ≤ n) (h2 : n < e) :
    find_begin region n = s ∧ find_end region max n = e := by
  have hmax : n < max := lt_of_lt_of_le h2 h.2.1
  exact IsRun.unique (isRun_find region max n hmax) h
    ⟨find_begin_le region n, find_end_gt region max n hmax⟩ ⟨h1, h2⟩

/-- A run start below `max` starts the run that `find_end` closes. -/
theorem isRun_of_runStart (region : Nat → τ) (max p : Nat) (hp : RunStart region p)
    (h : p < max) : IsRun region max p (find_end region max p) := by
  have hr := isRun_find region max p h
  have hb : find_begin region p = p := by
    rcases Nat.lt_or_ge (find_begin region p) p with hlt | hge
    · exfalso
      rcases hp with h0 | hne
      · omega
      · apply hne
        exact find_begin_loop_same region (region p) p (p - 1) (by unfold find_begin at hlt; omega)
          (by omega)
    · exact le_antisymm (find_begin_le region p) hge
  rw [hb] at hr
  exact hr

/-- The end of a run is `max` or a run start. -/
theorem IsRun.runStart_end {region : Nat → τ} {max s e : Nat} (h : IsRun region max s e) :
    e = max ∨ RunStart region e := by
  rcases h.2.2.2.2 with h5 | h5
  · exact Or.inl h5
  · right; right
    rw [h.2.2.1 (e - 1) (by have := h.1; omega) (by have := h.1; omega)]
    exact fun hc => h5 hc.symm

theorem IsRun.runStart {region : Nat → τ} {max s e : Nat} (h : IsRun region max s e) :
    RunStart region s := h.2.2.2.1

end RunFacts

/-! ### The call trace of `SubrangeDispatcher::dispatch` -/

namespace SubrangeDispatcher

variable {τ : Type} [DecidableEq τ]

theorem index_succ (region : Nat → τ) (max : Nat) (begin_ end_ : Int) (fuel n : Nat) :
    index region max begin_ end_ (fuel + 1) n =
      if n ≤ max then
        if n = find_begin region n ∧ (n : Int) ≥ end_ then []
        else
          (if n = find_begin region n then [Call.begin_ (region n) (n : Int)] else []) ++
          (if (n : Int) = (find_end region max n : Int) - 1 then
            Call.advance (region n)
                (Min.min end_ (find_end region max n : Int)
                  - Max.max begin_ (find_begin region n : Int)) ::
              (if Min.min end_ (find_end region max n : Int) = (n : Int) + 1 then
                [Call.end_ (region n) ((n : Int) + 1)]
               else [])
          else []) ++
          index region max begin_ end_ fuel (n + 1)
      else index region max begin_ end_ fuel (n + 1) := by
  rw [index]

/-- Cases beyond `max` make no call. -/
theorem index_beyond (region : Nat → τ) (max : Nat) (begin_ end_ : Int) :
    ∀ fuel n, max < n → index region max begin_ end_ fuel n = [] := by
  intro fuel
  induction fuel with
  | zero => intro n _; rfl
  | succ fuel ih =>
    intro n h
    rw [index_succ, if_neg (by omega)]
    exact ih (n + 1) (by omega)

/-- The case `max` makes no call when `end ≤ max`. -/
theorem index_at_max (region : Nat → τ) (max : Nat) (begin_ end_ : Int)
    (hend : end_ ≤ (max : Int)) :
    ∀ fuel, index region max begin_ end_ fuel max = [] := by
  intro fuel
  cases fuel with
  | zero => rfl
  | succ fuel =>
    rw [index_succ, if_pos le_rfl]
    by_cases hb : max = find_begin region max
    · rw [if_pos ⟨hb, by omega⟩]
    · have hne : ¬ (max = find_begin region max ∧ (max : Int) ≥ end_) := fun h => hb h.1
      have hfe : ¬ ((max : Int) = (find_end region max max : Int) - 1) := by
        rw [find_end_at_max region max max le_rfl]; omega
      rw [if_neg hne, if_neg hb, if_neg hfe, index_beyond region max begin_ end_ fuel (max + 1)
        (by omega)]
      rfl

/-- The calls made between entering the run `[s, e)` at the index `n` and reaching `e`;
at `n = s` the entry must not be the early return (`s < end`). -/
theorem index_run (region : Nat → τ) (max : Nat) (begin_ end_ : Int) (s e : Nat)
    (hrun : IsRun region max s e) :
    ∀ fuel n, s ≤ n → n < e → e ≤ n + fuel → (n = s → (s : Int) < end_) →
      index region max begin_ end_ fuel n =
        (if n = s then [Call.begin_ (region s) (s : Int)] else []) ++
        (Call.advance (region s) (Min.min end_ (e : Int) - Max.max begin_ (s : Int)) ::
          (if (e : Int) ≤ end_ then [Call.end_ (region s) (e : Int)] else [])) ++
        index region max begin_ end_ (fuel - (e - n)) e := by
  intro fuel
  induction fuel with
  | zero => intro n h1 h2 h3; omega
  | succ fuel ih =>
    intro n h1 h2 h3 h4
    obtain ⟨hfb, hfe⟩ := hrun.find_eq h1 h2
    have hreg : region n = region s := hrun.2.2.1 n h1 h2
    have hmax : n ≤ max := by have := hrun.2.1; omega
    rw [index_succ, if_pos hmax, hfb, hfe, hreg]
    have hret : ¬ (n = s ∧ (n : Int) ≥ end_) := by
      rintro ⟨ha, hb⟩
      have := h4 ha
      omega
    rw [if_neg hret]
    have hbeg : (if n = s then [Call.begin_ (region s) (n : Int)] else [])
        = (if n = s then [Call.begin_ (region s) (s : Int)] else []) := by
      by_cases hns : n = s
      · rw [hns]
      · rw [if_neg hns, if_neg hns]
    rw [hbeg]
    by_cases hlast : n + 1 = e
    · have hl : (n : Int) = (e : Int) - 1 := by omega
      have hfuel : fuel + 1 - (e - n) = fuel := by omega
      have hend : (Min.min end_ (e : Int) = (n : Int) + 1) ↔ ((e : Int) ≤ end_) := by
        constructor
        · intro h; omega
        · intro h; omega
      rw [if_pos hl, hfuel, hlast]
      simp only [hend]
      have he' : ((n : Int) + 1) = (e : Int) := by omega
      rw [he']
    · have hl : ¬ ((n : Int) = (e : Int) - 1) := by omega
      have hfuel : fuel + 1 - (e - n) = fuel - (e - (n + 1)) := by omega
      have hns : ¬ (n + 1 = s) := by omega
      rw [if_neg hl, ih (n + 1) (by omega) (by omega) (by omega) (fun h => absurd h hns),
        if_neg hns, hfuel]
      simp

end SubrangeDispatcher

/-! ### The list of runs -/

section RunListFacts

variable {τ : Type} [DecidableEq τ]

open SubrangeDispatcher

theorem runsFrom_succ (region : Nat → τ) (max fuel p : Nat) :
    runsFrom region max (fuel + 1) p =
      if p < max then
        (p, find_end region max p) :: runsFrom region max fuel (find_end region max p)
      else [] := by
  rw [runsFrom]

theorem runsFrom_ge (region : Nat → τ) (max : Nat) :
    ∀ fuel p r, r ∈ runsFrom region max fuel p → p ≤ r.1 ∧ r.1 < r.2 ∧ r.2 ≤ max := by
  intro fuel
  induction fuel with
  | zero => intro p r h; simp [runsFrom] at h
  | succ fuel ih =>
    intro p r h
    rw [runsFrom_succ] at h
    by_cases hp : p < max
    · rw [if_pos hp] at h
      have hgt := find_end_gt region max p hp
      have hle := find_end_le region max p (le_of_lt hp)
      rcases List.mem_cons.mp h with h | h
      · subst h
        exact ⟨le_rfl, hgt, hle⟩
      · have := ih _ r h
        omega
    · rw [if_neg hp] at h
      simp at h

theorem runsFrom_isRun (region : Nat → τ) (max : Nat) :
    ∀ fuel p r, (p = max ∨ RunStart region p) → r ∈ runsFrom region max fuel p →
      IsRun region max r.1 r.2 := by
  intro fuel
  induction fuel with
  | zero => intro p r _ h; simp [runsFrom] at h
  | succ fuel ih =>
    intro p r hp h
    rw [runsFrom_succ] at h
    by_cases hlt : p < max
    · rw [if_pos hlt] at h
      have hs : RunStart region p := by
        rcases hp with hp | hp
        · omega
        · exact hp
      have hrun := isRun_of_runStart region max p hs hlt
      rcases List.mem_cons.mp h with h | h
      · subst h
        exact hrun
      · exact ih _ r hrun.runStart_end h
    · rw [if_neg hlt] at h
      simp at h

theorem runsFrom_complete (region : Nat → τ) (max s e : Nat) (hrun : IsRun region max s e) :
    ∀ fuel p, RunStart region p → p ≤ s → max ≤ p + fuel →
      (s, e) ∈ runsFrom region max fuel p := by
  intro fuel
  induction fuel with
  | zero => intro p _ h1 h2; have := hrun.1; have := hrun.2.1; omega
  | succ fuel ih =>
    intro p hp h1 h2
    have hlt : p < max := by have := hrun.1; have := hrun.2.1; omega
    rw [runsFrom_succ, if_pos hlt]
    have hr := isRun_of_runStart region max p hp hlt
    by_cases hs : s < find_end region max p
    · obtain ⟨ha, hb⟩ := IsRun.unique hr hrun ⟨h1, hs⟩ ⟨le_rfl, hrun.1⟩
      rw [← ha, ← hb]
      exact List.mem_cons_self _ _
    · have hgt := find_end_gt region max p hlt
      have hne : find_end region max p ≠ max := by have := hrun.1; have := hrun.2.1; omega
      have hs' : RunStart region (find_end region max p) := by
        rcases hr.runStart_end with h | h
        · exact absurd h hne
        · exact h
      exact List.mem_cons_of_mem _ (ih _ hs' (by omega) (by omega))

theorem runsFrom_pairwise (region : Nat → τ) (max : Nat) :
    ∀ fuel p, (runsFrom region max fuel p).Pairwise (fun a b => a.1 < b.1) := by
  intro fuel
  induction fuel with
  | zero => intro p; simp [runsFrom]
  | succ fuel ih =>
    intro p
    rw [runsFrom_succ]
    by_cases hlt : p < max
    · rw [if_pos hlt]
      refine List.pairwise_cons.mpr ⟨?_, ih _⟩
      intro r hr
      have := (runsFrom_ge region max fuel _ r hr).1
      have := find_end_gt region max p hlt
      show p < r.1
      omega
    · rw [if_neg hlt]
      exact List.Pairwise.nil

theorem mem_allRuns (region : Nat → τ) (max s e : Nat) :
    (s, e) ∈ allRuns region max ↔ IsRun region max s e := by
  constructor
  · intro h
    exact runsFrom_isRun region max max 0 (s, e) (Or.inr (Or.inl rfl)) h
  · intro h
    exact runsFrom_complete region max s e h max 0 (Or.inl rfl) (Nat.zero_le _) (by omega)

theorem allRuns_pairwise (region : Nat → τ) (max : Nat) :
    (allRuns region max).Pairwise (fun a b => a.1 < b.1) :=
  runsFrom_pairwise region max max 0

/-- The lengths of the runs from `p` on add up to `max - p`. -/
theorem runsFrom_sum (region : Nat → τ) (max : Nat) :
    ∀ fuel p, p ≤ max → max ≤ p + fuel →
      ((runsFrom region max fuel p).map (fun r => (r.2 : Int) - (r.1 : Int))).sum
        = (max : Int) - (p : Int) := by
  intro fuel
  induction fuel with
  | zero => intro p h1 h2; simp [runsFrom]; omega
  | succ fuel ih =>
    intro p h1 h2
    rw [runsFrom_succ]
    by_cases hlt : p < max
    · have hgt := find_end_gt region max p hlt
      have hle := find_end_le region max p h1
      rw [if_pos hlt, List.map_cons, List.sum_cons, ih _ hle (by omega)]
      omega
    · rw [if_neg hlt]
      simp; omega

end RunListFacts

/-! ### The trace of a dispatch, run by run -/

section TraceByRuns

variable {τ : Type} [DecidableEq τ]

open SubrangeDispatcher

/-- Entered at a run start `p ≥ begin`, the chain makes the calls of the runs that start
in `[p, end)`. -/
theorem index_runs (region : Nat → τ) (max : Nat) (begin_ end_ : Int)
    (hend : end_ ≤ (max : Int)) :
    ∀ f p fuel, (p = max ∨ RunStart region p) → p ≤ max → begin_ ≤ (p : Int) →
      max ≤ p + fuel → max ≤ p + f →
      SubrangeDispatcher.index region max begin_ end_ fuel p =
        ((runsFrom region max f p).filter (fun r => decide ((r.1 : Int) < end_))).flatMap
          (runCalls region begin_ end_) := by
  intro f
  induction f with
  | zero =>
    intro p fuel _ h1 _ _ h2
    have hp : p = max := by omega
    subst hp
    rw [index_at_max region p begin_ end_ hend]
    simp [runsFrom]
  | succ f ih =>
    intro p fuel hp h1 hb h2 h3
    by_cases hlt : p < max
    · have hs : RunStart region p := by
        rcases hp with hp | hp
        · omega
        · exact hp
      have hrun := isRun_of_runStart region max p hs hlt
      have hgt := find_end_gt region max p hlt
      have hle := find_end_le region max p h1
      rw [runsFrom_succ, if_pos hlt]
      by_cases hpe : (p : Int) < end_
      · rw [index_run region max begin_ end_ p _ hrun fuel p le_rfl hgt (by omega)
          (fun _ => hpe)]
        have hf : ∀ l : List (Nat × Nat),
            List.filter (fun r : Nat × Nat => decide ((r.1 : Int) < end_))
              ((p, find_end region max p) :: l)
            = (p, find_end region max p) ::
                List.filter (fun r : Nat × Nat => decide ((r.1 : Int) < end_)) l := by
          intro l
          rw [List.filter_cons, if_pos (decide_eq_true hpe)]
        rw [hf, List.flatMap_cons,
          ← ih _ (fuel - (find_end region max p - p)) hrun.runStart_end hle (by omega)
            (by omega) (by omega)]
        congr 1
        unfold runCalls
        have hc : begin_ ≤ (p : Int) ∧ (p : Int) < end_ := ⟨hb, hpe⟩
        rw [if_pos rfl, if_pos hc]
      · obtain ⟨k, hk⟩ : ∃ k, fuel = k + 1 := ⟨fuel - 1, by omega⟩
        rw [hk, index_succ, if_pos h1, if_pos ⟨(hrun.find_eq le_rfl hgt).1.symm, by omega⟩]
        symm
        rw [List.flatMap_eq_nil_iff]
        intro r hr
        exfalso
        rw [List.mem_filter] at hr
        obtain ⟨hr1, hr2⟩ := hr
        have hr3 : (r.1 : Int) < end_ := by simpa using hr2
        rcases List.mem_cons.mp hr1 with h | h
        · subst h; exact hpe hr3
        · have := (runsFrom_ge region max f _ r h).1
          omega
    · have hpm : p = max := by omega
      subst hpm
      rw [index_at_max region p begin_ end_ hend, runsFrom_succ, if_neg hlt]
      rfl

/-- From a run start `p ≤ b` on, the runs touched by a dispatch over `[b, end)` carry
exactly the calls that the chain makes when entered at `b`. -/
theorem index_entry (region : Nat → τ) (max : Nat) (b : Nat) (end_ : Int)
    (hend : end_ ≤ (max : Int)) (hbe : (b : Int) ≤ end_) (hb : b < max) :
    ∀ f p fuel, RunStart region p → p ≤ b → max ≤ b + fuel → max ≤ p + f →
      SubrangeDispatcher.index region max (b : Int) end_ fuel b =
        ((runsFrom region max f p).filter (touched (b : Int) end_)).flatMap
          (runCalls region (b : Int) end_) := by
  intro f
  induction f with
  | zero => intro p fuel _ h1 _ h2; omega
  | succ f ih =>
    intro p fuel hp h1 h2 h3
    have hlt : p < max := by omega
    have hrun := isRun_of_runStart region max p hp hlt
    have hgt := find_end_gt region max p hlt
    have hle := find_end_le region max p (le_of_lt hlt)
    rw [runsFrom_succ, if_pos hlt]
    by_cases hin : b < find_end region max p
    · -- the run `[p, e)` contains `b`
      have hrest : (runsFrom region max f (find_end region max p)).filter (touched (b : Int) end_)
          = (runsFrom region max f (find_end region max p)).filter
              (fun r => decide ((r.1 : Int) < end_)) := by
        apply List.filter_congr
        intro r hr
        have := (runsFrom_ge region max f _ r hr).1
        unfold touched
        apply Bool.decide_congr
        constructor
        · rintro (h | h)
          · omega
          · exact h.2
        · intro h
          exact Or.inr ⟨by omega, h⟩
      by_cases ht : ((p : Int) < (b : Int)) ∨ ((b : Int) < end_)
      · have htouch : touched (b : Int) end_ (p, find_end region max p) = true := by
          unfold touched
          rw [decide_eq_true_iff]
          rcases ht with h | h
          · exact Or.inl ⟨h, by simpa using hin⟩
          · by_cases hpb : p = b
            · exact Or.inr ⟨by simp [hpb], by rw [hpb]; exact h⟩
            · exact Or.inl ⟨by omega, by simpa using hin⟩
        rw [List.filter_cons_of_pos htouch, hrest, List.flatMap_cons,
          index_run region max (b : Int) end_ p _ hrun fuel b h1 hin (by omega)
            (fun h => by rcases ht with h' | h' <;> omega),
          ← index_runs region max (b : Int) end_ hend f (find_end region max p)
            (fuel - (find_end region max p - b)) hrun.runStart_end hle (by omega) (by omega)
            (by omega)]
        congr 1
        unfold runCalls
        by_cases hpb : b = p
        · subst hpb
          have hbe' : (b : Int) < end_ := by rcases ht with h | h <;> omega
          simp [hbe']
        · have hpb' : ¬ ((b : Int) ≤ (p : Int) ∧ (p : Int) < end_) := by omega
          rw [if_neg hpb, if_neg hpb']
      · -- `b = p = end`: the early return
        have hpb : p = b := by omega
        have hbe' : end_ = (b : Int) := by omega
        have htouch : ¬ touched (b : Int) end_ (p, find_end region max p) = true := by
          unfold touched
          rw [decide_eq_true_iff]
          simp only
          omega
        rw [List.filter_cons_of_neg htouch, hrest]
        obtain ⟨k, hk⟩ : ∃ k, fuel = k + 1 := ⟨fuel - 1, by omega⟩
        rw [hk, index_succ, if_pos (le_of_lt hb),
          if_pos ⟨by rw [← hpb]; exact (hrun.find_eq le_rfl hgt).1.symm, by omega⟩]
        symm
        rw [List.flatMap_eq_nil_iff]
        intro r hr
        exfalso
        rw [List.mem_filter] at hr
        obtain ⟨hr1, hr2⟩ := hr
        have hr3 : (r.1 : Int) < end_ := by simpa using hr2
        have := (runsFrom_ge region max f _ r hr1).1
        omega
    · -- the run `[p, e)` ends at or before `b`
      have htouch : ¬ touched (b : Int) end_ (p, find_end region max p) = true := by
        unfold touched
        rw [decide_eq_true_iff]
        simp only
        omega
      rw [List.filter_cons_of_neg htouch]
      have hne : find_end region max p ≠ max := by omega
      have hs' : RunStart region (find_end region max p) := by
        rcases hrun.runStart_end with h | h
        · exact absurd h hne
        · exact h
      exact ih _ fuel hs' (by omega) h2 (by omega)

/-- The trace of `SubrangeDispatcher::dispatch` under its precondition: the calls of the
touched runs, run after run. -/
theorem dispatch_eq (region : Nat → τ) (max : Nat) (hmax : max < 2048)
    (begin_ end_ : Int) (h0 : 0 ≤ begin_) (h1 : begin_ ≤ end_) (h2 : end_ ≤ (max : Int)) :
    SubrangeDispatcher.dispatch region max begin_ end_ =
      some (((allRuns region max).filter (touched begin_ end_)).flatMap
        (runCalls region begin_ end_)) := by
  unfold SubrangeDispatcher.dispatch
  rw [if_pos ⟨h0, by omega⟩]
  congr 1
  obtain ⟨b, rfl⟩ : ∃ b : Nat, begin_ = (b : Int) := ⟨begin_.toNat, by omega⟩
  rw [Int.toNat_ofNat]
  by_cases hb : b < max
  · exact index_entry region max b end_ h2 h1 hb max 0 _ (Or.inl rfl) (Nat.zero_le _)
      (by omega) (by omega)
  · have hbm : b = max := by omega
    subst hbm
    rw [index_at_max region b (b : Int) end_ h2]
    symm
    rw [List.flatMap_eq_nil_iff]
    intro r hr
    exfalso
    rw [List.mem_filter] at hr
    obtain ⟨hr1, hr2⟩ := hr
    have hg := runsFrom_ge region b b 0 r hr1
    unfold touched at hr2
    rw [decide_eq_true_iff] at hr2
    omega

end TraceByRuns

/-! ### The calls of one kind in a trace -/

section CallsOfOneKind

variable {τ : Type} [DecidableEq τ]

theorem beginCalls_append (t₁ t₂ : List (Call τ)) :
    beginCalls (t₁ ++ t₂) = beginCalls t₁ ++ beginCalls t₂ := by
  induction t₁ with
  | nil => rfl
  | cons c cs ih => cases c <;> simp [beginCalls, ih]

theorem advanceCalls_append (t₁ t₂ : List (Call τ)) :
    advanceCalls (t₁ ++ t₂) = advanceCalls t₁ ++ advanceCalls t₂ := by
  induction t₁ with
  | nil => rfl
  | cons c cs ih => cases c <;> simp [advanceCalls, ih]

theorem endCalls_append (t₁ t₂ : List (Call τ)) :
    endCalls (t₁ ++ t₂) = endCalls t₁ ++ endCalls t₂ := by
  induction t₁ with
  | nil => rfl
  | cons c cs ih => cases c <;> simp [endCalls, ih]

theorem mem_beginCalls (t : List (Call τ)) (r : τ) (n : Int) :
    (r, n) ∈ beginCalls t ↔ Call.begin_ r n ∈ t := by
  induction t with
  | nil => simp [beginCalls]
  | cons c cs ih => cases c <;> simp [beginCalls, ih]

theorem mem_endCalls (t : List (Call τ)) (r : τ) (n : Int) :
    (r, n) ∈ endCalls t ↔ Call.end_ r n ∈ t := by
  induction t with
  | nil => simp [endCalls]
  | cons c cs ih => cases c <;> simp [endCalls, ih]

theorem beginCalls_runCalls (region : Nat → τ) (begin_ end_ : Int) (r : Nat × Nat) :
    beginCalls (runCalls region begin_ end_ r) =
      if begin_ ≤ (r.1 : Int) ∧ (r.1 : Int) < end_ then [(region r.1, (r.1 : Int))] else [] := by
  unfold runCalls
  by_cases h1 : begin_ ≤ (r.1 : Int) ∧ (r.1 : Int) < end_ <;>
    by_cases h2 : (r.2 : Int) ≤ end_ <;>
    simp [h1, h2, beginCalls]

theorem advanceCalls_runCalls (region : Nat → τ) (begin_ end_ : Int) (r : Nat × Nat) :
    advanceCalls (runCalls region begin_ end_ r) =
      [(region r.1, Min.min end_ (r.2 : Int) - Max.max begin_ (r.1 : Int))] := by
  unfold runCalls
  by_cases h1 : begin_ ≤ (r.1 : Int) ∧ (r.1 : Int) < end_ <;>
    by_cases h2 : (r.2 : Int) ≤ end_ <;>
    simp [h1, h2, advanceCalls]

theorem endCalls_runCalls (region : Nat → τ) (begin_ end_ : Int) (r : Nat × Nat) :
    endCalls (runCalls region begin_ end_ r) =
      if (r.2 : Int) ≤ end_ then [(region r.1, (r.2 : Int))] else [] := by
  unfold runCalls
  by_cases h1 : begin_ ≤ (r.1 : Int) ∧ (r.1 : Int) < end_ <;>
    by_cases h2 : (r.2 : Int) ≤ end_ <;>
    simp [h1, h2, endCalls]

theorem beginCalls_flatMap (region : Nat → τ) (begin_ end_ : Int) (rs : List (Nat × Nat)) :
    beginCalls (rs.flatMap (runCalls region begin_ end_)) =
      (rs.filter (fun r => decide (begin_ ≤ (r.1 : Int) ∧ (r.1 : Int) < end_))).map
        (fun r => (region r.1, (r.1 : Int))) := by
  induction rs with
  | nil => rfl
  | cons r rs ih =>
    rw [List.flatMap_cons, beginCalls_append, ih, beginCalls_runCalls, List.filter_cons]
    by_cases h : begin_ ≤ (r.1 : Int) ∧ (r.1 : Int) < end_
    · rw [if_pos h, if_pos (decide_eq_true h)]; rfl
    · rw [if_neg h, if_neg (by simpa using h)]; rfl

theorem advanceCalls_flatMap (region : Nat → τ) (begin_ end_ : Int) (rs : List (Nat × Nat)) :
    advanceCalls (rs.flatMap (runCalls region begin_ end_)) =
      rs.map (fun r => (region r.1, Min.min end_ (r.2 : Int) - Max.max begin_ (r.1 : Int))) := by
  induction rs with
  | nil => rfl
  | cons r rs ih =>
    rw [List.flatMap_cons, advanceCalls_append, ih, advanceCalls_runCalls]; rfl

theorem endCalls_flatMap (region : Nat → τ) (begin_ end_ : Int) (rs : List (Nat × Nat)) :
    endCalls (rs.flatMap (runCalls region begin_ end_)) =
      (rs.filter (fun r => decide ((r.2 : Int) ≤ end_))).map
        (fun r => (region r.1, (r.2 : Int))) := by
  induction rs with
  | nil => rfl
  | cons r rs ih =>
    rw [List.flatMap_cons, endCalls_append, ih, endCalls_runCalls, List.filter_cons]
    by_cases h : (r.2 : Int) ≤ end_
    · rw [if_pos h, if_pos (decide_eq_true h)]; rfl
    · rw [if_neg h, if_neg (by simpa using h)]; rfl

/-- The calls of a run that sits in a list of runs appear, contiguously, in the calls of
the list. -/
theorem flatMap_runCalls_split (region : Nat → τ) (begin_ end_ : Int) (rs : List (Nat × Nat))
    (r : Nat × Nat) (h : r ∈ rs) :
    ∃ pre post, rs.flatMap (runCalls region begin_ end_)
      = pre ++ runCalls region begin_ end_ r ++ post := by
  obtain ⟨l₁, l₂, rfl⟩ := List.append_of_mem h
  refine ⟨l₁.flatMap (runCalls region begin_ end_), l₂.flatMap (runCalls region begin_ end_), ?_⟩
  rw [List.flatMap_append, List.flatMap_cons, List.append_assoc]

end CallsOfOneKind

/-! ## Properties of `RangeDispatcher` -/

/-- C1: for a sequencer bound `max < 2048` and `0 ≤ begin ≤ end ≤ max`,
`RangeDispatcher::dispatch` returns, and the `perform<n>` calls it makes are strictly
increasing in `n`, contain every `n` with `begin ≤ n < end` exactly once and no other `n`,
and number `end - begin`. -/
theorem C1_dispatch_performs_each_index_once (max : Nat) (hmax : max < 2048)
    (begin_ end_ : Int) (h0 : 0 ≤ begin_) (h1 : begin_ ≤ end_) (h2 : end_ ≤ (max : Int)) :
    ∃ calls : List Nat, RangeDispatcher.dispatch max begin_ end_ = some calls ∧
      calls.Pairwise (fun a b => a < b) ∧
      (∀ n : Nat, calls.count n = if begin_ ≤ (n : Int) ∧ (n : Int) < end_ then 1 else 0) ∧
      (calls.length : Int) = end_ - begin_ := by
  refine ⟨_, RangeDispatcher.dispatch_eq_range max hmax begin_ end_ h0 h1 h2, ?_, ?_, ?_⟩
  · exact List.pairwise_lt_range' _ _
  · intro n
    rw [RangeDispatcher.count_range']
    by_cases h : begin_ ≤ (n : Int) ∧ (n : Int) < end_
    · rw [if_pos h, if_pos (by omega)]
    · rw [if_neg h, if_neg (by omega)]
  · rw [List.length_range']
    omega

/-- C1 at `max = 10`, `begin = 2`, `end = 5`. -/
theorem C1_dispatch_performs_each_index_once_witness :
    (10 : Nat) < 2048 ∧ (0 : Int) ≤ 2 ∧ (2 : Int) ≤ 5 ∧ (5 : Int) ≤ ((10 : Nat) : Int) ∧
    ∃ calls : List Nat, RangeDispatcher.dispatch 10 2 5 = some calls ∧
      calls.Pairwise (fun a b => a < b) ∧
      (∀ n : Nat, calls.count n = if (2 : Int) ≤ (n : Int) ∧ (n : Int) < 5 then 1 else 0) ∧
      (calls.length : Int) = 5 - 2 :=
  ⟨by decide, by decide, by decide, by decide,
    C1_dispatch_performs_each_index_once 10 (by decide) 2 5 (by decide) (by decide)
      (by decide)⟩

/-- C2: for `0 ≤ begin ≤ mid ≤ end ≤ max`, the `perform` calls of a dispatch over
`[begin, mid)` followed by those of a dispatch over `[mid, end)` are the calls of one
dispatch over `[begin, end)`. -/
theorem C2_dispatch_split (max : Nat) (hmax : max < 2048) (begin_ mid end_ : Int)
    (h0 : 0 ≤ begin_) (h1 : begin_ ≤ mid) (h2 : mid ≤ end_) (h3 : end_ ≤ (max : Int)) :
    ∃ first second whole : List Nat,
      RangeDispatcher.dispatch max begin_ mid = some first ∧
      RangeDispatcher.dispatch max mid end_ = some second ∧
      RangeDispatcher.dispatch max begin_ end_ = some whole ∧
      first ++ second = whole := by
  refine ⟨_, _, _,
    RangeDispatcher.dispatch_eq_range max hmax begin_ mid h0 h1 (by omega),
    RangeDispatcher.dispatch_eq_range max hmax mid end_ (by omega) h2 h3,
    RangeDispatcher.dispatch_eq_range max hmax begin_ end_ h0 (by omega) h3, ?_⟩
  have hm : mid.toNat = begin_.toNat + 1 * (mid - begin_).toNat := by omega
  have hl : (end_ - begin_).toNat = (end_ - mid).toNat + (mid - begin_).toNat := by omega
  rw [hm, hl]
  exact List.range'_append _ _ _ 1

/-- C2 at `max = 10`, `begin = 2`, `mid = 5`, `end = 10`. -/
theorem C2_dispatch_split_witness :
    (10 : Nat) < 2048 ∧ (0 : Int) ≤ 2 ∧ (2 : Int) ≤ 5 ∧ (5 : Int) ≤ 10 ∧
    (10 : Int) ≤ ((10 : Nat) : Int) ∧
    ∃ first second whole : List Nat,
      RangeDispatcher.dispatch 10 2 5 = some first ∧
      RangeDispatcher.dispatch 10 5 10 = some second ∧
      RangeDispatcher.dispatch 10 2 10 = some whole ∧
      first ++ second = whole :=
  ⟨by decide, by decide, by decide, by decide, by decide,
    C2_dispatch_split 10 (by decide) 2 5 10 (by decide) (by decide) (by decide) (by decide)⟩

/-! ## Properties of `SubrangeDispatcher` -/

section SubrangeClaims

variable {τ : Type} [DecidableEq τ]

/-- Membership in a filtered list of all runs. -/
theorem mem_filter_allRuns (region : Nat → τ) (max : Nat) (q : Nat × Nat → Bool) (s e : Nat) :
    (s, e) ∈ (allRuns region max).filter q ↔ IsRun region max s e ∧ q (s, e) = true := by
  rw [List.mem_filter, mem_allRuns]

/-- For a non-empty interval the touched runs are the runs that intersect it. -/
theorem touched_iff_intersects (begin_ end_ : Int) (h : begin_ < end_) (s e : Nat) (hse : s < e) :
    touched begin_ end_ (s, e) = true ↔ (s : Int) < end_ ∧ begin_ < (e : Int) := by
  unfold touched
  rw [decide_eq_true_iff]
  constructor
  · rintro (h1 | h1)
    · exact ⟨by omega, h1.2⟩
    · exact ⟨h1.2, by omega⟩
  · intro h1
    by_cases hs : (s : Int) < begin_
    · exact Or.inl ⟨hs, h1.2⟩
    · exact Or.inr ⟨by omega, h1.1⟩

/-- C3: for `max < 2048` and `0 ≤ begin < end ≤ max`, `SubrangeDispatcher::dispatch` returns,
and its `advance` calls are, in increasing order of run start, one call for each run
`[s, e)` that intersects `[begin, end)` and none else, each with the tag of the run and the
length `min(end, e) - max(begin, s)`.  In the scenario `max = 10`, tag `A` on `0 .. 3`, tag
`B` on `4 .. 9`, the dispatch over `[2, 8)` makes `advance(A, 2)` then `advance(B, 4)`. -/
theorem C3_advance_once_per_intersecting_run :
    (∀ (region : Nat → τ) (max : Nat) (begin_ end_ : Int), max < 2048 → 0 ≤ begin_ →
      begin_ < end_ → end_ ≤ (max : Int) →
      ∃ (trace : List (Call τ)) (rs : List (Nat × Nat)),
        SubrangeDispatcher.dispatch region max begin_ end_ = some trace ∧
        (∀ s e, (s, e) ∈ rs ↔ IsRun region max s e ∧ (s : Int) < end_ ∧ begin_ < (e : Int)) ∧
        rs.Pairwise (fun a b => a.1 < b.1) ∧
        advanceCalls trace =
          rs.map (fun r => (region r.1, Min.min end_ (r.2 : Int) - Max.max begin_ (r.1 : Int))))
    ∧ ∃ trace, SubrangeDispatcher.dispatch regionAB 10 2 8 = some trace ∧
        advanceCalls trace = [(TagAB.A, 2), (TagAB.B, 4)] := by
  constructor
  · intro region max begin_ end_ hmax h0 h1 h2
    refine ⟨_, (allRuns region max).filter (touched begin_ end_),
      dispatch_eq region max hmax begin_ end_ h0 (le_of_lt h1) h2, ?_, ?_, ?_⟩
    · intro s e
      rw [mem_filter_allRuns]
      constructor
      · rintro ⟨hr, ht⟩
        exact ⟨hr, (touched_iff_intersects begin_ end_ h1 s e hr.1).mp ht⟩
      · rintro ⟨hr, ht⟩
        exact ⟨hr, (touched_iff_intersects begin_ end_ h1 s e hr.1).mpr ht⟩
    · exact (allRuns_pairwise region max).filter _
    · exact advanceCalls_flatMap region begin_ end_ _
  · refine ⟨_, dispatch_eq regionAB 10 (by decide) 2 8 (by decide) (by decide) (by decide), ?_⟩
    decide

/-- C3 at the scenario of the specification: `max = 10`, `[begin, end) = [2, 8)`. -/
theorem C3_advance_once_per_intersecting_run_witness :
    (10 : Nat) < 2048 ∧ (0 : Int) ≤ 2 ∧ (2 : Int) < 8 ∧ (8 : Int) ≤ ((10 : Nat) : Int) ∧
    ∃ (trace : List (Call TagAB)) (rs : List (Nat × Nat)),
      SubrangeDispatcher.dispatch regionAB 10 2 8 = some trace ∧
      (∀ s e, (s, e) ∈ rs ↔ IsRun regionAB 10 s e ∧ (s : Int) < 8 ∧ (2 : Int) < (e : Int)) ∧
      rs.Pairwise (fun a b => a.1 < b.1) ∧
      advanceCalls trace =
        rs.map (fun r => (regionAB r.1, Min.min (8 : Int) (r.2 : Int) - Max.max (2 : Int) (r.1 : Int))) :=
  ⟨by decide, by decide, by decide, by decide,
    C3_advance_once_per_intersecting_run.1 regionAB 10 2 8 (by decide) (by decide) (by decide)
      (by decide)⟩

/-- C4: for `max < 2048` and `0 ≤ begin ≤ end ≤ max`, `SubrangeDispatcher::dispatch` returns,
and its `begin` calls are, in increasing order, one call `begin<tag>(s)` for each run
`[s, e)` with `begin ≤ s < end` and none else; the call is directly followed by the
`advance` call of that run; a run that `begin` lies strictly inside gets no `begin` call. -/
theorem C4_region_start_calls (region : Nat → τ) (max : Nat) (begin_ end_ : Int)
    (hmax : max < 2048) (h0 : 0 ≤ begin_) (h1 : begin_ ≤ end_) (h2 : end_ ≤ (max : Int)) :
    ∃ (trace : List (Call τ)) (rs : List (Nat × Nat)),
      SubrangeDispatcher.dispatch region max begin_ end_ = some trace ∧
      (∀ s e, (s, e) ∈ rs ↔ IsRun region max s e ∧ begin_ ≤ (s : Int) ∧ (s : Int) < end_) ∧
      rs.Pairwise (fun a b => a.1 < b.1) ∧
      beginCalls trace = rs.map (fun r => (region r.1, (r.1 : Int))) ∧
      (∀ r ∈ rs, ∃ pre post, trace = pre ++
        Call.begin_ (region r.1) (r.1 : Int) ::
        Call.advance (region r.1) (Min.min end_ (r.2 : Int) - Max.max begin_ (r.1 : Int)) ::
        post) ∧
      (∀ s e, IsRun region max s e → (s : Int) < begin_ → begin_ < (e : Int) →
        ∀ t, Call.begin_ t (s : Int) ∉ trace) := by
  have hsub : ∀ r : Nat × Nat, r ∈ (allRuns region max).filter
        (fun r => decide (begin_ ≤ (r.1 : Int) ∧ (r.1 : Int) < end_)) →
      r ∈ (allRuns region max).filter (touched begin_ end_) := by
    intro r hr
    rw [List.mem_filter] at hr ⊢
    refine ⟨hr.1, ?_⟩
    unfold touched
    rw [decide_eq_true_iff]
    exact Or.inr (of_decide_eq_true hr.2)
  have hbc : beginCalls (((allRuns region max).filter (touched begin_ end_)).flatMap
        (runCalls region begin_ end_)) =
      ((allRuns region max).filter
        (fun r => decide (begin_ ≤ (r.1 : Int) ∧ (r.1 : Int) < end_))).map
        (fun r => (region r.1, (r.1 : Int))) := by
    rw [beginCalls_flatMap, List.filter_filter]
    congr 1
    apply List.filter_congr
    intro r _
    unfold touched
    by_cases h : begin_ ≤ (r.1 : Int) ∧ (r.1 : Int) < end_
    · simp [h]
    · simp [h]
  refine ⟨_, (allRuns region max).filter
      (fun r => decide (begin_ ≤ (r.1 : Int) ∧ (r.1 : Int) < end_)),
    dispatch_eq region max hmax begin_ end_ h0 h1 h2, ?_, ?_, hbc, ?_, ?_⟩
  · intro s e
    rw [mem_filter_allRuns, decide_eq_true_iff]
  · exact (allRuns_pairwise region max).filter _
  · intro r hr
    obtain ⟨pre, post, hsplit⟩ := flatMap_runCalls_split region begin_ end_ _ r (hsub r hr)
    have hc : begin_ ≤ (r.1 : Int) ∧ (r.1 : Int) < end_ :=
      of_decide_eq_true (List.mem_filter.mp hr).2
    refine ⟨pre, (if (r.2 : Int) ≤ end_ then [Call.end_ (region r.1) (r.2 : Int)] else [])
      ++ post, ?_⟩
    rw [hsplit]
    unfold runCalls
    rw [if_pos hc]
    simp
  · intro s e _ hs _ t hmem
    rw [← mem_beginCalls, hbc, List.mem_map] at hmem
    obtain ⟨r, hr, heq⟩ := hmem
    have hc : begin_ ≤ (r.1 : Int) ∧ (r.1 : Int) < end_ :=
      of_decide_eq_true (List.mem_filter.mp hr).2
    have : (r.1 : Int) = (s : Int) := (Prod.mk.inj heq).2
    omega

/-- C4 at the scenario of the specification: `max = 10`, `[begin, end) = [2, 8)`. -/
theorem C4_region_start_calls_witness :
    (10 : Nat) < 2048 ∧ (0 : Int) ≤ 2 ∧ (2 : Int) ≤ 8 ∧ (8 : Int) ≤ ((10 : Nat) : Int) ∧
    ∃ (trace : List (Call TagAB)) (rs : List (Nat × Nat)),
      SubrangeDispatcher.dispatch regionAB 10 2 8 = some trace ∧
      (∀ s e, (s, e) ∈ rs ↔ IsRun regionAB 10 s e ∧ (2 : Int) ≤ (s : Int) ∧ (s : Int) < 8) ∧
      rs.Pairwise (fun a b => a.1 < b.1) ∧
      beginCalls trace = rs.map (fun r => (regionAB r.1, (r.1 : Int))) ∧
      (∀ r ∈ rs, ∃ pre post, trace = pre ++
        Call.begin_ (regionAB r.1) (r.1 : Int) ::
        Call.advance (regionAB r.1) (Min.min (8 : Int) (r.2 : Int) - Max.max (2 : Int) (r.1 : Int)) ::
        post) ∧
      (∀ s e, IsRun regionAB 10 s e → (s : Int) < 2 → (2 : Int) < (e : Int) →
        ∀ t, Call.begin_ t (s : Int) ∉ trace) :=
  ⟨by decide, by decide, by decide, by decide,
    C4_region_start_calls regionAB 10 2 8 (by decide) (by decide) (by decide) (by decide)⟩

end SubrangeClaims

section SubrangeClaimsEnd

variable {τ : Type} [DecidableEq τ]

/-- C5: for `max < 2048` and `0 ≤ begin ≤ end ≤ max`, `SubrangeDispatcher::dispatch` returns,
and its `end` calls are, in increasing order, one call `end<tag>(e)` for each run `[s, e)`
that intersects `[begin, end)` and has `e ≤ end`, and none else; the call directly follows
the `advance` call of that run; a run whose end exceeds `end` gets no `end` call. -/
theorem C5_region_end_calls (region : Nat → τ) (max : Nat) (begin_ end_ : Int)
    (hmax : max < 2048) (h0 : 0 ≤ begin_) (h1 : begin_ ≤ end_) (h2 : end_ ≤ (max : Int)) :
    ∃ (trace : List (Call τ)) (rs : List (Nat × Nat)),
      SubrangeDispatcher.dispatch region max begin_ end_ = some trace ∧
      (∀ s e, (s, e) ∈ rs ↔ IsRun region max s e ∧
        ((s : Int) < end_ ∧ begin_ < (e : Int)) ∧ (e : Int) ≤ end_) ∧
      rs.Pairwise (fun a b => a.1 < b.1) ∧
      endCalls trace = rs.map (fun r => (region r.1, (r.2 : Int))) ∧
      (∀ r ∈ rs, ∃ pre post, trace = pre ++
        Call.advance (region r.1) (Min.min end_ (r.2 : Int) - Max.max begin_ (r.1 : Int)) ::
        Call.end_ (region r.1) (r.2 : Int) ::
        post) ∧
      (∀ s e, IsRun region max s e → end_ < (e : Int) → ∀ t, Call.end_ t (e : Int) ∉ trace) := by
  have hec : endCalls (((allRuns region max).filter (touched begin_ end_)).flatMap
        (runCalls region begin_ end_)) =
      (((allRuns region max).filter (touched begin_ end_)).filter
        (fun r => decide ((r.2 : Int) ≤ end_))).map (fun r => (region r.1, (r.2 : Int))) :=
    endCalls_flatMap region begin_ end_ _
  refine ⟨_, ((allRuns region max).filter (touched begin_ end_)).filter
      (fun r => decide ((r.2 : Int) ≤ end_)),
    dispatch_eq region max hmax begin_ end_ h0 h1 h2, ?_, ?_, hec, ?_, ?_⟩
  · intro s e
    rw [List.mem_filter, mem_filter_allRuns, decide_eq_true_iff]
    unfold touched
    rw [decide_eq_true_iff]
    constructor
    · rintro ⟨⟨hr, ht⟩, he⟩
      have := hr.1
      refine ⟨hr, ⟨?_, ?_⟩, he⟩
      · rcases ht with h | h
        · simp only at h he; omega
        · exact h.2
      · rcases ht with h | h
        · exact h.2
        · simp only at h; omega
    · rintro ⟨hr, ⟨ha, hb⟩, he⟩
      refine ⟨⟨hr, ?_⟩, he⟩
      by_cases hs : (s : Int) < begin_
      · exact Or.inl ⟨hs, hb⟩
      · exact Or.inr ⟨by simp only; omega, ha⟩
  · exact ((allRuns_pairwise region max).filter _).filter _
  · intro r hr
    obtain ⟨pre, post, hsplit⟩ := flatMap_runCalls_split region begin_ end_ _ r
      (List.mem_filter.mp hr).1
    have hc : (r.2 : Int) ≤ end_ := of_decide_eq_true (List.mem_filter.mp hr).2
    refine ⟨pre ++ (if begin_ ≤ (r.1 : Int) ∧ (r.1 : Int) < end_ then
      [Call.begin_ (region r.1) (r.1 : Int)] else []), post, ?_⟩
    rw [hsplit]
    unfold runCalls
    rw [if_pos hc]
    simp
  · intro s e _ he t hmem
    rw [← mem_endCalls, hec, List.mem_map] at hmem
    obtain ⟨r, hr, heq⟩ := hmem
    have hc : (r.2 : Int) ≤ end_ := of_decide_eq_true (List.mem_filter.mp hr).2
    have : (r.2 : Int) = (e : Int) := (Prod.mk.inj heq).2
    omega

/-- C5 at the scenario of the specification: `max = 10`, `[begin, end) = [2, 8)`. -/
theorem C5_region_end_calls_witness :
    (10 : Nat) < 2048 ∧ (0 : Int) ≤ 2 ∧ (2 : Int) ≤ 8 ∧ (8 : Int) ≤ ((10 : Nat) : Int) ∧
    ∃ (trace : List (Call TagAB)) (rs : List (Nat × Nat)),
      SubrangeDispatcher.dispatch regionAB 10 2 8 = some trace ∧
      (∀ s e, (s, e) ∈ rs ↔ IsRun regionAB 10 s e ∧
        ((s : Int) < 8 ∧ (2 : Int) < (e : Int)) ∧ (e : Int) ≤ 8) ∧
      rs.Pairwise (fun a b => a.1 < b.1) ∧
      endCalls trace = rs.map (fun r => (regionAB r.1, (r.2 : Int))) ∧
      (∀ r ∈ rs, ∃ pre post, trace = pre ++
        Call.advance (regionAB r.1) (Min.min (8 : Int) (r.2 : Int) - Max.max (2 : Int) (r.1 : Int)) ::
        Call.end_ (regionAB r.1) (r.2 : Int) ::
        post) ∧
      (∀ s e, IsRun regionAB 10 s e → (8 : Int) < (e : Int) →
        ∀ t, Call.end_ t (e : Int) ∉ trace) :=
  ⟨by decide, by decide, by decide, by decide,
    C5_region_end_calls regionAB 10 2 8 (by decide) (by decide) (by decide) (by decide)⟩

/-- C6: for `max < 2048`, one `SubrangeDispatcher::dispatch` over `[0, max)` returns, makes as
many `begin` calls and as many `end` calls as there are runs of `[0, max)`, and the lengths
of its `advance` calls add up to `max`. -/
theorem C6_full_dispatch_counts (region : Nat → τ) (max : Nat) (hmax : max < 2048) :
    ∃ (trace : List (Call τ)) (rs : List (Nat × Nat)),
      SubrangeDispatcher.dispatch region max 0 (max : Int) = some trace ∧
      (∀ s e, (s, e) ∈ rs ↔ IsRun region max s e) ∧ rs.Nodup ∧
      (beginCalls trace).length = rs.length ∧
      (endCalls trace).length = rs.length ∧
      ((advanceCalls trace).map Prod.snd).sum = (max : Int) := by
  have hall : ∀ q : Nat × Nat → Bool,
      (∀ r ∈ allRuns region max, q r = true) →
      (allRuns region max).filter q = allRuns region max := by
    intro q hq
    exact List.filter_eq_self.mpr hq
  have hbound : ∀ r ∈ allRuns region max, r.1 < r.2 ∧ r.2 ≤ max := by
    intro r hr
    exact (runsFrom_ge region max max 0 r hr).2
  have ht : (allRuns region max).filter (touched 0 (max : Int)) = allRuns region max := by
    apply hall
    intro r hr
    have := hbound r hr
    unfold touched
    rw [decide_eq_true_iff]
    exact Or.inr ⟨by omega, by omega⟩
  refine ⟨_, allRuns region max,
    dispatch_eq region max hmax 0 (max : Int) le_rfl (by omega) le_rfl, ?_, ?_, ?_, ?_, ?_⟩
  · intro s e
    exact mem_allRuns region max s e
  · have hp := allRuns_pairwise region max
    exact List.Pairwise.imp (fun {a b} (h : a.1 < b.1) => fun hab => by
      rw [hab] at h; exact lt_irrefl _ h) hp
  · rw [ht, beginCalls_flatMap, List.length_map, hall]
    intro r hr
    have := hbound r hr
    rw [decide_eq_true_iff]
    omega
  · rw [ht, endCalls_flatMap, List.length_map, hall]
    intro r hr
    have := hbound r hr
    rw [decide_eq_true_iff]
    omega
  · rw [ht, advanceCalls_flatMap, List.map_map]
    have hmap : (allRuns region max).map
          (Prod.snd ∘ fun r : Nat × Nat =>
            (region r.1, Min.min (max : Int) (r.2 : Int) - Max.max (0 : Int) (r.1 : Int)))
        = (allRuns region max).map (fun r => (r.2 : Int) - (r.1 : Int)) := by
      apply List.map_congr_left
      intro r hr
      have := hbound r hr
      simp only [Function.comp]
      omega
    rw [hmap]
    have := runsFrom_sum region max max 0 (Nat.zero_le _) (by omega)
    simpa [allRuns] using this

end SubrangeClaimsEnd

/-- C6 at the scenario classifier of the specification, `max = 10`. -/
theorem C6_full_dispatch_counts_witness :
    (10 : Nat) < 2048 ∧
    ∃ (trace : List (Call TagAB)) (rs : List (Nat × Nat)),
      SubrangeDispatcher.dispatch regionAB 10 0 ((10 : Nat) : Int) = some trace ∧
      (∀ s e, (s, e) ∈ rs ↔ IsRun regionAB 10 s e) ∧ rs.Nodup ∧
      (beginCalls trace).length = rs.length ∧
      (endCalls trace).length = rs.length ∧
      ((advanceCalls trace).map Prod.snd).sum = ((10 : Nat) : Int) :=
  ⟨by decide, C6_full_dispatch_counts regionAB 10 (by decide)⟩

/-! ### Splitting a dispatch of `SubrangeDispatcher` -/

section SplitFacts

variable {τ : Type} [DecidableEq τ]

open SubrangeDispatcher

theorem runsFrom_fuel (region : Nat → τ) (max : Nat) :
    ∀ f f' p, max ≤ p + f → max ≤ p + f' →
      runsFrom region max f p = runsFrom region max f' p := by
  intro f
  induction f with
  | zero =>
    intro f' p h _
    cases f' with
    | zero => rfl
    | succ f' => rw [runsFrom_succ, if_neg (by omega)]; rfl
  | succ f ih =>
    intro f' p h h'
    cases f' with
    | zero => rw [runsFrom_succ, if_neg (by omega)]; rfl
    | succ f' =>
      rw [runsFrom_succ, runsFrom_succ]
      by_cases hlt : p < max
      · have := find_end_gt region max p hlt
        rw [if_pos hlt, if_pos hlt, ih f' _ (by omega) (by omega)]
      · rw [if_neg hlt, if_neg hlt]

theorem runsFrom_pairwise_disjoint (region : Nat → τ) (max : Nat) :
    ∀ fuel p, (runsFrom region max fuel p).Pairwise (fun a b => a.1 < a.2 ∧ a.2 ≤ b.1) := by
  intro fuel
  induction fuel with
  | zero => intro p; simp [runsFrom]
  | succ fuel ih =>
    intro p
    rw [runsFrom_succ]
    by_cases hlt : p < max
    · rw [if_pos hlt]
      refine List.pairwise_cons.mpr ⟨?_, ih _⟩
      intro r hr
      exact ⟨find_end_gt region max p hlt, (runsFrom_ge region max fuel _ r hr).1⟩
    · rw [if_neg hlt]
      exact List.Pairwise.nil

/-- Filtering an ordered list by two conditions, the second of which only holds from some
point on and the first only before, and concatenating, is filtering by their disjunction. -/
theorem filter_split {α : Type} (R : α → α → Prop) (q₁ q₂ q : α → Bool) :
    ∀ l : List α, l.Pairwise R →
      (∀ x ∈ l, q x = true ↔ (q₁ x = true ∨ q₂ x = true)) →
      (∀ x ∈ l, ¬ (q₁ x = true ∧ q₂ x = true)) →
      (∀ x ∈ l, ∀ y ∈ l, R x y → q₂ x = true → ¬ q₁ y = true) →
      l.filter q₁ ++ l.filter q₂ = l.filter q := by
  intro l
  induction l with
  | nil => intro _ _ _ _; rfl
  | cons x t ih =>
    intro hR hq hdisj hord
    obtain ⟨hx, ht⟩ := List.pairwise_cons.mp hR
    have iht := ih ht (fun y hy => hq y (List.mem_cons_of_mem _ hy))
      (fun y hy => hdisj y (List.mem_cons_of_mem _ hy))
      (fun y hy z hz => hord y (List.mem_cons_of_mem _ hy) z (List.mem_cons_of_mem _ hz))
    have hqx := hq x (List.mem_cons_self _ _)
    by_cases h1 : q₁ x = true
    · have h2 : ¬ q₂ x = true := fun h2 => hdisj x (List.mem_cons_self _ _) ⟨h1, h2⟩
      rw [List.filter_cons_of_pos h1, List.filter_cons_of_neg h2,
        List.filter_cons_of_pos (hqx.mpr (Or.inl h1)), List.cons_append, iht]
    · by_cases h2 : q₂ x = true
      · have hnil : t.filter q₁ = [] := by
          rw [List.filter_eq_nil_iff]
          intro y hy
          exact hord x (List.mem_cons_self _ _) y (List.mem_cons_of_mem _ hy) (hx y hy) h2
        rw [List.filter_cons_of_neg h1, List.filter_cons_of_pos h2,
          List.filter_cons_of_pos (hqx.mpr (Or.inr h2)), ← iht, hnil]
        rfl
      · have h3 : ¬ q x = true := fun h3 => by
          rcases hqx.mp h3 with h | h
          · exact h1 h
          · exact h2 h
        rw [List.filter_cons_of_neg h1, List.filter_cons_of_neg h2,
          List.filter_cons_of_neg h3, iht]

/-- No run from `p` on starts before `end` when `end ≤ p`. -/
theorem filter_runsFrom_nil (region : Nat → τ) (max : Nat) (end_ : Int) (f p : Nat)
    (h : end_ ≤ (p : Int)) :
    (runsFrom region max f p).filter (fun r => decide ((r.1 : Int) < end_)) = [] := by
  rw [List.filter_eq_nil_iff]
  intro r hr
  have := (runsFrom_ge region max f p r hr).1
  rw [decide_eq_true_iff]
  omega

/-- The runs touched by a dispatch over `[b, end)` with `b < max`: the run around `b`
(unless `b` is its start and the interval is empty), then the runs that start before
`end`. -/
theorem touched_runsFrom (region : Nat → τ) (max : Nat) (b : Nat) (end_ : Int) (hb : b < max) :
    ∀ f p, RunStart region p → p ≤ b → max ≤ p + f →
      (runsFrom region max f p).filter (touched (b : Int) end_) =
        (if find_begin region b < b ∨ (b : Int) < end_ then
          [(find_begin region b, find_end region max b)] else []) ++
        (runsFrom region max (max - find_end region max b) (find_end region max b)).filter
          (fun r => decide ((r.1 : Int) < end_)) := by
  intro f
  induction f with
  | zero => intro p _ h1 h2; omega
  | succ f ih =>
    intro p hp h1 h2
    have hlt : p < max := by omega
    have hrun := isRun_of_runStart region max p hp hlt
    have hgt := find_end_gt region max p hlt
    have hle := find_end_le region max p (le_of_lt hlt)
    rw [runsFrom_succ, if_pos hlt]
    by_cases hin : b < find_end region max p
    · obtain ⟨hfb, hfe⟩ := hrun.find_eq h1 hin
      rw [hfb, hfe]
      have hrest : (runsFrom region max f (find_end region max p)).filter (touched (b : Int) end_)
          = (runsFrom region max (max - find_end region max p) (find_end region max p)).filter
              (fun r => decide ((r.1 : Int) < end_)) := by
        rw [runsFrom_fuel region max f (max - find_end region max p) _ (by omega) (by omega)]
        apply List.filter_congr
        intro r hr
        have := (runsFrom_ge region max _ _ r hr).1
        unfold touched
        apply Bool.decide_congr
        constructor
        · rintro (h | h)
          · omega
          · exact h.2
        · intro h
          exact Or.inr ⟨by omega, h⟩
      by_cases ht : p < b ∨ (b : Int) < end_
      · have htouch : touched (b : Int) end_ (p, find_end region max p) = true := by
          unfold touched
          rw [decide_eq_true_iff]
          simp only
          omega
        rw [List.filter_cons_of_pos htouch, hrest, if_pos ht]
        rfl
      · have htouch : ¬ touched (b : Int) end_ (p, find_end region max p) = true := by
          unfold touched
          rw [decide_eq_true_iff]
          simp only
          omega
        rw [List.filter_cons_of_neg htouch, hrest, if_neg ht]
        rfl
    · have htouch : ¬ touched (b : Int) end_ (p, find_end region max p) = true := by
        unfold touched
        rw [decide_eq_true_iff]
        simp only
        omega
      rw [List.filter_cons_of_neg htouch]
      have hne : find_end region max p ≠ max := by omega
      have hs' : RunStart region (find_end region max p) := by
        rcases hrun.runStart_end with h | h
        · exact absurd h hne
        · exact h
      exact ih _ hs' (by omega) (by omega)

theorem advanceSum_append (t₁ t₂ : List (Call τ)) :
    advanceSum (t₁ ++ t₂) = advanceSum t₁ + advanceSum t₂ := by
  induction t₁ with
  | nil => simp [advanceSum]
  | cons c cs ih => cases c <;> simp [advanceSum, ih]; omega

theorem advanceTotalIn_append (s e : Nat) (t₁ t₂ : List (Call τ)) :
    ∀ c : Int, advanceTotalIn s e c (t₁ ++ t₂) =
      advanceTotalIn s e c t₁ + advanceTotalIn s e (c + advanceSum t₁) t₂ := by
  induction t₁ with
  | nil => intro c; simp [advanceTotalIn, advanceSum]
  | cons a cs ih =>
    intro c
    cases a with
    | begin_ r n => simp only [List.cons_append, advanceTotalIn, advanceSum]; exact ih c
    | end_ r n => simp only [List.cons_append, advanceTotalIn, advanceSum]; exact ih c
    | advance r l =>
      show (if (s : Int) ≤ c ∧ c < (e : Int) then l else 0)
          + advanceTotalIn s e (c + l) (cs ++ t₂)
        = (if (s : Int) ≤ c ∧ c < (e : Int) then l else 0) + advanceTotalIn s e (c + l) cs
          + advanceTotalIn s e (c + (l + advanceSum cs)) t₂
      rw [ih (c + l), add_assoc, add_assoc]

theorem advanceSum_runCalls (region : Nat → τ) (begin_ end_ : Int) (r : Nat × Nat) :
    advanceSum (runCalls region begin_ end_ r) =
      Min.min end_ (r.2 : Int) - Max.max begin_ (r.1 : Int) := by
  unfold runCalls
  by_cases h1 : begin_ ≤ (r.1 : Int) ∧ (r.1 : Int) < end_ <;>
    by_cases h2 : (r.2 : Int) ≤ end_ <;>
    simp [h1, h2, advanceSum]

theorem advanceTotalIn_runCalls (region : Nat → τ) (begin_ end_ : Int) (r : Nat × Nat)
    (s e : Nat) (c : Int) :
    advanceTotalIn s e c (runCalls region begin_ end_ r) =
      if (s : Int) ≤ c ∧ c < (e : Int) then
        Min.min end_ (r.2 : Int) - Max.max begin_ (r.1 : Int) else 0 := by
  unfold runCalls
  by_cases h1 : begin_ ≤ (r.1 : Int) ∧ (r.1 : Int) < end_ <;>
    by_cases h2 : (r.2 : Int) ≤ end_ <;>
    simp [h1, h2, advanceTotalIn]

end SplitFacts

section SplitTotals

variable {τ : Type} [DecidableEq τ]

open SubrangeDispatcher

/-- The advance lengths of the runs that start in `[p, end)` add up to `end - p`. -/
theorem advanceSum_runs (region : Nat → τ) (max : Nat) (begin_ end_ : Int)
    (hend : end_ ≤ (max : Int)) :
    ∀ f p, p ≤ max → begin_ ≤ (p : Int) → max ≤ p + f →
      advanceSum (((runsFrom region max f p).filter
          (fun r => decide ((r.1 : Int) < end_))).flatMap (runCalls region begin_ end_))
        = if (p : Int) < end_ then end_ - (p : Int) else 0 := by
  intro f
  induction f with
  | zero => intro p h1 _ h2; rw [if_neg (by omega)]; rfl
  | succ f ih =>
    intro p h1 hb h2
    by_cases hpe : (p : Int) < end_
    · have hlt : p < max := by omega
      have hgt := find_end_gt region max p hlt
      have hle := find_end_le region max p h1
      have hf : ∀ l : List (Nat × Nat),
          List.filter (fun r : Nat × Nat => decide ((r.1 : Int) < end_))
            ((p, find_end region max p) :: l)
          = (p, find_end region max p) ::
              List.filter (fun r : Nat × Nat => decide ((r.1 : Int) < end_)) l := by
        intro l
        rw [List.filter_cons, if_pos (decide_eq_true hpe)]
      rw [runsFrom_succ, if_pos hlt, hf, List.flatMap_cons, advanceSum_append,
        advanceSum_runCalls, ih _ hle (by omega) (by omega), if_pos hpe]
      simp only
      split_ifs <;> omega
    · rw [filter_runsFrom_nil region max end_ _ p (by omega), if_neg hpe]
      rfl

/-- The advance total of a run `[s, e)` over the calls of the runs that start in `[p, end)`,
the position being `p` at their start. -/
theorem advanceTotalIn_runs (region : Nat → τ) (max : Nat) (begin_ end_ : Int)
    (hend : end_ ≤ (max : Int)) (s e : Nat) (hrun : IsRun region max s e) :
    ∀ f p, (p = max ∨ RunStart region p) → p ≤ max → begin_ ≤ (p : Int) → max ≤ p + f →
      advanceTotalIn s e (p : Int) (((runsFrom region max f p).filter
          (fun r => decide ((r.1 : Int) < end_))).flatMap (runCalls region begin_ end_))
        = if (p : Int) ≤ (s : Int) ∧ (s : Int) < end_ then
            Min.min end_ (e : Int) - (s : Int) else 0 := by
  have hse := hrun.1
  have hemax := hrun.2.1
  intro f
  induction f with
  | zero => intro p _ h1 _ h2; rw [if_neg (by omega)]; rfl
  | succ f ih =>
    intro p hp h1 hb h2
    by_cases hpe : (p : Int) < end_
    · have hlt : p < max := by omega
      have hs : RunStart region p := by
        rcases hp with hp | hp
        · omega
        · exact hp
      have hrunp := isRun_of_runStart region max p hs hlt
      have hgt := find_end_gt region max p hlt
      have hle := find_end_le region max p h1
      have huniq : (s ≤ p ∧ p < e) ∨ (p ≤ s ∧ s < find_end region max p) →
          s = p ∧ e = find_end region max p := by
        rintro (h | h)
        · exact IsRun.unique hrun hrunp h ⟨le_rfl, hgt⟩
        · exact IsRun.unique hrun hrunp ⟨le_rfl, hse⟩ h
      have hf : ∀ l : List (Nat × Nat),
          List.filter (fun r : Nat × Nat => decide ((r.1 : Int) < end_))
            ((p, find_end region max p) :: l)
          = (p, find_end region max p) ::
              List.filter (fun r : Nat × Nat => decide ((r.1 : Int) < end_)) l := by
        intro l
        rw [List.filter_cons, if_pos (decide_eq_true hpe)]
      rw [runsFrom_succ, if_pos hlt, hf, List.flatMap_cons, advanceTotalIn_append,
        advanceTotalIn_runCalls, advanceSum_runCalls]
      simp only
      by_cases hep : (find_end region max p : Int) ≤ end_
      · have hcur : (p : Int) + (Min.min end_ (find_end region max p : Int)
            - Max.max begin_ (p : Int)) = (find_end region max p : Int) := by omega
        rw [hcur, ih _ hrunp.runStart_end hle (by omega) (by omega)]
        split_ifs <;> omega
      · rw [filter_runsFrom_nil region max end_ f _ (by omega)]
        simp only [List.flatMap_nil, advanceTotalIn]
        split_ifs <;> omega
    · rw [filter_runsFrom_nil region max end_ _ p (by omega), if_neg (by omega)]
      rfl

/-- The advance lengths of a dispatch add up to `end - begin`, and the advance total of a
run `[s, e)` is its overlap with `[begin, end)`. -/
theorem advance_of_touched (region : Nat → τ) (max : Nat) (begin_ end_ : Int)
    (h0 : 0 ≤ begin_) (h1 : begin_ ≤ end_) (h2 : end_ ≤ (max : Int)) :
    advanceSum (((allRuns region max).filter (touched begin_ end_)).flatMap
        (runCalls region begin_ end_)) = end_ - begin_ ∧
    ∀ s e, IsRun region max s e →
      advanceTotalIn s e begin_ (((allRuns region max).filter (touched begin_ end_)).flatMap
        (runCalls region begin_ end_))
      = if ((s : Int) < begin_ ∧ begin_ < (e : Int)) ∨ (begin_ ≤ (s : Int) ∧ (s : Int) < end_)
        then Min.min end_ (e : Int) - Max.max begin_ (s : Int) else 0 := by
  obtain ⟨b, rfl⟩ : ∃ b : Nat, begin_ = (b : Int) := ⟨begin_.toNat, by omega⟩
  by_cases hb : b < max
  · have hrb := isRun_find region max b hb
    have hfb := find_begin_le region b
    have hfe := find_end_gt region max b hb
    have hfem := find_end_le region max b (le_of_lt hb)
    unfold allRuns
    rw [touched_runsFrom region max b end_ hb max 0 (Or.inl rfl) (Nat.zero_le _) (by omega)]
    have hsumrest := advanceSum_runs region max (b : Int) end_ h2
      (max - find_end region max b) (find_end region max b) hfem (by omega) (by omega)
    constructor
    · rw [List.flatMap_append, advanceSum_append, hsumrest]
      by_cases ht : find_begin region b < b ∨ (b : Int) < end_
      · rw [if_pos ht, List.flatMap_cons, List.flatMap_nil, List.append_nil,
          advanceSum_runCalls]
        simp only
        split_ifs <;> omega
      · rw [if_neg ht]
        simp only [List.flatMap_nil, advanceSum]
        split_ifs <;> omega
    · intro s e hrun
      have hse := hrun.1
      have huniq : (s ≤ b ∧ b < e) ∨ (find_begin region b ≤ s ∧ s < find_end region max b) →
          s = find_begin region b ∧ e = find_end region max b := by
        rintro (h | h)
        · exact IsRun.unique hrun hrb h ⟨hfb, hfe⟩
        · exact IsRun.unique hrun hrb ⟨le_rfl, hse⟩ h
      rw [List.flatMap_append, advanceTotalIn_append]
      by_cases ht : find_begin region b < b ∨ (b : Int) < end_
      · rw [if_pos ht, List.flatMap_cons, List.flatMap_nil, List.append_nil,
          advanceTotalIn_runCalls, advanceSum_runCalls]
        simp only
        by_cases hep : (find_end region max b : Int) ≤ end_
        · have hcur : (b : Int) + (Min.min end_ (find_end region max b : Int)
              - Max.max (b : Int) (find_begin region b : Int))
              = (find_end region max b : Int) := by omega
          rw [hcur, advanceTotalIn_runs region max (b : Int) end_ h2 s e hrun _ _
            hrb.runStart_end hfem (by omega) (by omega)]
          split_ifs <;> omega
        · rw [filter_runsFrom_nil region max end_ _ _ (by omega)]
          simp only [List.flatMap_nil, advanceTotalIn]
          split_ifs <;> omega
      · rw [if_neg ht, filter_runsFrom_nil region max end_ _ _ (by omega)]
        simp only [List.flatMap_nil, advanceTotalIn]
        split_ifs <;> omega
  · have hnil : (allRuns region max).filter (touched (b : Int) end_) = [] := by
      rw [List.filter_eq_nil_iff]
      intro r hr
      have hg := runsFrom_ge region max max 0 r hr
      unfold touched
      rw [decide_eq_true_iff]
      omega
    rw [hnil]
    constructor
    · simp only [List.flatMap_nil, advanceSum]; omega
    · intro s e hrun
      have := hrun.1
      have := hrun.2.1
      simp only [List.flatMap_nil, advanceTotalIn]
      split_ifs <;> omega

end SplitTotals

section SplitClaim

variable {τ : Type} [DecidableEq τ]

theorem beginCalls_touched (region : Nat → τ) (max : Nat) (begin_ end_ : Int) :
    beginCalls (((allRuns region max).filter (touched begin_ end_)).flatMap
        (runCalls region begin_ end_)) =
      ((allRuns region max).filter
        (fun r => decide (begin_ ≤ (r.1 : Int) ∧ (r.1 : Int) < end_))).map
        (fun r => (region r.1, (r.1 : Int))) := by
  rw [beginCalls_flatMap, List.filter_filter]
  congr 1
  apply List.filter_congr
  intro r _
  unfold touched
  by_cases h : begin_ ≤ (r.1 : Int) ∧ (r.1 : Int) < end_
  · simp [h]
  · simp [h]

theorem endCalls_touched (region : Nat → τ) (max : Nat) (begin_ end_ : Int) :
    endCalls (((allRuns region max).filter (touched begin_ end_)).flatMap
        (runCalls region begin_ end_)) =
      ((allRuns region max).filter
        (fun r => decide ((r.2 : Int) ≤ end_) && touched begin_ end_ r)).map
        (fun r => (region r.1, (r.2 : Int))) := by
  rw [endCalls_flatMap, List.filter_filter]

/-- C7: for `max < 2048` and `0 ≤ begin ≤ mid ≤ end ≤ max`, the dispatches of
`SubrangeDispatcher` over `[begin, mid)`, over `[mid, end)` and over `[begin, end)` return;
the first two together make the same `begin` calls `(tag, position)` as the third, the
same `end` calls `(tag, position)`, and for every run the same total of `advance` lengths
delivered while the position, which starts at `begin`, is within the run. -/
theorem C7_subrange_dispatch_split (region : Nat → τ) (max : Nat) (begin_ mid end_ : Int)
    (hmax : max < 2048) (h0 : 0 ≤ begin_) (h1 : begin_ ≤ mid) (h2 : mid ≤ end_)
    (h3 : end_ ≤ (max : Int)) :
    ∃ first second whole : List (Call τ),
      SubrangeDispatcher.dispatch region max begin_ mid = some first ∧
      SubrangeDispatcher.dispatch region max mid end_ = some second ∧
      SubrangeDispatcher.dispatch region max begin_ end_ = some whole ∧
      beginCalls (first ++ second) = beginCalls whole ∧
      endCalls (first ++ second) = endCalls whole ∧
      ∀ s e, IsRun region max s e →
        advanceTotalIn s e begin_ (first ++ second) = advanceTotalIn s e begin_ whole := by
  have hpw : (allRuns region max).Pairwise (fun a b => a.1 < a.2 ∧ a.2 ≤ b.1) :=
    runsFrom_pairwise_disjoint region max max 0
  have hbound : ∀ r ∈ allRuns region max, r.1 < r.2 := fun r hr =>
    (runsFrom_ge region max max 0 r hr).2.1
  refine ⟨_, _, _,
    dispatch_eq region max hmax begin_ mid h0 h1 (by omega),
    dispatch_eq region max hmax mid end_ (by omega) h2 h3,
    dispatch_eq region max hmax begin_ end_ h0 (by omega) h3, ?_, ?_, ?_⟩
  · rw [beginCalls_append, beginCalls_touched, beginCalls_touched, beginCalls_touched,
      ← List.map_append]
    congr 1
    apply filter_split _ _ _ _ _ hpw
    · intro x _
      simp only [decide_eq_true_iff]
      omega
    · intro x _
      simp only [decide_eq_true_iff]
      omega
    · intro x hx y _ hxy
      have := hbound x hx
      simp only [decide_eq_true_iff]
      omega
  · rw [endCalls_append, endCalls_touched, endCalls_touched, endCalls_touched,
      ← List.map_append]
    congr 1
    apply filter_split _ _ _ _ _ hpw
    · intro x hx
      have := hbound x hx
      simp only [touched, Bool.and_eq_true, decide_eq_true_iff]
      omega
    · intro x hx
      have := hbound x hx
      simp only [touched, Bool.and_eq_true, decide_eq_true_iff]
      omega
    · intro x hx y hy hxy
      have := hbound x hx
      have := hbound y hy
      simp only [touched, Bool.and_eq_true, decide_eq_true_iff]
      omega
  · intro s e hrun
    have hse := hrun.1
    obtain ⟨hs1, ht1⟩ := advance_of_touched region max begin_ mid h0 h1 (by omega)
    obtain ⟨_, ht2⟩ := advance_of_touched region max mid end_ (by omega) h2 h3
    obtain ⟨_, ht3⟩ := advance_of_touched region max begin_ end_ h0 (by omega) h3
    have hcur : begin_ + (mid - begin_) = mid := by omega
    rw [advanceTotalIn_append, hs1, hcur, ht1 s e hrun, ht2 s e hrun, ht3 s e hrun]
    split_ifs <;> omega

/-- C7 at the scenario classifier of the specification: `max = 10`, `[2, 8)` split at `5`. -/
theorem C7_subrange_dispatch_split_witness :
    (10 : Nat) < 2048 ∧ (0 : Int) ≤ 2 ∧ (2 : Int) ≤ 5 ∧ (5 : Int) ≤ 8 ∧
    (8 : Int) ≤ ((10 : Nat) : Int) ∧
    ∃ first second whole : List (Call TagAB),
      SubrangeDispatcher.dispatch regionAB 10 2 5 = some first ∧
      SubrangeDispatcher.dispatch regionAB 10 5 8 = some second ∧
      SubrangeDispatcher.dispatch regionAB 10 2 8 = some whole ∧
      beginCalls (first ++ second) = beginCalls whole ∧
      endCalls (first ++ second) = endCalls whole ∧
      ∀ s e, IsRun regionAB 10 s e →
        advanceTotalIn s e 2 (first ++ second) = advanceTotalIn s e 2 whole :=
  ⟨by decide, by decide, by decide, by decide, by decide,
    C7_subrange_dispatch_split regionAB 10 2 5 8 (by decide) (by decide) (by decide)
      (by decide) (by decide)⟩

end SplitClaim

end Reflection

/-! ## Lemmas on the scanline renderer -/

namespace TMS

/-! ### Loops that store -/

theorem for_loop_succ {σ : Type} (body : Nat → σ → σ) (n c : Nat) (s : σ) :
    for_loop body (n + 1) c s = for_loop body n (c + 1) (body c s) := rfl

theorem store_same {ι : Type} [DecidableEq ι] (p : ι → Nat) (i : ι) (v : Nat) :
    store p i v i = v := by
  simp [store]

theorem store_other {ι : Type} [DecidableEq ι] (p : ι → Nat) (i j : ι) (v : Nat) (h : j ≠ i) :
    store p i v j = p j := by
  simp [store, h]

/-- A loop that stores `v c` at the offset `t + c`, for `c` from `c0`, `n` times. -/
theorem for_loop_store (t : Int) (v : Nat → Nat) :
    ∀ (n c0 : Nat) (px : Int → Nat) (i : Int),
      for_loop (fun c px => store px (t + (c : Int)) (v c)) n c0 px i =
        if t + (c0 : Int) ≤ i ∧ i < t + (c0 : Int) + (n : Int) then v (i - t).toNat else px i := by
  intro n
  induction n with
  | zero =>
    intro c0 px i
    rw [if_neg (by omega)]
    rfl
  | succ n ih =>
    intro c0 px i
    show for_loop _ n (c0 + 1) (store px (t + (c0 : Int)) (v c0)) i = _
    rw [ih]
    by_cases h1 : i = t + (c0 : Int)
    · subst h1
      rw [if_neg (by omega), if_pos (by omega), store_same]
      congr 1
      omega
    · rw [store_other _ _ _ _ h1]
      by_cases h2 : t + ((c0 + 1 : Nat) : Int) ≤ i ∧ i < t + ((c0 + 1 : Nat) : Int) + (n : Int)
      · rw [if_pos h2, if_pos (by omega)]
      · rw [if_neg h2, if_neg (by omega)]

/-- A loop that stores `v` at the offsets `c` from the origin, for `c` from `c0`, `n` times. -/
theorem for_loop_store_origin (v : Nat) :
    ∀ (n c0 : Nat) (px : Int → Nat) (i : Int),
      for_loop (fun c px => store px (c : Int) v) n c0 px i =
        if (c0 : Int) ≤ i ∧ i < (c0 : Int) + (n : Int) then v else px i := by
  intro n
  induction n with
  | zero =>
    intro c0 px i
    rw [if_neg (by omega)]
    rfl
  | succ n ih =>
    intro c0 px i
    rw [for_loop_succ, ih]
    by_cases h1 : i = (c0 : Int)
    · subst h1
      rw [if_neg (by omega), if_pos (by omega), store_same]
    · rw [store_other _ _ _ _ h1]
      by_cases h2 : ((c0 + 1 : Nat) : Int) ≤ i ∧ i < ((c0 + 1 : Nat) : Int) + (n : Int)
      · rw [if_pos h2, if_pos (by omega)]
      · rw [if_neg h2, if_neg (by omega)]

/-- The same for a buffer indexed by natural numbers. -/
theorem for_loop_store_nat (v : Nat → Nat) :
    ∀ (n c0 : Nat) (px : Nat → Nat) (i : Nat),
      for_loop (fun c px => store px c (v c)) n c0 px i =
        if c0 ≤ i ∧ i < c0 + n then v i else px i := by
  intro n
  induction n with
  | zero =>
    intro c0 px i
    rw [if_neg (by omega)]
    rfl
  | succ n ih =>
    intro c0 px i
    show for_loop _ n (c0 + 1) (store px c0 (v c0)) i = _
    rw [ih]
    by_cases h1 : i = c0
    · subst h1
      rw [if_neg (by omega), if_pos (by omega), store_same]
    · rw [store_other _ _ _ _ h1]
      by_cases h2 : c0 + 1 ≤ i ∧ i < c0 + 1 + n
      · rw [if_pos h2, if_pos (by omega)]
      · rw [if_neg h2, if_neg (by omega)]

/-- The pixels that the inner loop of a background pass stores: the bits of `pattern`, from
the lowest on. -/
theorem pattern_loop_pixels (colours : Nat → Nat) (t : Int) :
    ∀ (n c0 pattern : Nat) (px : Int → Nat) (i : Int),
      (for_loop (fun c (s : Nat × (Int → Nat)) =>
          (s.1 >>> 1, store s.2 (t + (c : Int)) (colours (s.1 &&& 1)))) n c0 (pattern, px)).2 i =
        if t + (c0 : Int) ≤ i ∧ i < t + (c0 : Int) + (n : Int) then
          colours ((pattern >>> (i - t - (c0 : Int)).toNat) &&& 1)
        else px i := by
  intro n
  induction n with
  | zero =>
    intro c0 pattern px i
    rw [if_neg (by omega)]
    rfl
  | succ n ih =>
    intro c0 pattern px i
    show (for_loop _ n (c0 + 1)
      (pattern >>> 1, store px (t + (c0 : Int)) (colours (pattern &&& 1)))).2 i = _
    rw [ih]
    by_cases h1 : i = t + (c0 : Int)
    · subst h1
      rw [if_neg (by omega), if_pos (by omega), store_same]
      have : (t + (c0 : Int) - t - (c0 : Int)).toNat = 0 := by omega
      rw [this]
      rfl
    · rw [store_other _ _ _ _ h1]
      by_cases h2 : t + ((c0 + 1 : Nat) : Int) ≤ i ∧ i < t + ((c0 + 1 : Nat) : Int) + (n : Int)
      · rw [if_pos h2, if_pos (by omega)]
        have : (i - t - (c0 : Int)).toNat = 1 + (i - t - ((c0 + 1 : Nat) : Int)).toNat := by omega
        rw [this, Nat.shiftRight_add]
      · rw [if_neg h2, if_neg (by omega)]

theorem pattern_pixels_eq (colours : Nat → Nat) (t : Int) (length : Int) (pattern : Nat)
    (px : Int → Nat) (i : Int) :
    (pattern_pixels colours t length pattern px).2 i =
      if t ≤ i ∧ i < t + (length.toNat : Int) then
        colours ((pattern >>> (i - t).toNat) &&& 1)
      else px i := by
  unfold pattern_pixels
  rw [pattern_loop_pixels]
  simp only [Nat.cast_zero, add_zero, sub_zero]

end TMS

namespace TMS

/-! ### The background pass of `draw_tms_character` -/

theorem column_of (col r : Nat) (h : r < 8) :
    (8 * col + r) >>> 3 = col ∧ (8 * col + r) &&& 7 = r := by
  constructor
  · rw [Nat.shiftRight_eq_div_pow]
    show (8 * col + r) / 8 = col
    omega
  · have := Nat.and_pow_two_sub_one_eq_mod (8 * col + r) 3
    show (8 * col + r) &&& 7 = r
    rw [show (7 : Nat) = 2 ^ 3 - 1 from rfl, this]
    show (8 * col + r) % 8 = r
    omega

theorem column_split (x : Nat) : 8 * (x >>> 3) + (x &&& 7) = x ∧ x &&& 7 < 8 := by
  have h1 : x >>> 3 = x / 8 := Nat.shiftRight_eq_div_pow x 3
  have h2 : x &&& 7 = x % 8 := Nat.and_pow_two_sub_one_eq_mod x 3
  rw [h1, h2]
  omega

theorem character_pixel_at (ext : Externals) (b : Base) (col r : Nat) (h : r < 8) :
    character_pixel ext b (8 * col + r) =
      colours b (byte (b.line_buffer.patterns col 1))
        ((ext.bit_reverse (byte (b.line_buffer.patterns col 0)) >>> r) &&& 1) := by
  unfold character_pixel
  rw [(column_of col r h).1, (column_of col r h).2]

theorem background_loop_succ (ext : Externals) (b : Base) (fuel : Nat) (st : BackgroundState) :
    background_loop ext b (fuel + 1) st =
      if st.background_pixels_left - st.length = 0 then
        some (st.pixel_target_ + st.length,
          (pattern_pixels (colours b st.colour) st.pixel_target_ st.length
            st.pattern st.pixels).2)
      else
        background_loop ext b fuel
          { background_pixels_left := st.background_pixels_left - st.length
            length := Min.min 8 (st.background_pixels_left - st.length)
            byte_column := st.byte_column + 1
            pattern := ext.bit_reverse (byte (b.line_buffer.patterns (st.byte_column + 1) 0))
            colour := byte (b.line_buffer.patterns (st.byte_column + 1) 1)
            pixel_target_ := st.pixel_target_ + st.length
            pixels := (pattern_pixels (colours b st.colour) st.pixel_target_ st.length
              st.pattern st.pixels).2 } := by
  rw [background_loop]

/-- The `while(true)` loop of the background pass, entered `sh` pixels into the byte column
`byte_column` with `background_pixels_left ≥ 0` pixels to go, returns, having stored the
character pixels of the columns from `8 * byte_column + sh` on. -/
theorem background_loop_eq (ext : Externals) (b : Base) :
    ∀ (fuel : Nat) (st : BackgroundState) (sh : Nat), sh < 8 →
      0 ≤ st.background_pixels_left → st.background_pixels_left < (fuel : Int) →
      st.length = Min.min st.background_pixels_left (8 - (sh : Int)) →
      st.pattern = ext.bit_reverse (byte (b.line_buffer.patterns st.byte_column 0)) >>> sh →
      st.colour = byte (b.line_buffer.patterns st.byte_column 1) →
      background_loop ext b fuel st =
        some (st.pixel_target_ + st.background_pixels_left,
          fun i =>
            if st.pixel_target_ ≤ i ∧ i < st.pixel_target_ + st.background_pixels_left then
              character_pixel ext b (8 * st.byte_column + sh + (i - st.pixel_target_).toNat)
            else st.pixels i) := by
  intro fuel
  induction fuel with
  | zero => intro st sh _ h0 h1; omega
  | succ fuel ih =>
    intro st sh hsh h0 hfuel hlen hpat hcol
    rw [background_loop_succ]
    have hfirst : ∀ i : Int, st.pixel_target_ ≤ i → i < st.pixel_target_ + st.length →
        (pattern_pixels (colours b st.colour) st.pixel_target_ st.length st.pattern st.pixels).2 i
          = character_pixel ext b (8 * st.byte_column + sh + (i - st.pixel_target_).toNat) := by
      intro i hi1 hi2
      rw [pattern_pixels_eq, if_pos ⟨hi1, by omega⟩, add_assoc,
        character_pixel_at ext b _ _ (by omega), hpat, hcol, ← Nat.shiftRight_add]
    have hrest : ∀ i : Int, ¬ (st.pixel_target_ ≤ i ∧ i < st.pixel_target_ + st.length) →
        (pattern_pixels (colours b st.colour) st.pixel_target_ st.length st.pattern st.pixels).2 i
          = st.pixels i := by
      intro i hi
      rw [pattern_pixels_eq, if_neg (by omega)]
    by_cases hdone : st.background_pixels_left - st.length = 0
    · rw [if_pos hdone]
      have hl : st.length = st.background_pixels_left := by omega
      congr 1
      rw [hl]
      congr 1
      funext i
      by_cases hi : st.pixel_target_ ≤ i ∧ i < st.pixel_target_ + st.background_pixels_left
      · rw [if_pos hi, ← hl]
        exact hfirst i hi.1 (by omega)
      · rw [if_neg hi, ← hl]
        exact hrest i (by omega)
    · rw [if_neg hdone]
      have hl : st.length = 8 - (sh : Int) := by omega
      rw [ih _ 0 (by omega) (by simp only; omega) (by simp only; omega)
        (by simp only; omega) (by simp only; rfl) (by simp only)]
      simp only
      congr 1
      congr 1
      · omega
      · funext i
        by_cases hi2 : st.pixel_target_ + st.length ≤ i ∧
            i < st.pixel_target_ + st.length + (st.background_pixels_left - st.length)
        · rw [if_pos hi2, if_pos (by omega)]
          congr 1
          omega
        · rw [if_neg hi2]
          by_cases hi : st.pixel_target_ ≤ i ∧ i < st.pixel_target_ + st.length
          · rw [if_pos (by omega)]
            exact hfirst i hi.1 hi.2
          · rw [if_neg (by omega)]
            exact hrest i hi

/-- The background pass of `draw_tms_character(start, end)` with `start ≤ end` returns.  In
MultiColour mode it leaves `pixel_target_` and stores the pixels of the columns `[start,
end)` at the offsets `pixel_target_ + c`; otherwise it advances `pixel_target_` by `end -
start`, storing the same number of pixels from `pixel_target_` on. -/
theorem draw_tms_background_eq (ext : Externals) (b : Base) (start end_ : Nat)
    (h : start ≤ end_) :
    draw_tms_background ext b start end_ =
      if b.screen_mode_ = ScreenMode.MultiColour then
        some (b.pixel_target_, fun i =>
          if b.pixel_target_ + (start : Int) ≤ i ∧ i < b.pixel_target_ + (end_ : Int) then
            multicolour_pixel b (i - b.pixel_target_).toNat
          else b.pixels i)
      else
        some (b.pixel_target_ + ((end_ : Int) - (start : Int)), fun i =>
          if b.pixel_target_ ≤ i ∧ i < b.pixel_target_ + ((end_ : Int) - (start : Int)) then
            character_pixel ext b (start + (i - b.pixel_target_).toNat)
          else b.pixels i) := by
  unfold draw_tms_background
  by_cases hm : b.screen_mode_ = ScreenMode.MultiColour
  · simp only [if_pos hm]
    congr 1
    congr 1
    funext i
    rw [for_loop_store]
    by_cases hi : b.pixel_target_ + (start : Int) ≤ i ∧ i < b.pixel_target_ + (end_ : Int)
    · rw [if_pos hi, if_pos (by omega)]
    · rw [if_neg hi, if_neg (by omega)]
  · simp only [if_neg hm]
    have hs := column_split start
    rw [background_loop_eq ext b _ _ (start &&& 7) hs.2 (by simp only; omega)
      (by simp only; omega) (by simp only) (by simp only) (by simp only)]
    simp only
    rw [hs.1]

end TMS

namespace TMS

/-! ### The sprite loops -/

section SpriteLoops

variable {α β : Type}

theorem sprite_at_zero (adv : Nat) (s : ActiveSprite) : sprite_at adv s 0 = s := by
  cases s
  simp [sprite_at]

theorem sprite_at_add (adv : Nat) (s : ActiveSprite) (j k : Nat) :
    sprite_at adv (sprite_at adv s j) k = sprite_at adv s (j + k) := by
  cases s
  simp only [sprite_at, ActiveSprite.mk.injEq, true_and, and_true]
  rw [Nat.mul_add, Nat.add_assoc]

theorem sprite_at_one (adv : Nat) (s : ActiveSprite) :
    { s with shift_position := s.shift_position + adv } = sprite_at adv s 1 := by
  simp [sprite_at]

theorem sprite_columns_succ (adv target end_ : Nat) (body : ActiveSprite → Nat → α → α)
    (fuel c : Nat) (s : ActiveSprite) (a : α) :
    sprite_columns adv target end_ body (fuel + 1) c s a =
      if c < end_ ∧ s.shift_position < target then
        sprite_columns adv target end_ body fuel (c + 1) (sprite_at adv s 1) (body s c a)
      else (s, a) := by
  rw [sprite_columns, sprite_at_one]

theorem sprite_steps_succ (adv target end_ fuel c sp : Nat) :
    sprite_steps adv target end_ (fuel + 1) c sp =
      if c < end_ ∧ sp < target then 1 + sprite_steps adv target end_ fuel (c + 1) (sp + adv)
      else 0 := by
  rw [sprite_steps]

/-- The sprite that the column loop leaves. -/
theorem sprite_columns_fst (adv target end_ : Nat) (body : ActiveSprite → Nat → α → α) :
    ∀ (fuel c : Nat) (s : ActiveSprite) (a : α),
      (sprite_columns adv target end_ body fuel c s a).1 =
        sprite_at adv s (sprite_steps adv target end_ fuel c s.shift_position) := by
  intro fuel
  induction fuel with
  | zero => intro c s a; rw [sprite_steps, sprite_at_zero]; rfl
  | succ fuel ih =>
    intro c s a
    rw [sprite_columns_succ, sprite_steps_succ]
    by_cases h : c < end_ ∧ s.shift_position < target
    · rw [if_pos h, if_pos h, ih, sprite_at_add]
      have : (sprite_at adv s 1).shift_position = s.shift_position + adv := by
        simp [sprite_at]
      rw [this]
    · rw [if_neg h, if_neg h, sprite_at_zero]

/-- The column loop on a buffer that the body updates at the current column only. -/
theorem sprite_columns_obs (adv target end_ : Nat) (body : ActiveSprite → Nat → α → α)
    (obs : α → Nat → β) (upd : ActiveSprite → β → β)
    (hbody : ∀ s c a c', obs (body s c a) c' = if c' = c then upd s (obs a c) else obs a c') :
    ∀ (fuel c0 : Nat) (s : ActiveSprite) (a : α) (c' : Nat),
      obs (sprite_columns adv target end_ body fuel c0 s a).2 c' =
        if c0 ≤ c' ∧ c' < c0 + fuel ∧ c' < end_ ∧
            s.shift_position + adv * (c' - c0) < target then
          upd (sprite_at adv s (c' - c0)) (obs a c')
        else obs a c' := by
  intro fuel
  induction fuel with
  | zero =>
    intro c0 s a c'
    rw [if_neg (by omega)]
    rfl
  | succ fuel ih =>
    intro c0 s a c'
    rw [sprite_columns_succ]
    by_cases h : c0 < end_ ∧ s.shift_position < target
    · rw [if_pos h, ih, hbody]
      have hsp : (sprite_at adv s 1).shift_position = s.shift_position + adv * 1 := rfl
      by_cases hc : c' = c0
      · subst hc
        have h0 : c' - c' = 0 := by omega
        rw [if_neg (by omega), if_pos rfl, h0, sprite_at_zero, if_pos]
        refine ⟨le_rfl, by omega, h.1, ?_⟩
        rw [Nat.mul_zero]
        exact h.2
      · rw [if_neg hc]
        by_cases hlt : c0 + 1 ≤ c'
        · obtain ⟨k, hk⟩ : ∃ k, c' = c0 + 1 + k := ⟨c' - (c0 + 1), by omega⟩
          have h1 : c' - (c0 + 1) = k := by omega
          have h2 : c' - c0 = 1 + k := by omega
          have hmul : s.shift_position + adv * 1 + adv * k = s.shift_position + adv * (1 + k) := by
            rw [Nat.mul_add, Nat.add_assoc]
          rw [h1, h2, hsp, sprite_at_add, hmul]
          by_cases hcov : c0 ≤ c' ∧ c' < c0 + (fuel + 1) ∧ c' < end_ ∧
              s.shift_position + adv * (1 + k) < target
          · rw [if_pos hcov, if_pos ⟨hlt, by omega, hcov.2.2.1, hcov.2.2.2⟩]
          · rw [if_neg hcov,
              if_neg (fun hh => hcov ⟨by omega, by omega, hh.2.2.1, hh.2.2.2⟩)]
        · rw [if_neg (by omega), if_neg (by omega)]
    · rw [if_neg h]
      by_cases hcov : c0 ≤ c' ∧ c' < c0 + (fuel + 1) ∧ c' < end_ ∧
          s.shift_position + adv * (c' - c0) < target
      · exfalso
        apply h
        refine ⟨by omega, ?_⟩
        exact lt_of_le_of_lt (Nat.le_add_right _ _) hcov.2.2.2
      · rw [if_neg hcov]

theorem draw_sprite_fst (adv target start end_ : Nat) (body : ActiveSprite → Nat → α → α)
    (s : ActiveSprite) (a : α) :
    (draw_sprite adv target start end_ body s a).1 = advance_sprite adv target start end_ s := by
  unfold draw_sprite advance_sprite
  by_cases h : s.shift_position < target
  · simp only [if_pos h]
    exact sprite_columns_fst adv target end_ body _ _ s a
  · simp only [if_neg h]

theorem draw_sprite_obs (adv target start end_ : Nat) (body : ActiveSprite → Nat → α → α)
    (obs : α → Nat → β) (upd : ActiveSprite → β → β)
    (hbody : ∀ s c a c', obs (body s c a) c' = if c' = c then upd s (obs a c) else obs a c')
    (s : ActiveSprite) (a : α) (c' : Nat) :
    obs (draw_sprite adv target start end_ body s a).2 c' =
      if covers adv target start end_ s c' then
        upd (sprite_at adv s (c' - pixel_start start s)) (obs a c')
      else obs a c' := by
  unfold draw_sprite covers
  by_cases h : s.shift_position < target
  · simp only [if_pos h]
    rw [sprite_columns_obs adv target end_ body obs upd hbody]
    show (if pixel_start start s ≤ c' ∧ c' < pixel_start start s + (end_ - pixel_start start s) ∧
        c' < end_ ∧ s.shift_position + adv * (c' - pixel_start start s) < target then _ else _) = _
    by_cases hc : pixel_start start s ≤ c' ∧ c' < end_ ∧
        s.shift_position + adv * (c' - pixel_start start s) < target
    · rw [if_pos hc, if_pos ⟨hc.1, by omega, hc.2.1, hc.2.2⟩]
      rfl
    · rw [if_neg hc, if_neg (fun hh => hc ⟨hh.1, hh.2.2.1, hh.2.2.2⟩)]
  · simp only [if_neg h]
    rw [if_neg]
    intro hh
    exact h (lt_of_le_of_lt (Nat.le_add_right _ _) hh.2.2)

theorem draw_sprites_fst (adv target start end_ : Nat) (body : ActiveSprite → Nat → α → α) :
    ∀ (l : List ActiveSprite) (a : α),
      (draw_sprites adv target start end_ body l a).1 =
        l.map (advance_sprite adv target start end_) := by
  intro l
  induction l with
  | nil => intro a; rfl
  | cons s rest ih =>
    intro a
    show (draw_sprite adv target start end_ body s _).1 ::
      (draw_sprites adv target start end_ body rest a).1 = _
    rw [draw_sprite_fst, ih]
    rfl

theorem draw_sprites_obs (adv target start end_ : Nat) (body : ActiveSprite → Nat → α → α)
    (obs : α → Nat → β) (upd : ActiveSprite → β → β)
    (hbody : ∀ s c a c', obs (body s c a) c' = if c' = c then upd s (obs a c) else obs a c') :
    ∀ (l : List ActiveSprite) (a : α) (c' : Nat),
      obs (draw_sprites adv target start end_ body l a).2 c' =
        sprites_over adv target start end_ upd c' l (obs a c') := by
  intro l
  induction l with
  | nil => intro a c'; rfl
  | cons s rest ih =>
    intro a c'
    show obs (draw_sprite adv target start end_ body s
      (draw_sprites adv target start end_ body rest a).2).2 c' = _
    rw [draw_sprite_obs adv target start end_ body obs upd hbody, ih]
    rfl

/-- What the body of the column loop preserves, the sprite loops preserve. -/
theorem sprite_columns_preserves (adv target end_ : Nat) (body : ActiveSprite → Nat → α → α)
    (P : α → Prop) (hP : ∀ s c a, P a → P (body s c a)) :
    ∀ (fuel c : Nat) (s : ActiveSprite) (a : α), P a →
      P (sprite_columns adv target end_ body fuel c s a).2 := by
  intro fuel
  induction fuel with
  | zero => intro c s a h; exact h
  | succ fuel ih =>
    intro c s a h
    rw [sprite_columns_succ]
    by_cases hc : c < end_ ∧ s.shift_position < target
    · rw [if_pos hc]
      exact ih _ _ _ (hP s c a h)
    · rw [if_neg hc]
      exact h

theorem draw_sprites_preserves (adv target start end_ : Nat)
    (body : ActiveSprite → Nat → α → α)
    (P : α → Prop) (hP : ∀ s c a, P a → P (body s c a)) :
    ∀ (l : List ActiveSprite) (a : α), P a →
      P (draw_sprites adv target start end_ body l a).2 := by
  intro l
  induction l with
  | nil => intro a h; exact h
  | cons s rest ih =>
    intro a h
    show P (draw_sprite adv target start end_ body s
      (draw_sprites adv target start end_ body rest a).2).2
    unfold draw_sprite
    by_cases hs : s.shift_position < target
    · simp only [if_pos hs]
      exact sprite_columns_preserves adv target end_ body P hP _ _ _ _ (ih a h)
    · simp only [if_neg hs]
      exact ih a h

end SpriteLoops

end TMS

namespace TMS

/-! ### Sprites across two consecutive calls -/

section SpriteSplit

variable {β : Type}

/-- The number of iterations of the column loop: every iteration met the loop condition,
and the loop ended by running out of columns or by failing the condition. -/
theorem sprite_steps_spec (adv target end_ : Nat) (hadv : adv = 1 ∨ adv = 2) :
    ∀ (fuel c sp : Nat),
      sprite_steps adv target end_ fuel c sp ≤ fuel ∧
      (0 < sprite_steps adv target end_ fuel c sp →
        c + (sprite_steps adv target end_ fuel c sp - 1) < end_ ∧
        sp + adv * (sprite_steps adv target end_ fuel c sp - 1) < target) ∧
      (sprite_steps adv target end_ fuel c sp = fuel ∨
        ¬ (c + sprite_steps adv target end_ fuel c sp < end_ ∧
          sp + adv * sprite_steps adv target end_ fuel c sp < target)) := by
  intro fuel
  induction fuel with
  | zero =>
    intro c sp
    rw [sprite_steps]
    exact ⟨le_rfl, fun h => absurd h (lt_irrefl 0), Or.inl rfl⟩
  | succ fuel ih =>
    intro c sp
    rw [sprite_steps_succ]
    by_cases h : c < end_ ∧ sp < target
    · rw [if_pos h]
      obtain ⟨h1, h2, h3⟩ := ih (c + 1) (sp + adv)
      generalize sprite_steps adv target end_ fuel (c + 1) (sp + adv) = k at h1 h2 h3
      rcases hadv with rfl | rfl
      · refine ⟨by omega, fun _ => ?_, ?_⟩
        · by_cases hk : 0 < k
          · have := h2 hk
            omega
          · have hk0 : k = 0 := by omega
            subst hk0
            simpa using h
        · rcases h3 with h3 | h3
          · left; omega
          · right
            intro hh
            apply h3
            omega
      · refine ⟨by omega, fun _ => ?_, ?_⟩
        · by_cases hk : 0 < k
          · have := h2 hk
            omega
          · have hk0 : k = 0 := by omega
            subst hk0
            simpa using h
        · rcases h3 with h3 | h3
          · left; omega
          · right
            intro hh
            apply h3
            omega
    · rw [if_neg h]
      refine ⟨Nat.zero_le _, fun h0 => absurd h0 (lt_irrefl 0), Or.inr ?_⟩
      simpa using h

/-- Below the split point, the first of two consecutive calls draws a sprite at the columns
where the single call does. -/
theorem covers_first (adv target start mid end_ : Nat) (hme : mid ≤ end_)
    (s : ActiveSprite) (c : Nat) (hc : c < mid) :
    covers adv target start mid s c ↔ covers adv target start end_ s c := by
  unfold covers
  constructor
  · rintro ⟨h1, _, h3⟩
    exact ⟨h1, by omega, h3⟩
  · rintro ⟨h1, _, h3⟩
    exact ⟨h1, hc, h3⟩

/-- From the split point on, the second of two consecutive calls draws a sprite, as the
first call left it, at the columns where the single call does, and at the same
`shift_position`. -/
theorem covers_second (adv target start mid end_ : Nat) (hadv : adv = 1 ∨ adv = 2)
    (hsm : start ≤ mid) (s : ActiveSprite) (c : Nat) (hc : mid ≤ c) :
    (covers adv target mid end_ (advance_sprite adv target start mid s) c ↔
      covers adv target start end_ s c) ∧
    (covers adv target start end_ s c →
      sprite_at adv (advance_sprite adv target start mid s)
          (c - pixel_start mid (advance_sprite adv target start mid s))
        = sprite_at adv s (c - pixel_start start s)) := by
  unfold advance_sprite
  by_cases hg : s.shift_position < target
  · rw [if_pos hg]
    obtain ⟨h1, h2, h3⟩ := sprite_steps_spec adv target mid hadv
      (mid - pixel_start start s) (pixel_start start s) s.shift_position
    generalize sprite_steps adv target mid (mid - pixel_start start s) (pixel_start start s)
      s.shift_position = k at h1 h2 h3
    have hps : pixel_start mid (sprite_at adv s k) = pixel_start mid s := rfl
    have hsp : (sprite_at adv s k).shift_position = s.shift_position + adv * k := rfl
    unfold covers
    rw [hps, hsp, sprite_at_add]
    have hp0 : pixel_start start s = (Max.max (start : Int) s.x).toNat := rfl
    have hp1 : pixel_start mid s = (Max.max (mid : Int) s.x).toNat := rfl
    generalize pixel_start start s = p0 at *
    generalize pixel_start mid s = p1 at *
    generalize s.shift_position = sp at *
    have hk1 : 0 < k → p0 + (k - 1) < mid ∧ sp + adv * (k - 1) < target := h2
    rcases hadv with rfl | rfl
    · constructor
      · constructor
        · rintro ⟨a1, a2, a3⟩
          refine ⟨by omega, a2, ?_⟩
          by_cases hk0 : 0 < k
          · have := hk1 hk0
            omega
          · omega
        · rintro ⟨a1, a2, a3⟩
          refine ⟨by omega, a2, ?_⟩
          by_cases hk0 : 0 < k
          · have := hk1 hk0
            omega
          · omega
      · rintro ⟨a1, a2, a3⟩
        congr 1
        by_cases hk0 : 0 < k
        · have := hk1 hk0
          omega
        · omega
    · constructor
      · constructor
        · rintro ⟨a1, a2, a3⟩
          refine ⟨by omega, a2, ?_⟩
          by_cases hk0 : 0 < k
          · have := hk1 hk0
            omega
          · omega
        · rintro ⟨a1, a2, a3⟩
          refine ⟨by omega, a2, ?_⟩
          by_cases hk0 : 0 < k
          · have := hk1 hk0
            omega
          · omega
      · rintro ⟨a1, a2, a3⟩
        congr 1
        by_cases hk0 : 0 < k
        · have := hk1 hk0
          omega
        · omega
  · rw [if_neg hg]
    unfold covers
    constructor
    · constructor
      · rintro ⟨_, _, a3⟩
        exact absurd (lt_of_le_of_lt (Nat.le_add_right _ _) a3) hg
      · rintro ⟨_, _, a3⟩
        exact absurd (lt_of_le_of_lt (Nat.le_add_right _ _) a3) hg
    · rintro ⟨_, _, a3⟩
      exact absurd (lt_of_le_of_lt (Nat.le_add_right _ _) a3) hg

theorem sprites_over_first (adv target start mid end_ : Nat) (hme : mid ≤ end_)
    (upd : ActiveSprite → β → β) (c : Nat) (hc : c < mid) (v : β) :
    ∀ l : List ActiveSprite,
      sprites_over adv target start mid upd c l v =
        sprites_over adv target start end_ upd c l v := by
  intro l
  induction l with
  | nil => rfl
  | cons s rest ih =>
    have hiff := covers_first adv target start mid end_ hme s c hc
    show (if covers adv target start mid s c then _ else _) =
      (if covers adv target start end_ s c then _ else _)
    by_cases h : covers adv target start end_ s c
    · rw [if_pos h, if_pos (hiff.mpr h), ih]
    · rw [if_neg h, if_neg (fun hh => h (hiff.mp hh)), ih]

theorem sprites_over_second (adv target start mid end_ : Nat) (hadv : adv = 1 ∨ adv = 2)
    (hsm : start ≤ mid) (upd : ActiveSprite → β → β) (c : Nat) (hc : mid ≤ c) (v : β) :
    ∀ l : List ActiveSprite,
      sprites_over adv target mid end_ upd c (l.map (advance_sprite adv target start mid)) v =
        sprites_over adv target start end_ upd c l v := by
  intro l
  induction l with
  | nil => rfl
  | cons s rest ih =>
    obtain ⟨hiff, heq⟩ := covers_second adv target start mid end_ hadv hsm s c hc
    show (if covers adv target mid end_ (advance_sprite adv target start mid s) c then _ else _) =
      (if covers adv target start end_ s c then _ else _)
    by_cases h : covers adv target start end_ s c
    · rw [if_pos h, if_pos (hiff.mpr h), ih, heq h]
    · rw [if_neg h, if_neg (fun hh => h (hiff.mp hh)), ih]

end SpriteSplit

end TMS

namespace TMS

/-! ### `draw_tms_character` in closed form -/

theorem sprites_over_outside {β : Type} (adv target start end_ : Nat)
    (upd : ActiveSprite → β → β) (c : Nat) (hc : ¬ (start ≤ c ∧ c < end_)) (v : β) :
    ∀ l : List ActiveSprite, sprites_over adv target start end_ upd c l v = v := by
  intro l
  induction l with
  | nil => rfl
  | cons s rest ih =>
    show (if covers adv target start end_ s c then _ else _) = v
    rw [if_neg, ih]
    rintro ⟨h1, h2, _⟩
    apply hc
    have : start ≤ pixel_start start s := by
      unfold pixel_start
      omega
    omega

theorem tms_sprite_body_pixels (b : Base) (s : ActiveSprite) (c : Nat) (a : SpriteState)
    (c' : Nat) :
    (tms_sprite_body b s c a).pixels (c' : Int) =
      if c' = c then tms_sprite_pixel b s (a.pixels (c : Int)) else a.pixels (c' : Int) := by
  unfold tms_sprite_body
  simp only [store]
  by_cases h : c' = c
  · subst h
    simp
  · have : ¬ ((c' : Int) = (c : Int)) := by omega
    rw [if_neg this, if_neg h]

theorem tms_sprite_body_negative (b : Base) (s : ActiveSprite) (c : Nat) (a : SpriteState)
    (i : Int) (hi : i < 0) :
    (tms_sprite_body b s c a).pixels i = a.pixels i := by
  unfold tms_sprite_body
  simp only [store]
  rw [if_neg (by omega)]

/-- The call `draw_tms_character(start, end)` with `start ≤ end` returns; it changes the
active sprites, `pixel_target_`, the output row and `status_` only, and the output row it
leaves is the background of the call with the sprites drawn over it. -/
theorem draw_tms_character_spec (ext : Externals) (b : Base) (start end_ : Nat)
    (g : Nat → Nat) (h : start ≤ end_) :
    ∃ (b' : Base) (target : Int) (bg : Int → Nat),
      draw_tms_character ext b start end_ g = some b' ∧
      draw_tms_background ext b start end_ = some (target, bg) ∧
      b'.palette = b.palette ∧
      b'.line_buffer.patterns = b.line_buffer.patterns ∧
      b'.screen_mode_ = b.screen_mode_ ∧
      b'.background_colour_ = b.background_colour_ ∧
      b'.sprites_magnified_ = b.sprites_magnified_ ∧
      b'.sprites_16x16_ = b.sprites_16x16_ ∧
      b'.pixel_target_ = target ∧
      b'.line_buffer.active_sprites =
        (sprites_on_entry b start).map
          (advance_sprite (shift_advance b) (shifter_target b) start end_) ∧
      ∀ i : Int, b'.pixels i =
        if 0 ≤ i then
          sprites_over (shift_advance b) (shifter_target b) start end_ (tms_sprite_pixel b)
            i.toNat (sprites_on_entry b start) (bg i)
        else bg i := by
  have hbg := draw_tms_background_eq ext b start end_ h
  obtain ⟨target, bg, hbg'⟩ : ∃ target bg,
      draw_tms_background ext b start end_ = some (target, bg) := by
    rw [hbg]
    by_cases hm : b.screen_mode_ = ScreenMode.MultiColour
    · rw [if_pos hm]; exact ⟨_, _, rfl⟩
    · rw [if_neg hm]; exact ⟨_, _, rfl⟩
  unfold draw_tms_character
  rw [hbg']
  simp only
  by_cases hs : b.line_buffer.active_sprites.length ≠ 0
  · rw [if_pos hs]
    refine ⟨_, target, bg, rfl, rfl, rfl, rfl, rfl, rfl, rfl, rfl, rfl, ?_, ?_⟩
    · exact draw_sprites_fst _ _ _ _ _ _ _
    · intro i
      by_cases hi : 0 ≤ i
      · rw [if_pos hi]
        obtain ⟨c, rfl⟩ : ∃ c : Nat, i = (c : Int) := ⟨i.toNat, by omega⟩
        rw [Int.toNat_ofNat]
        exact draw_sprites_obs (shift_advance b) (shifter_target b) start end_
          (tms_sprite_body b) (fun a c => a.pixels (c : Int)) (tms_sprite_pixel b)
          (tms_sprite_body_pixels b) _ _ c
      · rw [if_neg hi]
        exact draw_sprites_preserves (shift_advance b) (shifter_target b) start end_
          (tms_sprite_body b) (fun a => a.pixels i = bg i)
          (fun s c a ha => by
            show (tms_sprite_body b s c a).pixels i = bg i
            rw [tms_sprite_body_negative b s c a i (by omega)]
            exact ha) _ _ rfl
  · rw [if_neg hs]
    have hnil : b.line_buffer.active_sprites = [] := by
      cases hl : b.line_buffer.active_sprites with
      | nil => rfl
      | cons x xs => rw [hl] at hs; simp at hs
    have hentry : sprites_on_entry b start = [] := by
      unfold sprites_on_entry clip_left
      rw [hnil]
      simp
    refine ⟨_, target, bg, rfl, rfl, rfl, rfl, rfl, rfl, rfl, rfl, rfl, ?_, ?_⟩
    · rw [hentry]
      exact hnil
    · intro i
      rw [hentry]
      by_cases hi : 0 ≤ i
      · rw [if_pos hi]; rfl
      · rw [if_neg hi]

end TMS

namespace TMS

/-- The background pass when the write cursor is where the call expects it: at the row
origin in MultiColour mode (which indexes from `pixel_target_` by column), at column
`start` otherwise. -/
theorem draw_tms_background_aligned (ext : Externals) (b : Base) (start end_ : Nat)
    (h : start ≤ end_)
    (hal : b.pixel_target_ =
      if b.screen_mode_ = ScreenMode.MultiColour then 0 else (start : Int)) :
    draw_tms_background ext b start end_ =
      some (if b.screen_mode_ = ScreenMode.MultiColour then 0 else (end_ : Int),
        fun i =>
          if (start : Int) ≤ i ∧ i < (end_ : Int) then tms_background_pixel ext b i.toNat
          else b.pixels i) := by
  rw [draw_tms_background_eq ext b start end_ h]
  unfold tms_background_pixel
  by_cases hm : b.screen_mode_ = ScreenMode.MultiColour
  · rw [if_pos hm] at hal
    simp only [if_pos hm, hal, zero_add, sub_zero]
  · rw [if_neg hm] at hal
    simp only [if_neg hm, hal]
    congr 1
    congr 1
    · omega
    · funext i
      by_cases hi : (start : Int) ≤ i ∧ i < (end_ : Int)
      · rw [if_pos hi, if_pos (by omega)]
        congr 1
        omega
      · rw [if_neg hi, if_neg (by omega)]

theorem tms_background_pixel_congr (ext : Externals) (b b' : Base)
    (h1 : b'.palette = b.palette) (h2 : b'.line_buffer.patterns = b.line_buffer.patterns)
    (h3 : b'.screen_mode_ = b.screen_mode_) (h4 : b'.background_colour_ = b.background_colour_)
    (x : Nat) : tms_background_pixel ext b' x = tms_background_pixel ext b x := by
  unfold tms_background_pixel multicolour_pixel character_pixel colours
  rw [h1, h2, h3, h4]

theorem tms_sprite_pixel_congr (b b' : Base) (h1 : b'.palette = b.palette) :
    tms_sprite_pixel b' = tms_sprite_pixel b := by
  funext s v
  unfold tms_sprite_pixel
  rw [h1]

theorem shift_advance_cases (b : Base) : shift_advance b = 1 ∨ shift_advance b = 2 := by
  unfold shift_advance
  cases b.sprites_magnified_
  · right; rfl
  · left; rfl

end TMS

/-! ## Properties of the scanline renderer -/

namespace TMS

/-- C8: for `draw_tms_character`, any state (line buffer with its patterns and active
sprites, of any horizontal position) whose write cursor is at the row origin, and any
split point `0 < mid < 256`: the call over `[0, 256)`, and the call over `[0, mid)` followed
by the call over `[mid, 256)`, all return, and the two ways leave the same pixel at every
position of the output row. -/
theorem C8_draw_tms_character_split (ext : Externals) (b : Base) (mid : Nat)
    (g₁ g₂ g₃ : Nat → Nat) (h0 : 0 < mid) (h1 : mid < 256) (hcur : b.pixel_target_ = 0) :
    ∃ whole first second : Base,
      draw_tms_character ext b 0 256 g₁ = some whole ∧
      draw_tms_character ext b 0 mid g₂ = some first ∧
      draw_tms_character ext first mid 256 g₃ = some second ∧
      ∀ i : Int, second.pixels i = whole.pixels i := by
  obtain ⟨whole, tw, bgw, hw, hbw, -, -, -, -, -, -, -, -, hpw⟩ :=
    draw_tms_character_spec ext b 0 256 g₁ (by omega)
  obtain ⟨first, tf, bgf, hf, hbf, hf1, hf2, hf3, hf4, hf5, hf6, hf7, hf8, hpf⟩ :=
    draw_tms_character_spec ext b 0 mid g₂ (by omega)
  obtain ⟨second, ts, bgs, hs, hbs, -, -, -, -, -, -, -, -, hps⟩ :=
    draw_tms_character_spec ext first mid 256 g₃ (by omega)
  refine ⟨whole, first, second, hw, hf, hs, ?_⟩
  -- the three backgrounds
  have hal : b.pixel_target_ =
      if b.screen_mode_ = ScreenMode.MultiColour then 0 else ((0 : Nat) : Int) := by
    rw [hcur]; split <;> rfl
  rw [draw_tms_background_aligned ext b 0 256 (by omega) hal] at hbw
  rw [draw_tms_background_aligned ext b 0 mid (by omega) hal] at hbf
  have htf : tf = if b.screen_mode_ = ScreenMode.MultiColour then 0 else (mid : Int) :=
    (congrArg Prod.fst (Option.some.inj hbf)).symm
  have half : first.pixel_target_ =
      if first.screen_mode_ = ScreenMode.MultiColour then 0 else (mid : Int) := by
    rw [hf7, hf3, htf]
  rw [draw_tms_background_aligned ext first mid 256 (by omega) half] at hbs
  have hbgw : bgw = _ := (congrArg Prod.snd (Option.some.inj hbw)).symm
  have hbgf : bgf = _ := (congrArg Prod.snd (Option.some.inj hbf)).symm
  have hbgs : bgs = _ := (congrArg Prod.snd (Option.some.inj hbs)).symm
  -- the sprites of the second call
  have hadvf : shift_advance first = shift_advance b := by
    unfold shift_advance; rw [hf5]
  have htargetf : shifter_target first = shifter_target b := by
    unfold shifter_target; rw [hf6]
  have hentry : sprites_on_entry first mid =
      (sprites_on_entry b 0).map (advance_sprite (shift_advance b) (shifter_target b) 0 mid) := by
    unfold sprites_on_entry
    rw [if_neg (by omega), hf8]
    rfl
  intro i
  rw [hps i, hpw i, hadvf, htargetf, hentry, tms_sprite_pixel_congr b first hf1, hbgs, hbgw]
  simp only
  by_cases hi0 : 0 ≤ i
  · rw [if_pos hi0, if_pos hi0]
    by_cases him : (mid : Int) ≤ i
    · by_cases hie : i < 256
      · rw [if_pos (by omega), if_pos (by omega),
          sprites_over_second (shift_advance b) (shifter_target b) 0 mid 256
            (shift_advance_cases b) (Nat.zero_le _) _ i.toNat (by omega),
          tms_background_pixel_congr ext b first hf1 hf2 hf3 hf4]
      · rw [if_neg (by omega), if_neg (by omega),
          sprites_over_outside _ _ mid 256 _ _ (by omega),
          sprites_over_outside _ _ 0 256 _ _ (by omega), hpf i, if_pos hi0,
          sprites_over_outside _ _ 0 mid _ _ (by omega), hbgf]
        simp only
        rw [if_neg (by omega)]
    · rw [if_neg (by omega), if_pos (by omega),
        sprites_over_outside _ _ mid 256 _ _ (by omega), hpf i, if_pos hi0,
        sprites_over_first (shift_advance b) (shifter_target b) 0 mid 256 (by omega) _ _
          (by omega), hbgf]
      simp only
      rw [if_pos (by omega)]
  · rw [if_neg hi0, if_neg hi0, if_neg (by omega), if_neg (by omega), hpf i, if_neg hi0, hbgf]
    simp only
    rw [if_neg (by omega)]

end TMS

namespace TMS

/-! ### Sprite collisions in `draw_tms_character` -/

theorem tms_sprite_bit_le (s : ActiveSprite) : tms_sprite_bit s ≤ 1 := by
  unfold tms_sprite_bit
  exact Nat.and_le_right

theorem and_bits (u v : Nat) (hu : u ≤ 1) (hv : v ≤ 1) : u &&& v ≠ 0 ↔ u = 1 ∧ v = 1 := by
  interval_cases u <;> interval_cases v <;> decide

theorem or_bits (u v : Nat) (hu : u ≤ 1) (hv : v ≤ 1) :
    u ||| v ≤ 1 ∧ (u ||| v ≠ 0 ↔ u ≠ 0 ∨ v ≠ 0) ∧ (u ||| v = 1 ↔ u = 1 ∨ v = 1) := by
  interval_cases u <;> interval_cases v <;> decide

theorem tms_sprite_body_buffer (b : Base) (s : ActiveSprite) (c : Nat) (a : SpriteState)
    (c' : Nat) :
    (tms_sprite_body b s c a).sprite_buffer c' =
      if c' = c then a.sprite_buffer c ||| tms_sprite_bit s else a.sprite_buffer c' := by
  unfold tms_sprite_body
  simp only [store]

theorem tms_sprite_body_collision_le (b : Base) (s : ActiveSprite) (c : Nat) (a : SpriteState)
    (h : a.sprite_collision ≤ 1) : (tms_sprite_body b s c a).sprite_collision ≤ 1 := by
  unfold tms_sprite_body
  exact (or_bits _ _ h (le_trans Nat.and_le_right (tms_sprite_bit_le s))).1

/-- The column loop raises `sprite_collision` exactly when it was raised or the sprite
shows a set bit at a column, of those it is drawn at, where the sprite buffer of before is
set. -/
theorem tms_columns_collision (b : Base) (adv target end_ : Nat) :
    ∀ (fuel c0 : Nat) (s : ActiveSprite) (a : SpriteState), a.sprite_collision ≤ 1 →
      ((sprite_columns adv target end_ (tms_sprite_body b) fuel c0 s a).2.sprite_collision ≠ 0 ↔
        a.sprite_collision ≠ 0 ∨
        ∃ c', (c0 ≤ c' ∧ c' < c0 + fuel ∧ c' < end_ ∧
            s.shift_position + adv * (c' - c0) < target) ∧
          a.sprite_buffer c' &&& tms_sprite_bit (sprite_at adv s (c' - c0)) ≠ 0) := by
  intro fuel
  induction fuel with
  | zero =>
    intro c0 s a _
    constructor
    · intro h; exact Or.inl h
    · rintro (h | ⟨c', hc, _⟩)
      · exact h
      · omega
  | succ fuel ih =>
    intro c0 s a ha
    rw [sprite_columns_succ]
    by_cases h : c0 < end_ ∧ s.shift_position < target
    · rw [if_pos h, ih _ _ _ (tms_sprite_body_collision_le b s c0 a ha)]
      have hsp : (sprite_at adv s 1).shift_position = s.shift_position + adv * 1 := rfl
      have hcoll : (tms_sprite_body b s c0 a).sprite_collision ≠ 0 ↔
          a.sprite_collision ≠ 0 ∨ a.sprite_buffer c0 &&& tms_sprite_bit s ≠ 0 :=
        (or_bits _ _ ha (le_trans Nat.and_le_right (tms_sprite_bit_le s))).2.1
      rw [hcoll]
      constructor
      · rintro ((h1 | h1) | ⟨c', hc, hb⟩)
        · exact Or.inl h1
        · refine Or.inr ⟨c0, ⟨le_rfl, by omega, h.1, ?_⟩, ?_⟩
          · rw [Nat.sub_self, Nat.mul_zero]; exact h.2
          · rw [Nat.sub_self, sprite_at_zero]; exact h1
        · obtain ⟨k, hk⟩ : ∃ k, c' = c0 + 1 + k := ⟨c' - (c0 + 1), by omega⟩
          have e1 : c' - (c0 + 1) = k := by omega
          have e2 : c' - c0 = 1 + k := by omega
          have hmul : s.shift_position + adv * 1 + adv * k = s.shift_position + adv * (1 + k) := by
            rw [Nat.mul_add, Nat.add_assoc]
          rw [e1, hsp, hmul] at hc
          rw [e1, sprite_at_add, tms_sprite_body_buffer, if_neg (by omega)] at hb
          refine Or.inr ⟨c', ⟨by omega, by omega, hc.2.2.1, ?_⟩, ?_⟩
          · rw [e2]; exact hc.2.2.2
          · rw [e2]; exact hb
      · rintro (h1 | ⟨c', hc, hb⟩)
        · exact Or.inl (Or.inl h1)
        · by_cases hc0 : c' = c0
          · subst hc0
            rw [Nat.sub_self, sprite_at_zero] at hb
            exact Or.inl (Or.inr hb)
          · obtain ⟨k, hk⟩ : ∃ k, c' = c0 + 1 + k := ⟨c' - (c0 + 1), by omega⟩
            have e1 : c' - (c0 + 1) = k := by omega
            have e2 : c' - c0 = 1 + k := by omega
            have hmul : s.shift_position + adv * 1 + adv * k
                = s.shift_position + adv * (1 + k) := by
              rw [Nat.mul_add, Nat.add_assoc]
            rw [e2] at hc hb
            refine Or.inr ⟨c', ⟨by omega, by omega, hc.2.2.1, ?_⟩, ?_⟩
            · rw [e1, hsp, hmul]; exact hc.2.2.2
            · rw [e1, sprite_at_add, tms_sprite_body_buffer, if_neg (by omega)]; exact hb
    · rw [if_neg h]
      constructor
      · intro h1; exact Or.inl h1
      · rintro (h1 | ⟨c', hc, _⟩)
        · exact h1
        · exfalso
          apply h
          exact ⟨by omega, lt_of_le_of_lt (Nat.le_add_right _ _) hc.2.2.2⟩

theorem tms_draw_sprite_collision (b : Base) (adv target start end_ : Nat)
    (s : ActiveSprite) (a : SpriteState) (ha : a.sprite_collision ≤ 1) :
    (draw_sprite adv target start end_ (tms_sprite_body b) s a).2.sprite_collision ≠ 0 ↔
      a.sprite_collision ≠ 0 ∨
      ∃ c', covers adv target start end_ s c' ∧
        a.sprite_buffer c' &&& tms_sprite_bit (sprite_at adv s (c' - pixel_start start s)) ≠ 0 := by
  unfold draw_sprite
  by_cases h : s.shift_position < target
  · simp only [if_pos h]
    rw [tms_columns_collision b adv target end_ _ _ s a ha]
    constructor
    · rintro (h1 | ⟨c', hc, hb⟩)
      · exact Or.inl h1
      · exact Or.inr ⟨c', ⟨hc.1, hc.2.2.1, hc.2.2.2⟩, hb⟩
    · rintro (h1 | ⟨c', hc, hb⟩)
      · exact Or.inl h1
      · refine Or.inr ⟨c', ⟨hc.1, ?_, hc.2.1, hc.2.2⟩, hb⟩
        have h1 := hc.1
        have h2 := hc.2.1
        show c' < pixel_start start s + (end_ - pixel_start start s)
        omega
  · simp only [if_neg h]
    constructor
    · intro h1; exact Or.inl h1
    · rintro (h1 | ⟨c', hc, _⟩)
      · exact h1
      · exact absurd (lt_of_le_of_lt (Nat.le_add_right _ _) hc.2.2) h

theorem tms_draw_sprites_collision_le (b : Base) (adv target start end_ : Nat)
    (l : List ActiveSprite) (a : SpriteState) (ha : a.sprite_collision ≤ 1) :
    (draw_sprites adv target start end_ (tms_sprite_body b) l a).2.sprite_collision ≤ 1 :=
  draw_sprites_preserves adv target start end_ (tms_sprite_body b)
    (fun a => a.sprite_collision ≤ 1) (fun s c a h => tms_sprite_body_collision_le b s c a h)
    l a ha

/-- The sprite buffer that the sprites of a list leave at a column that was zero. -/
theorem tms_buffer_over (b : Base) (start end_ : Nat) (c : Nat) :
    ∀ l : List ActiveSprite,
      sprites_over (shift_advance b) (shifter_target b) start end_
          (fun s v => v ||| tms_sprite_bit s) c l 0 ≤ 1 ∧
      (sprites_over (shift_advance b) (shifter_target b) start end_
          (fun s v => v ||| tms_sprite_bit s) c l 0 = 1 ↔
        ∃ s ∈ l, tms_presents b start end_ s c) := by
  intro l
  induction l with
  | nil =>
    refine ⟨Nat.zero_le _, ?_⟩
    constructor
    · intro h
      have h' : (0 : Nat) = 1 := h
      omega
    · rintro ⟨s, hs, _⟩; simp at hs
  | cons s rest ih =>
    obtain ⟨ih1, ih2⟩ := ih
    show (if covers (shift_advance b) (shifter_target b) start end_ s c then _ else _) ≤ 1 ∧
      ((if covers (shift_advance b) (shifter_target b) start end_ s c then _ else _) = 1 ↔ _)
    by_cases hc : covers (shift_advance b) (shifter_target b) start end_ s c
    · rw [if_pos hc]
      obtain ⟨o1, _, o3⟩ := or_bits _ _ ih1
        (tms_sprite_bit_le (sprite_at (shift_advance b) s (c - pixel_start start s)))
      refine ⟨o1, ?_⟩
      rw [o3, ih2]
      constructor
      · rintro (⟨s', hs', hp⟩ | hbit)
        · exact ⟨s', List.mem_cons_of_mem _ hs', hp⟩
        · exact ⟨s, List.mem_cons_self _ _, hc, hbit⟩
      · rintro ⟨s', hs', hp⟩
        rcases List.mem_cons.mp hs' with rfl | hs''
        · exact Or.inr hp.2
        · exact Or.inl ⟨s', hs'', hp⟩
    · rw [if_neg hc]
      refine ⟨ih1, ?_⟩
      rw [ih2]
      constructor
      · rintro ⟨s', hs', hp⟩
        exact ⟨s', List.mem_cons_of_mem _ hs', hp⟩
      · rintro ⟨s', hs', hp⟩
        rcases List.mem_cons.mp hs' with rfl | hs''
        · exact absurd hp.1 hc
        · exact ⟨s', hs'', hp⟩

/-- The sprite loops, started with `sprite_collision = 0` and a sprite buffer that is zero on
`[start, end)`, raise `sprite_collision` exactly when two sprites of the list present a set
bit at one column. -/
theorem tms_draw_sprites_collision (b : Base) (start end_ : Nat) (a : SpriteState)
    (hcoll : a.sprite_collision = 0)
    (hbuf : ∀ c, start ≤ c → c < end_ → a.sprite_buffer c = 0) :
    ∀ l : List ActiveSprite,
      (draw_sprites (shift_advance b) (shifter_target b) start end_ (tms_sprite_body b)
          l a).2.sprite_collision ≠ 0 ↔ tms_overlap_in b start end_ l := by
  intro l
  induction l with
  | nil =>
    show a.sprite_collision ≠ 0 ↔ False
    rw [hcoll]
    simp
  | cons s rest ih =>
    show (draw_sprite (shift_advance b) (shifter_target b) start end_ (tms_sprite_body b) s
      (draw_sprites (shift_advance b) (shifter_target b) start end_ (tms_sprite_body b)
        rest a).2).2.sprite_collision ≠ 0 ↔
      (tms_overlap_in b start end_ rest ∨
        ∃ c, tms_presents b start end_ s c ∧ ∃ s' ∈ rest, tms_presents b start end_ s' c)
    rw [tms_draw_sprite_collision b _ _ _ _ s _
      (tms_draw_sprites_collision_le b _ _ _ _ rest a (by omega)), ih]
    have hbuffer : ∀ c, covers (shift_advance b) (shifter_target b) start end_ s c →
        (draw_sprites (shift_advance b) (shifter_target b) start end_ (tms_sprite_body b)
          rest a).2.sprite_buffer c =
        sprites_over (shift_advance b) (shifter_target b) start end_
          (fun s v => v ||| tms_sprite_bit s) c rest 0 := by
      intro c hc
      have hstart : start ≤ pixel_start start s := by unfold pixel_start; omega
      have h1 := hc.1
      rw [draw_sprites_obs (shift_advance b) (shifter_target b) start end_ (tms_sprite_body b)
        (fun a c => a.sprite_buffer c) (fun s v => v ||| tms_sprite_bit s)
        (tms_sprite_body_buffer b) rest a c, hbuf c (by omega) hc.2.1]
    constructor
    · rintro (h1 | ⟨c, hc, hb⟩)
      · exact Or.inl h1
      · rw [hbuffer c hc] at hb
        obtain ⟨hu, hv⟩ := (and_bits _ _ (tms_buffer_over b start end_ c rest).1
          (tms_sprite_bit_le _)).mp hb
        exact Or.inr ⟨c, ⟨hc, hv⟩, ((tms_buffer_over b start end_ c rest).2).mp hu⟩
    · rintro (h1 | ⟨c, hp, hex⟩)
      · exact Or.inl h1
      · refine Or.inr ⟨c, hp.1, ?_⟩
        rw [hbuffer c hp.1]
        exact (and_bits _ _ (tms_buffer_over b start end_ c rest).1 (tms_sprite_bit_le _)).mpr
          ⟨((tms_buffer_over b start end_ c rest).2).mpr hex, hp.2⟩

/-- Overlap within a list, by positions. -/
theorem tms_overlap_in_iff (b : Base) (start end_ : Nat) :
    ∀ l : List ActiveSprite, tms_overlap_in b start end_ l ↔
      ∃ (i j : Nat) (s₁ s₂ : ActiveSprite) (c : Nat), i < j ∧ l[i]? = some s₁ ∧
        l[j]? = some s₂ ∧ tms_presents b start end_ s₁ c ∧ tms_presents b start end_ s₂ c := by
  intro l
  induction l with
  | nil =>
    constructor
    · intro h; exact absurd h id
    · rintro ⟨i, j, s₁, s₂, c, _, h1, _⟩
      simp at h1
  | cons s rest ih =>
    show (tms_overlap_in b start end_ rest ∨ _) ↔ _
    rw [ih]
    constructor
    · rintro (⟨i, j, s₁, s₂, c, hij, h1, h2, hp1, hp2⟩ | ⟨c, hp, s', hs', hp'⟩)
      · exact ⟨i + 1, j + 1, s₁, s₂, c, by omega, by rw [List.getElem?_cons_succ]; exact h1,
          by rw [List.getElem?_cons_succ]; exact h2, hp1, hp2⟩
      · obtain ⟨n, hn⟩ := List.mem_iff_getElem?.mp hs'
        exact ⟨0, n + 1, s, s', c, by omega, List.getElem?_cons_zero,
          by rw [List.getElem?_cons_succ]; exact hn, hp, hp'⟩
    · rintro ⟨i, j, s₁, s₂, c, hij, h1, h2, hp1, hp2⟩
      obtain ⟨j', rfl⟩ : ∃ j', j = j' + 1 := ⟨j - 1, by omega⟩
      rw [List.getElem?_cons_succ] at h2
      cases i with
      | zero =>
        rw [List.getElem?_cons_zero] at h1
        have hs : s = s₁ := Option.some.inj h1
        subst hs
        exact Or.inr ⟨c, hp1, s₂, List.mem_iff_getElem?.mpr ⟨j', h2⟩, hp2⟩
      | succ i' =>
        rw [List.getElem?_cons_succ] at h1
        exact Or.inl ⟨i', j', s₁, s₂, c, by omega, h1, h2, hp1, hp2⟩

end TMS

namespace TMS

/-- The `status_` that `draw_tms_character(start, end)` leaves. -/
theorem draw_tms_character_status (ext : Externals) (b : Base) (start end_ : Nat)
    (g : Nat → Nat) (h : start ≤ end_) :
    ∃ b' : Base, draw_tms_character ext b start end_ g = some b' ∧
      b'.status_ =
        if b.line_buffer.active_sprites.length ≠ 0 then
          b.status_ |||
            ((draw_sprites (shift_advance b) (shifter_target b) start end_ (tms_sprite_body b)
              (sprites_on_entry b start)
              { sprite_buffer := memset_zero g start end_
                sprite_collision := 0
                pixels := (draw_tms_background ext b start end_).elim b.pixels Prod.snd
              }).2.sprite_collision <<< ext.StatusSpriteCollisionShift)
        else b.status_ := by
  have hbg := draw_tms_background_eq ext b start end_ h
  obtain ⟨target, bg, hbg'⟩ : ∃ target bg,
      draw_tms_background ext b start end_ = some (target, bg) := by
    rw [hbg]
    by_cases hm : b.screen_mode_ = ScreenMode.MultiColour
    · rw [if_pos hm]; exact ⟨_, _, rfl⟩
    · rw [if_neg hm]; exact ⟨_, _, rfl⟩
  unfold draw_tms_character
  rw [hbg']
  simp only
  by_cases hs : b.line_buffer.active_sprites.length ≠ 0
  · rw [if_pos hs, if_pos hs]
    exact ⟨_, rfl, rfl⟩
  · rw [if_neg hs, if_neg hs]
    exact ⟨_, rfl, rfl⟩

theorem tms_sprites_overlap_iff (b : Base) (start end_ : Nat) :
    tms_sprites_overlap b start end_ ↔ tms_overlap_in b start end_ (sprites_on_entry b start) := by
  rw [tms_overlap_in_iff]
  unfold tms_sprites_overlap
  constructor
  · rintro ⟨i, j, s₁, s₂, c, hij, h1, h2, hp1, hp2⟩
    rcases Nat.lt_or_gt_of_ne hij with hlt | hgt
    · exact ⟨i, j, s₁, s₂, c, hlt, h1, h2, hp1, hp2⟩
    · exact ⟨j, i, s₂, s₁, c, hgt, h2, h1, hp2, hp1⟩
  · rintro ⟨i, j, s₁, s₂, c, hij, h1, h2, hp1, hp2⟩
    exact ⟨i, j, s₁, s₂, c, by omega, h1, h2, hp1, hp2⟩

/-- A call `draw_tms_character(start, end)` with `start ≤ end` returns.  If two distinct
active sprites both have a bit decoded as set by `tms_sprite_bit` at one column of
`[start, end)`, whatever their colour indices, the call leaves the sprite-collision bit of
`status_` set; if no two distinct sprites do, the call leaves `status_` as it was. -/
theorem tms_collision_decoded (ext : Externals) (b : Base) (start end_ : Nat)
    (g : Nat → Nat) (h : start ≤ end_) :
    ∃ b' : Base, draw_tms_character ext b start end_ g = some b' ∧
      (tms_sprites_overlap b start end_ →
        b'.status_.testBit ext.StatusSpriteCollisionShift = true) ∧
      (¬ tms_sprites_overlap b start end_ → b'.status_ = b.status_) := by
  obtain ⟨b', hb', hstatus⟩ := draw_tms_character_status ext b start end_ g h
  refine ⟨b', hb', ?_, ?_⟩
  · intro hov
    rw [hstatus]
    have hne : b.line_buffer.active_sprites.length ≠ 0 := by
      intro hlen
      obtain ⟨i, j, s₁, s₂, c, _, h1, _⟩ := hov
      have hnil : b.line_buffer.active_sprites = [] := List.length_eq_zero.mp hlen
      have hentry : sprites_on_entry b start = [] := by
        unfold sprites_on_entry clip_left
        rw [hnil]
        simp
      rw [hentry] at h1
      simp at h1
    rw [if_pos hne]
    have hle := tms_draw_sprites_collision_le b (shift_advance b) (shifter_target b) start end_
      (sprites_on_entry b start)
      { sprite_buffer := memset_zero g start end_
        sprite_collision := 0
        pixels := (draw_tms_background ext b start end_).elim b.pixels Prod.snd }
      (Nat.zero_le _)
    have hiff := tms_draw_sprites_collision b start end_
      { sprite_buffer := memset_zero g start end_
        sprite_collision := 0
        pixels := (draw_tms_background ext b start end_).elim b.pixels Prod.snd }
      rfl (fun c h1 h2 => by simp [memset_zero, h1, h2]) (sprites_on_entry b start)
    have hnz := hiff.mpr ((tms_sprites_overlap_iff b start end_).mp hov)
    have hone : (draw_sprites (shift_advance b) (shifter_target b) start end_
        (tms_sprite_body b) (sprites_on_entry b start)
        { sprite_buffer := memset_zero g start end_
          sprite_collision := 0
          pixels := (draw_tms_background ext b start end_).elim b.pixels Prod.snd
        }).2.sprite_collision = 1 := by omega
    rw [hone, Nat.testBit_or, Nat.one_shiftLeft, Nat.testBit_two_pow_self, Bool.or_true]
  · intro hov
    rw [hstatus]
    by_cases hne : b.line_buffer.active_sprites.length ≠ 0
    · rw [if_pos hne]
      have hiff := tms_draw_sprites_collision b start end_
        { sprite_buffer := memset_zero g start end_
          sprite_collision := 0
          pixels := (draw_tms_background ext b start end_).elim b.pixels Prod.snd }
        rfl (fun c h1 h2 => by simp [memset_zero, h1, h2]) (sprites_on_entry b start)
      have hz : (draw_sprites (shift_advance b) (shifter_target b) start end_
          (tms_sprite_body b) (sprites_on_entry b start)
          { sprite_buffer := memset_zero g start end_
            sprite_collision := 0
            pixels := (draw_tms_background ext b start end_).elim b.pixels Prod.snd
          }).2.sprite_collision = 0 := by
        by_contra hnz
        exact hov ((tms_sprites_overlap_iff b start end_).mpr (hiff.mp hnz))
      rw [hz, Nat.zero_shiftLeft, Nat.or_zero]
    · rw [if_neg hne]

end TMS

namespace TMS

/-! ### The tile pass of `draw_sms` -/

theorem byte_lt (v : Nat) : byte v < 256 := Nat.mod_lt _ (by decide)

theorem load_pattern_lt (lb : LineBuffer) (col : Nat) : load_pattern lb col < 2 ^ 32 := by
  unfold load_pattern
  have h0 := byte_lt (lb.patterns col 0)
  have h1 := byte_lt (lb.patterns col 1)
  have h2 := byte_lt (lb.patterns col 2)
  have h3 := byte_lt (lb.patterns col 3)
  refine Nat.or_lt_two_pow (Nat.or_lt_two_pow (Nat.or_lt_two_pow ?_ ?_) ?_) ?_
  · omega
  · rw [Nat.shiftLeft_eq]; omega
  · rw [Nat.shiftLeft_eq]; omega
  · rw [Nat.shiftLeft_eq]; omega

/-- The pattern after `k` pixels of a tile. -/
theorem shift_left_mod (a j k : Nat) :
    (((a <<< j) % 2 ^ 32) <<< k) % 2 ^ 32 = (a <<< (j + k)) % 2 ^ 32 := by
  rw [Nat.shiftLeft_eq, Nat.shiftLeft_eq, Nat.shiftLeft_eq, Nat.mod_mul_mod, pow_add,
    Nat.mul_assoc]

/-- The inner loop of the tile pass, flipped tiles. -/
theorem tile_loop_flipped (po : Nat) :
    ∀ (n c0 p off : Nat) (cb : Nat → Nat),
      (for_loop (fun _ (s : Nat × Nat × (Nat → Nat)) =>
          (s.1 >>> 1, s.2.1 + 1, store s.2.2 s.2.1 (sms_tile_colour_flipped s.1 po)))
        n c0 (p, off, cb)).2.1 = off + n ∧
      ∀ i, (for_loop (fun _ (s : Nat × Nat × (Nat → Nat)) =>
          (s.1 >>> 1, s.2.1 + 1, store s.2.2 s.2.1 (sms_tile_colour_flipped s.1 po)))
        n c0 (p, off, cb)).2.2 i =
        if off ≤ i ∧ i < off + n then sms_tile_colour_flipped (p >>> (i - off)) po else cb i := by
  intro n
  induction n with
  | zero =>
    intro c0 p off cb
    refine ⟨rfl, fun i => ?_⟩
    rw [if_neg (by omega)]
    rfl
  | succ n ih =>
    intro c0 p off cb
    obtain ⟨ih1, ih2⟩ := ih (c0 + 1) (p >>> 1) (off + 1)
      (store cb off (sms_tile_colour_flipped p po))
    rw [for_loop_succ]
    constructor
    · exact ih1.trans (by omega)
    · intro i
      refine (ih2 i).trans ?_
      by_cases h1 : i = off
      · subst h1
        rw [if_neg (by omega), if_pos (by omega), store_same, Nat.sub_self]
        rfl
      · rw [store_other _ _ _ _ h1]
        by_cases h2 : off + 1 ≤ i ∧ i < off + 1 + n
        · rw [if_pos h2, if_pos (by omega)]
          have : i - off = 1 + (i - (off + 1)) := by omega
          rw [this, Nat.shiftRight_add]
        · rw [if_neg h2, if_neg (by omega)]

/-- The inner loop of the tile pass, tiles that are not flipped. -/
theorem tile_loop_plain (po : Nat) :
    ∀ (n c0 p off : Nat) (cb : Nat → Nat), p < 2 ^ 32 →
      (for_loop (fun _ (s : Nat × Nat × (Nat → Nat)) =>
          ((s.1 <<< 1) % 2 ^ 32, s.2.1 + 1, store s.2.2 s.2.1 (sms_tile_colour s.1 po)))
        n c0 (p, off, cb)).2.1 = off + n ∧
      ∀ i, (for_loop (fun _ (s : Nat × Nat × (Nat → Nat)) =>
          ((s.1 <<< 1) % 2 ^ 32, s.2.1 + 1, store s.2.2 s.2.1 (sms_tile_colour s.1 po)))
        n c0 (p, off, cb)).2.2 i =
        if off ≤ i ∧ i < off + n then sms_tile_colour ((p <<< (i - off)) % 2 ^ 32) po
        else cb i := by
  intro n
  induction n with
  | zero =>
    intro c0 p off cb _
    refine ⟨rfl, fun i => ?_⟩
    rw [if_neg (by omega)]
    rfl
  | succ n ih =>
    intro c0 p off cb hp
    obtain ⟨ih1, ih2⟩ := ih (c0 + 1) ((p <<< 1) % 2 ^ 32) (off + 1)
      (store cb off (sms_tile_colour p po)) (Nat.mod_lt _ (by decide))
    rw [for_loop_succ]
    constructor
    · exact ih1.trans (by omega)
    · intro i
      refine (ih2 i).trans ?_
      by_cases h1 : i = off
      · subst h1
        rw [if_neg (by omega), if_pos (by omega), store_same, Nat.sub_self]
        congr 1
        rw [Nat.shiftLeft_eq, pow_zero, Nat.mul_one, Nat.mod_eq_of_lt hp]
      · rw [store_other _ _ _ _ h1]
        by_cases h2 : off + 1 ≤ i ∧ i < off + 1 + n
        · rw [if_pos h2, if_pos (by omega)]
          have : i - off = 1 + (i - (off + 1)) := by omega
          rw [this, shift_left_mod]
        · rw [if_neg h2, if_neg (by omega)]

end TMS

namespace TMS

theorem tile_pixels_eq (flipped : Bool) (po : Nat) (length : Int)
    (s : Nat × Nat × (Nat → Nat)) :
    tile_pixels flipped po length s =
      if flipped = true then
        for_loop (fun _ (s : Nat × Nat × (Nat → Nat)) =>
          (s.1 >>> 1, s.2.1 + 1, store s.2.2 s.2.1 (sms_tile_colour_flipped s.1 po)))
          length.toNat 0 s
      else
        for_loop (fun _ (s : Nat × Nat × (Nat → Nat)) =>
          ((s.1 <<< 1) % 2 ^ 32, s.2.1 + 1, store s.2.2 s.2.1 (sms_tile_colour s.1 po)))
          length.toNat 0 s := by
  cases flipped <;> rfl

theorem sms_tile_pixel_at (b : Base) (col r : Nat) (h : r < 8) :
    sms_tile_pixel b (8 * col + r) =
      if byte (b.line_buffer.flags col) &&& 2 ≠ 0 then
        sms_tile_colour_flipped (load_pattern b.line_buffer col >>> r)
          ((byte (b.line_buffer.flags col) &&& 0x18) <<< 1)
      else
        sms_tile_colour ((load_pattern b.line_buffer col <<< r) % 2 ^ 32)
          ((byte (b.line_buffer.flags col) &&& 0x18) <<< 1) := by
  unfold sms_tile_pixel
  simp only [(column_of col r h).1, (column_of col r h).2]

theorem tile_pattern_at_lt (b : Base) (col sh : Nat)
    (h : ¬ (byte (b.line_buffer.flags col) &&& 2 ≠ 0)) : tile_pattern_at b col sh < 2 ^ 32 := by
  unfold tile_pattern_at
  rw [if_neg h]
  exact Nat.mod_lt _ (by decide)

/-- The pixels of one tile: entered `sh` pixels into the byte column `col`, the inner loops
store `length` tile pixels from `off` on. -/
theorem tile_pixels_spec (b : Base) (col sh : Nat) (length : Int) (off : Nat)
    (cb : Nat → Nat) (hsh : sh + length.toNat ≤ 8) :
    (tile_pixels (decide (byte (b.line_buffer.flags col) &&& 2 ≠ 0))
        ((byte (b.line_buffer.flags col) &&& 0x18) <<< 1) length
        (tile_pattern_at b col sh, off, cb)).2.1 = off + length.toNat ∧
    ∀ i, (tile_pixels (decide (byte (b.line_buffer.flags col) &&& 2 ≠ 0))
        ((byte (b.line_buffer.flags col) &&& 0x18) <<< 1) length
        (tile_pattern_at b col sh, off, cb)).2.2 i =
      if off ≤ i ∧ i < off + length.toNat then sms_tile_pixel b (8 * col + sh + (i - off))
      else cb i := by
  rw [tile_pixels_eq]
  by_cases hf : byte (b.line_buffer.flags col) &&& 2 ≠ 0
  · rw [if_pos (decide_eq_true hf)]
    obtain ⟨h1, h2⟩ := tile_loop_flipped ((byte (b.line_buffer.flags col) &&& 0x18) <<< 1)
      length.toNat 0 (tile_pattern_at b col sh) off cb
    refine ⟨h1, fun i => ?_⟩
    rw [h2]
    by_cases hi : off ≤ i ∧ i < off + length.toNat
    · rw [if_pos hi, if_pos hi, Nat.add_assoc, sms_tile_pixel_at b col _ (by omega), if_pos hf]
      unfold tile_pattern_at
      rw [if_pos hf, ← Nat.shiftRight_add]
    · rw [if_neg hi, if_neg hi]
  · rw [if_neg (by simpa using hf)]
    obtain ⟨h1, h2⟩ := tile_loop_plain ((byte (b.line_buffer.flags col) &&& 0x18) <<< 1)
      length.toNat 0 (tile_pattern_at b col sh) off cb (tile_pattern_at_lt b col sh hf)
    refine ⟨h1, fun i => ?_⟩
    rw [h2]
    by_cases hi : off ≤ i ∧ i < off + length.toNat
    · rw [if_pos hi, if_pos hi, Nat.add_assoc, sms_tile_pixel_at b col _ (by omega), if_neg hf]
      unfold tile_pattern_at
      rw [if_neg hf, shift_left_mod]
    · rw [if_neg hi, if_neg hi]

theorem tile_loop_succ (b : Base) (fuel : Nat) (st : TileState) :
    tile_loop b (fuel + 1) st =
      if st.pixels_left - st.length = 0 then
        some (tile_pixels (decide (byte (b.line_buffer.flags st.byte_column) &&& 2 ≠ 0))
          ((byte (b.line_buffer.flags st.byte_column) &&& 0x18) <<< 1) st.length
          (st.pattern, st.tile_offset, st.colour_buffer)).2.2
      else
        tile_loop b fuel
          { pixels_left := st.pixels_left - st.length
            length := Min.min 8 (st.pixels_left - st.length)
            byte_column := st.byte_column + 1
            pattern := load_pattern b.line_buffer (st.byte_column + 1)
            tile_offset := (tile_pixels
              (decide (byte (b.line_buffer.flags st.byte_column) &&& 2 ≠ 0))
              ((byte (b.line_buffer.flags st.byte_column) &&& 0x18) <<< 1) st.length
              (st.pattern, st.tile_offset, st.colour_buffer)).2.1
            colour_buffer := (tile_pixels
              (decide (byte (b.line_buffer.flags st.byte_column) &&& 2 ≠ 0))
              ((byte (b.line_buffer.flags st.byte_column) &&& 0x18) <<< 1) st.length
              (st.pattern, st.tile_offset, st.colour_buffer)).2.2 } := by
  rw [tile_loop]

theorem tile_pattern_at_zero (b : Base) (col : Nat) :
    tile_pattern_at b col 0 = load_pattern b.line_buffer col := by
  unfold tile_pattern_at
  by_cases hf : byte (b.line_buffer.flags col) &&& 2 ≠ 0
  · rw [if_pos hf]; rfl
  · rw [if_neg hf, Nat.shiftLeft_eq, pow_zero, Nat.mul_one,
      Nat.mod_eq_of_lt (load_pattern_lt b.line_buffer col)]

/-- The `while(true)` loop of the tile pass, entered `sh` pixels into the byte column
`byte_column` with `pixels_left ≥ 0` pixels to go, returns, having stored the tile pixels
from `8 * byte_column + sh` on at the offsets from `tile_offset` on. -/
theorem tile_loop_eq (b : Base) :
    ∀ (fuel : Nat) (st : TileState) (sh : Nat), sh < 8 →
      0 ≤ st.pixels_left → st.pixels_left < (fuel : Int) →
      st.length = Min.min st.pixels_left (8 - (sh : Int)) →
      st.pattern = tile_pattern_at b st.byte_column sh →
      tile_loop b fuel st =
        some (fun i =>
          if st.tile_offset ≤ i ∧ (i : Int) < (st.tile_offset : Int) + st.pixels_left then
            sms_tile_pixel b (8 * st.byte_column + sh + (i - st.tile_offset))
          else st.colour_buffer i) := by
  intro fuel
  induction fuel with
  | zero => intro st sh _ h0 h1; omega
  | succ fuel ih =>
    intro st sh hsh h0 hfuel hlen hpat
    rw [tile_loop_succ, hpat]
    obtain ⟨hoff, hpix⟩ := tile_pixels_spec b st.byte_column sh st.length st.tile_offset
      st.colour_buffer (by omega)
    by_cases hdone : st.pixels_left - st.length = 0
    · rw [if_pos hdone]
      congr 1
      funext i
      rw [hpix]
      by_cases hi : st.tile_offset ≤ i ∧ i < st.tile_offset + st.length.toNat
      · rw [if_pos hi, if_pos ⟨hi.1, by omega⟩]
      · rw [if_neg hi, if_neg (by omega)]
    · rw [if_neg hdone]
      have hl : st.length = 8 - (sh : Int) := by omega
      rw [ih _ 0 (by omega) (by simp only; omega) (by simp only; omega)
        (by simp only; omega) (by simp only; rw [tile_pattern_at_zero])]
      simp only
      congr 1
      funext i
      rw [hoff, hpix]
      by_cases hi2 : st.tile_offset + st.length.toNat ≤ i ∧
          (i : Int) < ((st.tile_offset + st.length.toNat : Nat) : Int)
            + (st.pixels_left - st.length)
      · rw [if_pos hi2, if_pos (by omega)]
        congr 1
        omega
      · rw [if_neg hi2]
        by_cases hi : st.tile_offset ≤ i ∧ i < st.tile_offset + st.length.toNat
        · rw [if_pos hi, if_pos (by omega)]
        · rw [if_neg hi, if_neg (by omega)]

end TMS

namespace TMS

/-- The border loop of `draw_sms`. -/
theorem border_loop (v : Nat) :
    ∀ (n c0 off : Nat) (cb : Nat → Nat),
      (for_loop (fun c (s : (Nat → Nat) × Nat) => (store s.1 c v, s.2 + 1)) n c0 (cb, off)).2
        = off + n ∧
      ∀ i, (for_loop (fun c (s : (Nat → Nat) × Nat) => (store s.1 c v, s.2 + 1)) n c0
        (cb, off)).1 i = if c0 ≤ i ∧ i < c0 + n then v else cb i := by
  intro n
  induction n with
  | zero =>
    intro c0 off cb
    refine ⟨rfl, fun i => ?_⟩
    rw [if_neg (by omega)]
    rfl
  | succ n ih =>
    intro c0 off cb
    obtain ⟨ih1, ih2⟩ := ih (c0 + 1) (off + 1) (store cb c0 v)
    rw [for_loop_succ]
    constructor
    · exact ih1.trans (by omega)
    · intro i
      refine (ih2 i).trans ?_
      by_cases h1 : i = c0
      · subst h1
        rw [if_neg (by omega), if_pos (by omega), store_same]
      · rw [store_other _ _ _ _ h1]
        by_cases h2 : c0 + 1 ≤ i ∧ i < c0 + 1 + n
        · rw [if_pos h2, if_pos (by omega)]
        · rw [if_neg h2, if_neg (by omega)]

/-- The border and tile passes of `draw_sms(start, end, ...)` with `start < end` return, and
leave in `colour_buffer[c]`, for every `c` of `[start, end)`, the border colour or tile
pixel of the column, whatever the uninitialised buffer held. -/
theorem draw_sms_tiles_spec (b : Base) (start end_ : Nat) (cb : Nat → Nat) (h : start < end_) :
    ∃ tiles : Nat → Nat, draw_sms_tiles b start end_ cb = some tiles ∧
      ∀ c, start ≤ c → c < end_ → tiles c = sms_background b c := by
  unfold draw_sms_tiles sms_background
  simp only
  rw [show (decide (b.row ≥ 16) || !b.horizontal_scroll_lock_) = sms_scrolled b from rfl]
  generalize hfine : b.line_buffer.latched_horizontal_scroll &&& 7 = fine
  by_cases hs : sms_scrolled b = true
  · simp only [hs, if_true]
    obtain ⟨hb2, hb1⟩ := border_loop (16 + b.background_colour_) (fine - start) start start cb
    have hts := column_split (start - fine)
    rw [if_pos (by omega), tile_loop_eq b _ _ ((start - fine) &&& 7) hts.2
      (by simp only; omega) (by simp only; omega) (by simp only) (by simp only; rfl)]
    refine ⟨_, rfl, ?_⟩
    intro c hc1 hc2
    simp only
    rw [hb2, hts.1]
    by_cases hcf : c < fine
    · rw [if_neg (by omega), if_pos hcf, hb1, if_pos (by omega)]
    · rw [if_pos (by omega), if_neg hcf]
      congr 1
      omega
  · simp only [hs, Bool.false_eq_true, if_false]
    have hts := column_split start
    rw [if_pos h, tile_loop_eq b _ _ (start &&& 7) hts.2
      (by simp only; omega) (by simp only; omega) (by simp only) (by simp only; rfl)]
    refine ⟨_, rfl, ?_⟩
    intro c hc1 hc2
    simp only
    rw [hts.1, if_pos (by omega)]
    congr 1
    omega

end TMS

namespace TMS

/-! ### The sprite pass and the output of `draw_sms` -/

theorem sms_sprite_body_buffer (s : ActiveSprite) (c : Nat) (a : SmsSpriteState) (c' : Nat) :
    (sms_sprite_body s c a).sprite_buffer c' =
      if c' = c then sms_sprite_over s (a.sprite_buffer c) else a.sprite_buffer c' := by
  unfold sms_sprite_body sms_sprite_over
  by_cases hcol : sms_sprite_colour s ≠ 0
  · simp only [if_pos hcol, store]
  · simp only [if_neg hcol]
    by_cases hc : c' = c
    · rw [if_pos hc, hc]
    · rw [if_neg hc]

theorem sms_merge_at (sb : Nat → Nat) (c : Nat) (cb : Nat → Nat) (i : Nat) :
    sms_merge sb c cb i = if i = c then sms_merged (sb c) (cb c) else cb i := by
  unfold sms_merge sms_merged
  by_cases h : sb c ≠ 0 ∧ (cb c &&& 0x20 = 0 ∨ cb c &&& 0xf = 0)
  · simp only [if_pos h, store]
  · simp only [if_neg h]
    by_cases hc : i = c
    · rw [if_pos hc, hc]
    · rw [if_neg hc]

/-- The loop that draws the sprite buffer onto the colour buffer. -/
theorem merge_loop (sb : Nat → Nat) :
    ∀ (n c0 : Nat) (cb : Nat → Nat) (i : Nat),
      for_loop (sms_merge sb) n c0 cb i =
        if c0 ≤ i ∧ i < c0 + n then sms_merged (sb i) (cb i) else cb i := by
  intro n
  induction n with
  | zero =>
    intro c0 cb i
    rw [if_neg (by omega)]
    rfl
  | succ n ih =>
    intro c0 cb i
    rw [for_loop_succ, ih, sms_merge_at]
    by_cases h1 : i = c0
    · subst h1
      rw [if_neg (by omega), if_pos rfl, if_pos (by omega)]
    · rw [if_neg h1]
      by_cases h2 : c0 + 1 ≤ i ∧ i < c0 + 1 + n
      · rw [if_pos h2, if_pos (by omega)]
      · rw [if_neg h2, if_neg (by omega)]

theorem sms_merged_zero (colour : Nat) : sms_merged 0 colour = colour := by
  unfold sms_merged
  rw [if_neg (fun h => h.1 rfl)]

/-- The sprite pass of `draw_sms`: the sprites it leaves, and the colour buffer it leaves on
`[start, end)`. -/
theorem draw_sms_sprites_spec (ext : Externals) (b : Base) (start end_ : Nat)
    (tiles sb : Nat → Nat)
    (htiles : ∀ c, start ≤ c → c < end_ → tiles c = sms_background b c) :
    (draw_sms_sprites ext b start end_ tiles sb).1 =
      (sprites_on_entry b start).map (advance_sprite (shift_advance b) 16 start end_) ∧
    ∀ c, start ≤ c → c < end_ →
      (draw_sms_sprites ext b start end_ tiles sb).2.1 c = sms_colour b start end_ c := by
  unfold draw_sms_sprites
  by_cases hs : b.line_buffer.active_sprites.length ≠ 0
  · rw [if_pos hs]
    constructor
    · exact draw_sprites_fst _ _ _ _ _ _ _
    · intro c hc1 hc2
      show for_loop (sms_merge _) (end_ - start) start tiles c = _
      rw [merge_loop, if_pos (by omega), htiles c hc1 hc2]
      unfold sms_colour
      congr 1
      have := draw_sprites_obs (shift_advance b) 16 start end_ sms_sprite_body
        (fun a c => a.sprite_buffer c) sms_sprite_over sms_sprite_body_buffer
        (sprites_on_entry b start)
        { sprite_buffer := memset_zero sb start end_, sprite_collision := 0 } c
      have hz : ({ sprite_buffer := memset_zero sb start end_, sprite_collision := 0 } :
          SmsSpriteState).sprite_buffer c = 0 := by
        show memset_zero sb start end_ c = 0
        simp [memset_zero, hc1, hc2]
      rw [hz] at this
      exact this
  · rw [if_neg hs]
    have hnil : b.line_buffer.active_sprites = [] := by
      cases hl : b.line_buffer.active_sprites with
      | nil => rfl
      | cons x xs => rw [hl] at hs; simp at hs
    have hentry : sprites_on_entry b start = [] := by
      unfold sprites_on_entry clip_left
      rw [hnil]
      simp
    constructor
    · rw [hentry]; exact hnil
    · intro c hc1 hc2
      show tiles c = _
      unfold sms_colour
      rw [hentry, htiles c hc1 hc2]
      exact (sms_merged_zero _).symm

/-- The output of `draw_sms(start, end, cram_dot)` with `start < end`, from a colour buffer
`m`: the pixels of the columns `[start, end)` at the offsets `pixel_target_ + c`, the
first of them combined with `cram_dot`; then the left column hidden when `end` is `256`. -/
theorem draw_sms_output_eq (b : Base) (start end_ : Nat) (dot : Nat) (m : Nat → Nat)
    (h : start < end_) (i : Int) :
    draw_sms_output b start end_ dot m i =
      if (end_ = 256 ∧ b.hide_left_column_ = true) ∧ 0 ≤ i ∧ i < 8 then
        b.colour_ram_ (16 + b.background_colour_)
      else if b.pixel_target_ + (start : Int) ≤ i ∧ i < b.pixel_target_ + (end_ : Int) then
        if i = b.pixel_target_ + (start : Int) then b.colour_ram_ (m start &&& 0x1f) ||| dot
        else b.colour_ram_ (m (i - b.pixel_target_).toNat &&& 0x1f)
      else b.pixels i := by
  have hmapped : ∀ j : Int,
      for_loop (fun c px =>
          store px (b.pixel_target_ + (c : Int)) (b.colour_ram_ (m c &&& 0x1f)))
        (end_ - (start + 1)) (start + 1)
        (store b.pixels (b.pixel_target_ + (start : Int))
          (b.colour_ram_ (m start &&& 0x1f) ||| dot)) j =
      if b.pixel_target_ + (start : Int) ≤ j ∧ j < b.pixel_target_ + (end_ : Int) then
        if j = b.pixel_target_ + (start : Int) then b.colour_ram_ (m start &&& 0x1f) ||| dot
        else b.colour_ram_ (m (j - b.pixel_target_).toNat &&& 0x1f)
      else b.pixels j := by
    intro j
    rw [for_loop_store b.pixel_target_ (fun c => b.colour_ram_ (m c &&& 0x1f))]
    by_cases hj : j = b.pixel_target_ + (start : Int)
    · rw [if_neg (by omega), hj, store_same, if_pos (by omega), if_pos rfl]
    · rw [store_other _ _ _ _ hj]
      by_cases hj2 : b.pixel_target_ + (start : Int) ≤ j ∧ j < b.pixel_target_ + (end_ : Int)
      · rw [if_pos (by omega), if_pos hj2, if_neg hj]
      · rw [if_neg (by omega), if_neg hj2]
  unfold draw_sms_output
  by_cases hh : end_ = 256 ∧ b.hide_left_column_ = true
  · rw [if_pos hh]
    rw [for_loop_store_origin]
    by_cases hi : 0 ≤ i ∧ i < 8
    · rw [if_pos (by omega), if_pos ⟨hh, hi⟩]
    · rw [if_neg (by omega), if_neg (fun hc => hi hc.2), hmapped]
  · rw [if_neg hh, if_neg (fun hc => hh hc.1), hmapped]

end TMS

namespace TMS

/-! ### `draw_sms` in closed form -/

/-- The call `draw_sms(start, end, cram_dot)` of a Sega VDP with `start < end` returns; it
changes the active sprites, `status_` and the output row only, and the output row it leaves
holds, at the offsets `pixel_target_ + c` for the columns `c` of `[start, end)`, the
colour-RAM entries of the merged colours, the first of them combined with `cram_dot`, and
then the hidden left column when `end` is `256`. -/
theorem draw_sms_spec (ext : Externals) (b : Base) (start end_ : Nat) (dot : Nat)
    (cb sb : Nat → Nat) (hsega : ext.is_sega_vdp = true) (h : start < end_) :
    ∃ b' : Base, draw_sms ext b start end_ dot cb sb = some b' ∧
      b'.row = b.row ∧
      b'.horizontal_scroll_lock_ = b.horizontal_scroll_lock_ ∧
      b'.line_buffer.latched_horizontal_scroll = b.line_buffer.latched_horizontal_scroll ∧
      b'.background_colour_ = b.background_colour_ ∧
      b'.line_buffer.flags = b.line_buffer.flags ∧
      b'.line_buffer.patterns = b.line_buffer.patterns ∧
      b'.sprites_magnified_ = b.sprites_magnified_ ∧
      b'.colour_ram_ = b.colour_ram_ ∧
      b'.pixel_target_ = b.pixel_target_ ∧
      b'.hide_left_column_ = b.hide_left_column_ ∧
      b'.line_buffer.active_sprites =
        (sprites_on_entry b start).map (advance_sprite (shift_advance b) 16 start end_) ∧
      ∀ i : Int, b'.pixels i =
        if (end_ = 256 ∧ b.hide_left_column_ = true) ∧ 0 ≤ i ∧ i < 8 then
          b.colour_ram_ (16 + b.background_colour_)
        else if b.pixel_target_ + (start : Int) ≤ i ∧ i < b.pixel_target_ + (end_ : Int) then
          if i = b.pixel_target_ + (start : Int) then
            b.colour_ram_ (sms_colour b start end_ start &&& 0x1f) ||| dot
          else b.colour_ram_ (sms_colour b start end_ (i - b.pixel_target_).toNat &&& 0x1f)
        else b.pixels i := by
  obtain ⟨tiles, htiles, hbg⟩ := draw_sms_tiles_spec b start end_ cb h
  obtain ⟨hsprites, hmerged⟩ := draw_sms_sprites_spec ext b start end_ tiles sb hbg
  unfold draw_sms
  rw [if_pos hsega, htiles]
  refine ⟨_, rfl, rfl, rfl, rfl, rfl, rfl, rfl, rfl, rfl, rfl, rfl, hsprites, ?_⟩
  intro i
  show draw_sms_output b start end_ dot _ i = _
  rw [draw_sms_output_eq b start end_ dot _ h i]
  by_cases hh : (end_ = 256 ∧ b.hide_left_column_ = true) ∧ 0 ≤ i ∧ i < 8
  · rw [if_pos hh, if_pos hh]
  · rw [if_neg hh, if_neg hh]
    by_cases hi : b.pixel_target_ + (start : Int) ≤ i ∧ i < b.pixel_target_ + (end_ : Int)
    · rw [if_pos hi, if_pos hi, hmerged start le_rfl h,
        hmerged (i - b.pixel_target_).toNat (by omega) (by omega)]
    · rw [if_neg hi, if_neg hi]

theorem sms_background_congr (b b' : Base) (h1 : b'.row = b.row)
    (h2 : b'.horizontal_scroll_lock_ = b.horizontal_scroll_lock_)
    (h3 : b'.line_buffer.latched_horizontal_scroll = b.line_buffer.latched_horizontal_scroll)
    (h4 : b'.background_colour_ = b.background_colour_)
    (h5 : b'.line_buffer.flags = b.line_buffer.flags)
    (h6 : b'.line_buffer.patterns = b.line_buffer.patterns) (c : Nat) :
    sms_background b' c = sms_background b c := by
  unfold sms_background sms_scrolled sms_tile_pixel load_pattern
  rw [h1, h2, h3, h4, h5, h6]

end TMS

namespace TMS

/-- The output row of `draw_sms_spec` when there is no CRAM dot. -/
theorem draw_sms_spec_no_dot (ext : Externals) (b : Base) (start end_ : Nat)
    (cb sb : Nat → Nat) (hsega : ext.is_sega_vdp = true) (h : start < end_) :
    ∃ b' : Base, draw_sms ext b start end_ 0 cb sb = some b' ∧
      b'.row = b.row ∧
      b'.horizontal_scroll_lock_ = b.horizontal_scroll_lock_ ∧
      b'.line_buffer.latched_horizontal_scroll = b.line_buffer.latched_horizontal_scroll ∧
      b'.background_colour_ = b.background_colour_ ∧
      b'.line_buffer.flags = b.line_buffer.flags ∧
      b'.line_buffer.patterns = b.line_buffer.patterns ∧
      b'.sprites_magnified_ = b.sprites_magnified_ ∧
      b'.colour_ram_ = b.colour_ram_ ∧
      b'.pixel_target_ = b.pixel_target_ ∧
      b'.hide_left_column_ = b.hide_left_column_ ∧
      b'.line_buffer.active_sprites =
        (sprites_on_entry b start).map (advance_sprite (shift_advance b) 16 start end_) ∧
      ∀ i : Int, b'.pixels i =
        if (end_ = 256 ∧ b.hide_left_column_ = true) ∧ 0 ≤ i ∧ i < 8 then
          b.colour_ram_ (16 + b.background_colour_)
        else if b.pixel_target_ + (start : Int) ≤ i ∧ i < b.pixel_target_ + (end_ : Int) then
          b.colour_ram_ (sms_colour b start end_ (i - b.pixel_target_).toNat &&& 0x1f)
        else b.pixels i := by
  obtain ⟨b', hb', g1, g2, g3, g4, g5, g6, g7, g8, g9, g10, g11, hp⟩ :=
    draw_sms_spec ext b start end_ 0 cb sb hsega h
  refine ⟨b', hb', g1, g2, g3, g4, g5, g6, g7, g8, g9, g10, g11, ?_⟩
  intro i
  rw [hp i]
  by_cases hh : (end_ = 256 ∧ b.hide_left_column_ = true) ∧ 0 ≤ i ∧ i < 8
  · rw [if_pos hh, if_pos hh]
  · rw [if_neg hh, if_neg hh]
    by_cases hi : b.pixel_target_ + (start : Int) ≤ i ∧ i < b.pixel_target_ + (end_ : Int)
    · rw [if_pos hi, if_pos hi, Nat.or_zero]
      by_cases hs : i = b.pixel_target_ + (start : Int)
      · rw [if_pos hs]
        have : (i - b.pixel_target_).toNat = start := by omega
        rw [this]
      · rw [if_neg hs]
    · rw [if_neg hi, if_neg hi]

end TMS

namespace TMS

/-- C9: for `draw_sms` of a Sega VDP with no CRAM dot (`cram_dot = 0`), any state (line
buffer, fine scroll, scroll lock, sprites), any contents of the uninitialised locals, and
any split point `0 < mid < 256`: the call over `[0, 256)`, and the call over `[0, mid)`
followed by the call over `[mid, 256)`, all return, and the two ways leave the same pixel
at every position of the output row. -/
theorem C9_draw_sms_split (ext : Externals) (b : Base) (mid : Nat)
    (cb₁ sb₁ cb₂ sb₂ cb₃ sb₃ : Nat → Nat) (hsega : ext.is_sega_vdp = true)
    (h0 : 0 < mid) (h1 : mid < 256) :
    ∃ whole first second : Base,
      draw_sms ext b 0 256 0 cb₁ sb₁ = some whole ∧
      draw_sms ext b 0 mid 0 cb₂ sb₂ = some first ∧
      draw_sms ext first mid 256 0 cb₃ sb₃ = some second ∧
      ∀ i : Int, second.pixels i = whole.pixels i := by
  obtain ⟨whole, hw, -, -, -, -, -, -, -, -, -, -, -, hpw⟩ :=
    draw_sms_spec_no_dot ext b 0 256 cb₁ sb₁ hsega (by omega)
  obtain ⟨first, hf, f1, f2, f3, f4, f5, f6, f7, f8, f9, f10, f11, hpf⟩ :=
    draw_sms_spec_no_dot ext b 0 mid cb₂ sb₂ hsega (by omega)
  obtain ⟨second, hs, -, -, -, -, -, -, -, -, -, -, -, hps⟩ :=
    draw_sms_spec_no_dot ext first mid 256 cb₃ sb₃ hsega (by omega)
  refine ⟨whole, first, second, hw, hf, hs, ?_⟩
  have hadvf : shift_advance first = shift_advance b := by
    unfold shift_advance; rw [f7]
  have hentry : sprites_on_entry first mid =
      (sprites_on_entry b 0).map (advance_sprite (shift_advance b) 16 0 mid) := by
    unfold sprites_on_entry
    rw [if_neg (by omega), f11]
    rfl
  have hsecond : ∀ c, mid ≤ c → sms_colour first mid 256 c = sms_colour b 0 256 c := by
    intro c hc
    unfold sms_colour
    rw [hadvf, hentry, sms_background_congr b first f1 f2 f3 f4 f5 f6,
      sprites_over_second (shift_advance b) 16 0 mid 256 (shift_advance_cases b)
        (Nat.zero_le _) _ c hc]
  have hfirst : ∀ c, c < mid → sms_colour b 0 mid c = sms_colour b 0 256 c := by
    intro c hc
    unfold sms_colour
    rw [sprites_over_first (shift_advance b) 16 0 mid 256 (by omega) _ c hc]
  intro i
  rw [hps i, hpw i, f8, f9, f10, f4]
  by_cases hh : ((256 : Nat) = 256 ∧ b.hide_left_column_ = true) ∧ 0 ≤ i ∧ i < 8
  · rw [if_pos hh, if_pos hh]
  · rw [if_neg hh, if_neg hh]
    by_cases him : b.pixel_target_ + (mid : Int) ≤ i ∧ i < b.pixel_target_ + ((256 : Nat) : Int)
    · have hiw : b.pixel_target_ + ((0 : Nat) : Int) ≤ i ∧
          i < b.pixel_target_ + ((256 : Nat) : Int) := by omega
      rw [if_pos him, if_pos hiw, hsecond (i - b.pixel_target_).toNat (by omega)]
    · have hnf : ¬ ((mid = 256 ∧ b.hide_left_column_ = true) ∧ 0 ≤ i ∧ i < 8) := by
        intro hc
        have := hc.1.1
        omega
      rw [if_neg him, hpf i, if_neg hnf]
      by_cases hif : b.pixel_target_ + ((0 : Nat) : Int) ≤ i ∧ i < b.pixel_target_ + (mid : Int)
      · have hiw : b.pixel_target_ + ((0 : Nat) : Int) ≤ i ∧
            i < b.pixel_target_ + ((256 : Nat) : Int) := by omega
        rw [if_pos hif, if_pos hiw, hfirst (i - b.pixel_target_).toNat (by omega)]
      · have hiw : ¬ (b.pixel_target_ + ((0 : Nat) : Int) ≤ i ∧
            i < b.pixel_target_ + ((256 : Nat) : Int)) := by omega
        rw [if_neg hif, if_neg hiw]

end TMS

namespace TMS

/-- C8 at the sample state, split at column `100`. -/
theorem C8_draw_tms_character_split_witness :
    0 < 100 ∧ 100 < 256 ∧ sampleBase.pixel_target_ = 0 ∧
    ∃ whole first second : Base,
      draw_tms_character sampleExternals sampleBase 0 256 (fun _ => 0) = some whole ∧
      draw_tms_character sampleExternals sampleBase 0 100 (fun _ => 1) = some first ∧
      draw_tms_character sampleExternals first 100 256 (fun _ => 2) = some second ∧
      ∀ i : Int, second.pixels i = whole.pixels i :=
  ⟨by decide, by decide, rfl,
    C8_draw_tms_character_split sampleExternals sampleBase 100 (fun _ => 0) (fun _ => 1)
      (fun _ => 2) (by decide) (by decide) rfl⟩

/-- C9 at the sample state, split at column `100`. -/
theorem C9_draw_sms_split_witness :
    sampleExternals.is_sega_vdp = true ∧ 0 < 100 ∧ 100 < 256 ∧
    ∃ whole first second : Base,
      draw_sms sampleExternals sampleBase 0 256 0 (fun _ => 0) (fun _ => 1) = some whole ∧
      draw_sms sampleExternals sampleBase 0 100 0 (fun _ => 2) (fun _ => 3) = some first ∧
      draw_sms sampleExternals first 100 256 0 (fun _ => 4) (fun _ => 5) = some second ∧
      ∀ i : Int, second.pixels i = whole.pixels i :=
  ⟨rfl, by decide, by decide,
    C9_draw_sms_split sampleExternals sampleBase 100 (fun _ => 0) (fun _ => 1) (fun _ => 2)
      (fun _ => 3) (fun _ => 4) (fun _ => 5) rfl (by decide) (by decide)⟩

end TMS

namespace Reflection

/-! ## The two strategies of `RangeDispatcher`, and empty intervals -/

namespace RangeDispatcher

/-- The strategy `dispatch<true>` performs `begin, ..., end - 1`. -/
theorem dispatch_use_end_true_eq (max : Nat) (hmax : max < 2048) (begin_ end_ : Int)
    (h0 : 0 ≤ begin_) (h1 : begin_ ≤ end_) (h2 : end_ ≤ (max : Int)) :
    dispatch_use_end true max begin_ end_
      = some (List.range' begin_.toNat ((end_ - begin_).toNat)) := by
  have hb : 0 ≤ begin_ ∧ begin_ < 2048 := ⟨h0, by omega⟩
  have hlen : (end_ - begin_).toNat = end_.toNat - begin_.toNat := by omega
  unfold dispatch_use_end
  rw [if_pos hb, hlen]
  congr 1
  exact index_eq_range true max end_ end_.toNat (by omega)
    (Or.inr ⟨rfl, by omega⟩) (fun _ => by omega) _ _ (by omega) (by omega)

/-- The strategy `dispatch<false>` performs `begin, ..., max - 1`, whatever `end` is. -/
theorem dispatch_use_end_false_eq (max : Nat) (hmax : max < 2048) (begin_ end_ : Int)
    (h0 : 0 ≤ begin_) (h1 : begin_ ≤ (max : Int)) :
    dispatch_use_end false max begin_ end_
      = some (List.range' begin_.toNat (((max : Int) - begin_).toNat)) := by
  have hb : 0 ≤ begin_ ∧ begin_ < 2048 := ⟨h0, by omega⟩
  have hlen : ((max : Int) - begin_).toNat = max - begin_.toNat := by omega
  unfold dispatch_use_end
  rw [if_pos hb, hlen]
  congr 1
  exact index_eq_range false max end_ max le_rfl (Or.inl rfl)
    (fun h => by cases h) _ _ (by omega) (by omega)

end RangeDispatcher

/-- C17, as stated, fails: with `max = 10`, `begin = 2`, `end = 5` the strategy
`dispatch<true>` performs `2, 3, 4` and the strategy `dispatch<false>` performs
`2, ..., 9`. -/
theorem C17_strategies_differ_below_max :
    RangeDispatcher.dispatch_use_end true 10 2 5 = some [2, 3, 4] ∧
    RangeDispatcher.dispatch_use_end false 10 2 5 = some [2, 3, 4, 5, 6, 7, 8, 9] ∧
    RangeDispatcher.dispatch_use_end true 10 2 5 ≠
      RangeDispatcher.dispatch_use_end false 10 2 5 := by
  have ht := RangeDispatcher.dispatch_use_end_true_eq 10 (by decide) 2 5 (by decide)
    (by decide) (by decide)
  have hf := RangeDispatcher.dispatch_use_end_false_eq 10 (by decide) 2 5 (by decide)
    (by decide)
  refine ⟨ht.trans (by decide), hf.trans (by decide), ?_⟩
  rw [ht, hf]
  decide

/-- C17, amended: for `max < 2048` and `0 ≤ begin ≤ end ≤ max`, the strategy `dispatch<true>`
performs `begin, ..., end - 1` and the strategy `dispatch<false>` performs `begin, ...,
max - 1`; the two make the same calls exactly when `end = max`; and the public `dispatch`
takes `dispatch<true>` when `end < max` and `dispatch<false>` otherwise, that is, only
when `end = max`. -/
theorem C17_strategies_agree_at_max (max : Nat) (hmax : max < 2048) (begin_ end_ : Int)
    (h0 : 0 ≤ begin_) (h1 : begin_ ≤ end_) (h2 : end_ ≤ (max : Int)) :
    RangeDispatcher.dispatch_use_end true max begin_ end_
      = some (List.range' begin_.toNat ((end_ - begin_).toNat)) ∧
    RangeDispatcher.dispatch_use_end false max begin_ end_
      = some (List.range' begin_.toNat (((max : Int) - begin_).toNat)) ∧
    (RangeDispatcher.dispatch_use_end true max begin_ end_
        = RangeDispatcher.dispatch_use_end false max begin_ end_ ↔ end_ = (max : Int)) ∧
    RangeDispatcher.dispatch max begin_ end_ =
      (if end_ < (max : Int) then RangeDispatcher.dispatch_use_end true max begin_ end_
       else RangeDispatcher.dispatch_use_end false max begin_ end_) := by
  have ht := RangeDispatcher.dispatch_use_end_true_eq max hmax begin_ end_ h0 h1 h2
  have hf := RangeDispatcher.dispatch_use_end_false_eq max hmax begin_ end_ h0 (by omega)
  refine ⟨ht, hf, ?_, rfl⟩
  rw [ht, hf]
  constructor
  · intro h
    have hlen := congrArg List.length (Option.some.inj h)
    rw [List.length_range', List.length_range'] at hlen
    omega
  · intro h
    rw [h]

/-- C17, amended, at `max = 10`, `begin = 2`, `end = 10`. -/
theorem C17_strategies_agree_at_max_witness :
    (10 : Nat) < 2048 ∧ (0 : Int) ≤ 2 ∧ (2 : Int) ≤ 10 ∧ (10 : Int) ≤ ((10 : Nat) : Int) ∧
    (RangeDispatcher.dispatch_use_end true 10 2 10
      = some (List.range' (2 : Int).toNat (((10 : Int) - 2).toNat)) ∧
    RangeDispatcher.dispatch_use_end false 10 2 10
      = some (List.range' (2 : Int).toNat ((((10 : Nat) : Int) - 2).toNat)) ∧
    (RangeDispatcher.dispatch_use_end true 10 2 10
        = RangeDispatcher.dispatch_use_end false 10 2 10 ↔ (10 : Int) = ((10 : Nat) : Int)) ∧
    RangeDispatcher.dispatch 10 2 10 =
      (if (10 : Int) < ((10 : Nat) : Int) then RangeDispatcher.dispatch_use_end true 10 2 10
       else RangeDispatcher.dispatch_use_end false 10 2 10)) :=
  ⟨by decide, by decide, by decide, by decide,
    C17_strategies_agree_at_max 10 (by decide) 2 10 (by decide) (by decide) (by decide)⟩

end Reflection

namespace Reflection

section EmptyInterval

variable {τ : Type} [DecidableEq τ]

open SubrangeDispatcher

/-- The trace of a dispatch over the empty interval `[b, b)`: one zero-length `advance` when
`b` lies strictly inside a run, nothing otherwise. -/
theorem dispatch_empty_eq (region : Nat → τ) (max : Nat) (hmax : max < 2048) (b : Nat)
    (hb : b ≤ max) :
    SubrangeDispatcher.dispatch region max (b : Int) (b : Int) =
      some (if b < max ∧ find_begin region b < b then
        [Call.advance (region (find_begin region b)) 0] else []) := by
  rw [dispatch_eq region max hmax (b : Int) (b : Int) (by omega) le_rfl (by omega)]
  congr 1
  by_cases hlt : b < max
  · unfold allRuns
    rw [touched_runsFrom region max b (b : Int) hlt max 0 (Or.inl rfl) (Nat.zero_le _)
      (by omega)]
    have hfe := find_end_gt region max b hlt
    rw [filter_runsFrom_nil region max (b : Int) _ _ (by omega), List.append_nil]
    by_cases hin : find_begin region b < b
    · rw [if_pos (Or.inl hin), if_pos ⟨hlt, hin⟩, List.flatMap_cons, List.flatMap_nil,
        List.append_nil]
      unfold runCalls
      have h1 : ¬ ((b : Int) ≤ (find_begin region b : Int) ∧ (find_begin region b : Int) < (b : Int)) := by
        omega
      have h2 : ¬ ((find_end region max b : Int) ≤ (b : Int)) := by omega
      have h3 : Min.min (b : Int) (find_end region max b : Int)
          - Max.max (b : Int) (find_begin region b : Int) = 0 := by omega
      simp only [if_neg h1, if_neg h2, h3, List.nil_append]
    · have hno : ¬ (find_begin region b < b ∨ (b : Int) < (b : Int)) := by omega
      rw [if_neg hno, if_neg (fun h => hin h.2)]
      rfl
  · have hbm : b = max := by omega
    rw [if_neg (fun h => hlt h.1)]
    rw [List.flatMap_eq_nil_iff]
    intro r hr
    exfalso
    rw [List.mem_filter] at hr
    obtain ⟨hr1, hr2⟩ := hr
    have hg := runsFrom_ge region max max 0 r hr1
    unfold touched at hr2
    rw [decide_eq_true_iff] at hr2
    omega

/-- C18, as stated, fails: in the scenario classifier (`max = 10`, tag `A` on `0 .. 3`), the
dispatch over the empty interval `[2, 2)`, which lies strictly inside the run of `A`,
makes one call, `advance(A, 0)`. -/
theorem C18_empty_interval_inside_run_advances :
    SubrangeDispatcher.dispatch regionAB 10 2 2 = some [Call.advance TagAB.A 0] ∧
    SubrangeDispatcher.dispatch regionAB 10 2 2 ≠ some [] := by
  have h := dispatch_eq regionAB 10 (by decide) 2 2 (by decide) (by decide) (by decide)
  have h' : SubrangeDispatcher.dispatch regionAB 10 2 2 = some [Call.advance TagAB.A 0] :=
    h.trans (by decide)
  refine ⟨h', ?_⟩
  rw [h']
  decide

/-- C18, amended: for `max < 2048` and `0 ≤ begin ≤ max`, the dispatch of
`SubrangeDispatcher` over the empty interval `[begin, begin)` returns; it makes no `begin`
call and no `end` call; when `begin` is not strictly inside a run (it is `max` or the
start of a run) it makes no call at all; and when `begin` lies strictly inside a run it
makes exactly one call, the `advance` of that run with length `0`. -/
theorem C18_empty_interval_calls (region : Nat → τ) (max : Nat) (begin_ : Int)
    (hmax : max < 2048) (h0 : 0 ≤ begin_) (h1 : begin_ ≤ (max : Int)) :
    ∃ trace : List (Call τ),
      SubrangeDispatcher.dispatch region max begin_ begin_ = some trace ∧
      beginCalls trace = [] ∧ endCalls trace = [] ∧
      ((¬ ∃ s e, IsRun region max s e ∧ (s : Int) < begin_ ∧ begin_ < (e : Int)) →
        trace = []) ∧
      (∀ s e, IsRun region max s e → (s : Int) < begin_ → begin_ < (e : Int) →
        trace = [Call.advance (region s) 0]) := by
  obtain ⟨b, rfl⟩ : ∃ b : Nat, begin_ = (b : Int) := ⟨begin_.toNat, by omega⟩
  refine ⟨_, dispatch_empty_eq region max hmax b (by omega), ?_, ?_, ?_, ?_⟩
  · by_cases h : b < max ∧ find_begin region b < b
    · rw [if_pos h]; rfl
    · rw [if_neg h]; rfl
  · by_cases h : b < max ∧ find_begin region b < b
    · rw [if_pos h]; rfl
    · rw [if_neg h]; rfl
  · intro hno
    rw [if_neg]
    rintro ⟨hlt, hin⟩
    exact hno ⟨_, _, isRun_find region max b hlt, by omega,
      by have := find_end_gt region max b hlt; omega⟩
  · intro s e hrun hs he
    have hfind := hrun.find_eq (show s ≤ b by omega) (show b < e by omega)
    have hmaxe := hrun.2.1
    rw [if_pos ⟨by omega, by rw [hfind.1]; omega⟩, hfind.1]

/-- C18, amended, at the scenario classifier: `max = 10`, the empty interval `[2, 2)`. -/
theorem C18_empty_interval_calls_witness :
    (10 : Nat) < 2048 ∧ (0 : Int) ≤ 2 ∧ (2 : Int) ≤ ((10 : Nat) : Int) ∧
    ∃ trace : List (Call TagAB),
      SubrangeDispatcher.dispatch regionAB 10 2 2 = some trace ∧
      beginCalls trace = [] ∧ endCalls trace = [] ∧
      ((¬ ∃ s e, IsRun regionAB 10 s e ∧ (s : Int) < 2 ∧ (2 : Int) < (e : Int)) →
        trace = []) ∧
      (∀ s e, IsRun regionAB 10 s e → (s : Int) < 2 → (2 : Int) < (e : Int) →
        trace = [Call.advance (regionAB s) 0]) :=
  ⟨by decide, by decide, by decide,
    C18_empty_interval_calls regionAB 10 2 (by decide) (by decide) (by decide)⟩

end EmptyInterval

end Reflection

namespace TMS

/-! ## The background of `draw_tms_character` -/

theorem shift_and_one (m j : Nat) : (m >>> j) &&& 1 = if m.testBit j = true then 1 else 0 := by
  rw [Nat.and_one_is_mod, Nat.testBit_to_div_mod, Nat.shiftRight_eq_div_pow]
  rcases Nat.mod_two_eq_zero_or_one (m / 2 ^ j) with h | h <;> simp [h]

theorem testBit_mod_two (x i : Nat) :
    (x % 2).testBit i = (decide (i < 1) && x.testBit i) := by
  have := Nat.testBit_mod_two_pow x 1 i
  simpa using this

theorem reverse_byte_reverses : ReversesBytes reverse_byte := by
  intro v _ j hj
  unfold reverse_byte
  interval_cases j <;>
    simp [Nat.testBit_or, Nat.testBit_shiftLeft, Nat.testBit_shiftRight, Nat.testBit_and,
      testBit_mod_two]

/-- The character pixel of a column in the terms of the pattern byte and the nibbles of the
colour byte. -/
theorem character_pixel_nibble (ext : Externals) (b : Base)
    (hrev : ReversesBytes ext.bit_reverse) (x : Nat) :
    character_pixel ext b x =
      b.palette
        (if (if (byte (b.line_buffer.patterns (x >>> 3) 0)).testBit (7 - (x &&& 7)) = true then
              byte (b.line_buffer.patterns (x >>> 3) 1) >>> 4
            else byte (b.line_buffer.patterns (x >>> 3) 1) &&& 15) = 0
          then b.background_colour_
          else (if (byte (b.line_buffer.patterns (x >>> 3) 0)).testBit (7 - (x &&& 7)) = true then
              byte (b.line_buffer.patterns (x >>> 3) 1) >>> 4
            else byte (b.line_buffer.patterns (x >>> 3) 1) &&& 15)) := by
  unfold character_pixel colours
  rw [shift_and_one, hrev _ (byte_lt _) _ (column_split x).2]
  by_cases hbit : (byte (b.line_buffer.patterns (x >>> 3) 0)).testBit (7 - (x &&& 7)) = true
  · simp only [if_pos hbit]
    rw [if_neg (by decide)]
    by_cases hn : byte (b.line_buffer.patterns (x >>> 3) 1) >>> 4 = 0
    · rw [if_neg (not_not.mpr hn), if_pos hn]
    · rw [if_pos hn, if_neg hn]
  · simp only [if_neg hbit]
    by_cases hn : byte (b.line_buffer.patterns (x >>> 3) 1) &&& 15 = 0
    · simp [hn]
    · simp [hn]

/-- The output row that `draw_tms_character(start, end)` leaves when no sprite is active:
the row of its background pass. -/
theorem draw_tms_character_no_sprites (ext : Externals) (b : Base) (start end_ : Nat)
    (g : Nat → Nat) (h : start ≤ end_) (hsp : b.line_buffer.active_sprites = []) :
    ∃ (b' : Base) (target : Int) (bg : Int → Nat),
      draw_tms_character ext b start end_ g = some b' ∧
      draw_tms_background ext b start end_ = some (target, bg) ∧
      b'.pixel_target_ = target ∧ b'.pixels = bg := by
  obtain ⟨b', target, bg, hb', hbg, -, -, -, -, -, -, ht, -, hp⟩ :=
    draw_tms_character_spec ext b start end_ g h
  refine ⟨b', target, bg, hb', hbg, ht, ?_⟩
  have hentry : sprites_on_entry b start = [] := by
    unfold sprites_on_entry clip_left
    rw [hsp]
    simp
  funext i
  rw [hp i, hentry]
  by_cases hi : 0 ≤ i
  · rw [if_pos hi]; rfl
  · rw [if_neg hi]

/-- C11: in `draw_tms_character` in a mode other than MultiColour, with no active sprite and
the write cursor at column `start`, for `start ≤ end` and every column `x` of `[start,
end)`: the call returns and the pixel it leaves at column `x` is `palette[k]`, where the
nibble is the high nibble of the colour byte `patterns[x >> 3][1]` if bit `7 - (x & 7)` of
the pattern byte `patterns[x >> 3][0]` is set and the low nibble otherwise, and `k` is
the nibble, or `background_colour_` when the nibble is `0`.  In the scenario (all pattern
bytes zero, background colour `2`) the call over `[0, 8)` leaves `palette[2]` at the
eight columns. -/
theorem C11_character_background_pixel :
    (∀ (ext : Externals) (b : Base) (start end_ : Nat) (g : Nat → Nat),
      ReversesBytes ext.bit_reverse →
      b.screen_mode_ ≠ ScreenMode.MultiColour →
      b.line_buffer.active_sprites = [] →
      b.pixel_target_ = (start : Int) →
      start ≤ end_ →
      ∃ b' : Base, draw_tms_character ext b start end_ g = some b' ∧
        ∀ x : Nat, start ≤ x → x < end_ →
          b'.pixels (x : Int) =
            b.palette
              (if (if (byte (b.line_buffer.patterns (x >>> 3) 0)).testBit (7 - (x &&& 7)) = true
                    then byte (b.line_buffer.patterns (x >>> 3) 1) >>> 4
                    else byte (b.line_buffer.patterns (x >>> 3) 1) &&& 15) = 0
                then b.background_colour_
                else (if (byte (b.line_buffer.patterns (x >>> 3) 0)).testBit (7 - (x &&& 7)) = true
                    then byte (b.line_buffer.patterns (x >>> 3) 1) >>> 4
                    else byte (b.line_buffer.patterns (x >>> 3) 1) &&& 15))) ∧
    (∃ b' : Base,
      draw_tms_character sampleExternals zeroPatternBase 0 8 (fun _ => 0) = some b' ∧
      ∀ x : Nat, x < 8 → b'.pixels (x : Int) = zeroPatternBase.palette 2) := by
  have hgen : ∀ (ext : Externals) (b : Base) (start end_ : Nat) (g : Nat → Nat),
      ReversesBytes ext.bit_reverse →
      b.screen_mode_ ≠ ScreenMode.MultiColour →
      b.line_buffer.active_sprites = [] →
      b.pixel_target_ = (start : Int) →
      start ≤ end_ →
      ∃ b' : Base, draw_tms_character ext b start end_ g = some b' ∧
        ∀ x : Nat, start ≤ x → x < end_ →
          b'.pixels (x : Int) = character_pixel ext b x := by
    intro ext b start end_ g _ hmode hsp hcur h
    obtain ⟨b', target, bg, hb', hbg, -, hpx⟩ :=
      draw_tms_character_no_sprites ext b start end_ g h hsp
    have hal : b.pixel_target_ =
        if b.screen_mode_ = ScreenMode.MultiColour then 0 else (start : Int) := by
      rw [if_neg hmode, hcur]
    rw [draw_tms_background_aligned ext b start end_ h hal] at hbg
    have hbg' : bg = _ := (congrArg Prod.snd (Option.some.inj hbg)).symm
    refine ⟨b', hb', ?_⟩
    intro x hx1 hx2
    rw [hpx, hbg']
    simp only
    rw [if_pos (by omega), Int.toNat_ofNat]
    unfold tms_background_pixel
    rw [if_neg hmode]
  constructor
  · intro ext b start end_ g hrev hmode hsp hcur h
    obtain ⟨b', hb', hpx⟩ := hgen ext b start end_ g hrev hmode hsp hcur h
    refine ⟨b', hb', ?_⟩
    intro x hx1 hx2
    rw [hpx x hx1 hx2, character_pixel_nibble ext b hrev x]
  · obtain ⟨b', hb', hpx⟩ := hgen sampleExternals zeroPatternBase 0 8 (fun _ => 0)
      reverse_byte_reverses (by decide) rfl rfl (by decide)
    refine ⟨b', hb', ?_⟩
    intro x hx
    rw [hpx x (Nat.zero_le _) hx, character_pixel_nibble sampleExternals zeroPatternBase
      reverse_byte_reverses x]
    simp [zeroPatternBase, byte]

/-- C11 at the scenario of the specification, column `3` of `[0, 8)`. -/
theorem C11_character_background_pixel_witness :
    ReversesBytes sampleExternals.bit_reverse ∧
    zeroPatternBase.screen_mode_ ≠ ScreenMode.MultiColour ∧
    zeroPatternBase.line_buffer.active_sprites = [] ∧
    zeroPatternBase.pixel_target_ = ((0 : Nat) : Int) ∧
    0 ≤ 8 ∧
    ∃ b' : Base, draw_tms_character sampleExternals zeroPatternBase 0 8 (fun _ => 0) = some b' ∧
      ∀ x : Nat, 0 ≤ x → x < 8 →
        b'.pixels (x : Int) =
          zeroPatternBase.palette
            (if (if (byte (zeroPatternBase.line_buffer.patterns (x >>> 3) 0)).testBit
                    (7 - (x &&& 7)) = true
                  then byte (zeroPatternBase.line_buffer.patterns (x >>> 3) 1) >>> 4
                  else byte (zeroPatternBase.line_buffer.patterns (x >>> 3) 1) &&& 15) = 0
              then zeroPatternBase.background_colour_
              else (if (byte (zeroPatternBase.line_buffer.patterns (x >>> 3) 0)).testBit
                    (7 - (x &&& 7)) = true
                  then byte (zeroPatternBase.line_buffer.patterns (x >>> 3) 1) >>> 4
                  else byte (zeroPatternBase.line_buffer.patterns (x >>> 3) 1) &&& 15)) :=
  ⟨reverse_byte_reverses, by decide, rfl, rfl, by decide,
    C11_character_background_pixel.1 sampleExternals zeroPatternBase 0 8 (fun _ => 0)
      reverse_byte_reverses (by decide) rfl rfl (by decide)⟩

end TMS

namespace TMS

/-! ## The MultiColour branch of `draw_tms_character` -/

/-- The row and cursor that `draw_tms_character(start, end)` leaves in MultiColour mode when
no sprite is active: the cursor is unchanged and the columns `c` of `[start, end)` are
written at `pixel_target_[c]` with `palette[nibble]`. -/
theorem draw_tms_character_multicolour (ext : Externals) (b : Base) (start end_ : Nat)
    (g : Nat → Nat) (h : start ≤ end_) (hsp : b.line_buffer.active_sprites = [])
    (hmode : b.screen_mode_ = ScreenMode.MultiColour) :
    ∃ b' : Base, draw_tms_character ext b start end_ g = some b' ∧
      b'.pixel_target_ = b.pixel_target_ ∧
      ∀ i : Int, b'.pixels i =
        if b.pixel_target_ + (start : Int) ≤ i ∧ i < b.pixel_target_ + (end_ : Int) then
          multicolour_pixel b (i - b.pixel_target_).toNat
        else b.pixels i := by
  obtain ⟨b', target, bg, hb', hbg, ht, hpx⟩ :=
    draw_tms_character_no_sprites ext b start end_ g h hsp
  rw [draw_tms_background_eq ext b start end_ h, if_pos hmode] at hbg
  have h1 : b.pixel_target_ = target := congrArg Prod.fst (Option.some.inj hbg)
  have h2 : _ = bg := congrArg Prod.snd (Option.some.inj hbg)
  refine ⟨b', hb', by rw [ht, h1], ?_⟩
  intro i
  rw [hpx, ← h2]

/-- C19: the MultiColour branch of `draw_tms_character` writes `palette[0]` for a background
pixel of colour index `0`, where the branch of the other modes writes
`palette[background_colour_]`: with all pattern bytes zero, background colour `2` and a
palette whose entries `0` and `2` differ, the call over `[0, 8)` leaves `palette[0]` at
each of the eight columns in MultiColour mode and `palette[2]` in Graphics mode. -/
theorem C19_multicolour_writes_palette_zero :
    (∃ b' : Base,
      draw_tms_character sampleExternals zeroPatternMultiColour 0 8 (fun _ => 0) = some b' ∧
      ∀ x : Nat, x < 8 →
        b'.pixels (x : Int) = zeroPatternMultiColour.palette 0 ∧
        b'.pixels (x : Int) ≠
          zeroPatternMultiColour.palette zeroPatternMultiColour.background_colour_) ∧
    (∃ b' : Base,
      draw_tms_character sampleExternals zeroPatternBase 0 8 (fun _ => 0) = some b' ∧
      ∀ x : Nat, x < 8 →
        b'.pixels (x : Int) = zeroPatternBase.palette zeroPatternBase.background_colour_) := by
  constructor
  · obtain ⟨b', hb', -, hpx⟩ :=
      draw_tms_character_multicolour sampleExternals zeroPatternMultiColour 0 8 (fun _ => 0)
        (by decide) rfl rfl
    refine ⟨b', hb', ?_⟩
    intro x hx
    have hcur : zeroPatternMultiColour.pixel_target_ = 0 := rfl
    have hin : zeroPatternMultiColour.pixel_target_ + ((0 : Nat) : Int) ≤ (x : Int) ∧
        (x : Int) < zeroPatternMultiColour.pixel_target_ + ((8 : Nat) : Int) := by
      rw [hcur]; omega
    rw [hpx, if_pos hin]
    have hval : multicolour_pixel zeroPatternMultiColour
        ((x : Int) - zeroPatternMultiColour.pixel_target_).toNat = 100 := by
      simp [multicolour_pixel, zeroPatternMultiColour, zeroPatternBase, byte]
    rw [hval]
    constructor
    · rfl
    · decide
  · obtain ⟨b', target, bg, hb', hbg, -, hpx⟩ :=
      draw_tms_character_no_sprites sampleExternals zeroPatternBase 0 8 (fun _ => 0)
        (by decide) rfl
    rw [draw_tms_background_aligned sampleExternals zeroPatternBase 0 8 (by decide) rfl] at hbg
    have h2 : _ = bg := congrArg Prod.snd (Option.some.inj hbg)
    refine ⟨b', hb', ?_⟩
    intro x hx
    have hin : ((0 : Nat) : Int) ≤ (x : Int) ∧ (x : Int) < ((8 : Nat) : Int) := by omega
    rw [hpx, ← h2]
    simp only
    rw [if_pos hin, Int.toNat_ofNat]
    unfold tms_background_pixel
    rw [if_neg (by decide), character_pixel_nibble sampleExternals zeroPatternBase
      reverse_byte_reverses x]
    simp [zeroPatternBase, byte]

/-- C20, as stated, fails in MultiColour mode: the call over `[0, 8)` returns with the write
cursor where it was, not advanced by `8`. -/
theorem C20_multicolour_cursor_not_advanced :
    ∃ b' : Base,
      draw_tms_character sampleExternals zeroPatternMultiColour 0 8 (fun _ => 0) = some b' ∧
      b'.pixel_target_ = zeroPatternMultiColour.pixel_target_ ∧
      b'.pixel_target_ ≠ zeroPatternMultiColour.pixel_target_ + ((8 : Int) - 0) := by
  obtain ⟨b', hb', hcur, -⟩ :=
    draw_tms_character_multicolour sampleExternals zeroPatternMultiColour 0 8 (fun _ => 0)
      (by decide) rfl rfl
  refine ⟨b', hb', hcur, ?_⟩
  rw [hcur]
  decide

/-- C20, amended: for `start ≤ end`, `draw_tms_character(start, end)` returns, leaving the
cursor and the row of its background pass under the sprites (the row itself when no sprite
is active).  In a mode other than MultiColour the cursor is advanced by `end - start` and
the background pixels of the columns `[start, end)` are written at the `end - start`
places from the entry cursor on, which are the columns `[start, end)` when the cursor
enters at column `start`.  In MultiColour mode the cursor is left unchanged and the
background pixel of column `c` is written at `pixel_target_[c]`, which is column `c` when
the cursor is at the row origin. -/
theorem C20_character_cursor (ext : Externals) (b : Base) (start end_ : Nat)
    (g : Nat → Nat) (h : start ≤ end_) :
    ∃ (b' : Base) (bg : Int → Nat),
      draw_tms_character ext b start end_ g = some b' ∧
      draw_tms_background ext b start end_ = some (b'.pixel_target_, bg) ∧
      (b.line_buffer.active_sprites = [] → b'.pixels = bg) ∧
      (b.screen_mode_ ≠ ScreenMode.MultiColour →
        b'.pixel_target_ = b.pixel_target_ + ((end_ : Int) - (start : Int)) ∧
        (∀ i : Int, bg i =
          if b.pixel_target_ ≤ i ∧ i < b.pixel_target_ + ((end_ : Int) - (start : Int)) then
            character_pixel ext b (start + (i - b.pixel_target_).toNat)
          else b.pixels i) ∧
        (b.pixel_target_ = (start : Int) →
          ∀ x : Nat, start ≤ x → x < end_ → bg (x : Int) = character_pixel ext b x)) ∧
      (b.screen_mode_ = ScreenMode.MultiColour →
        b'.pixel_target_ = b.pixel_target_ ∧
        (∀ i : Int, bg i =
          if b.pixel_target_ + (start : Int) ≤ i ∧ i < b.pixel_target_ + (end_ : Int) then
            multicolour_pixel b (i - b.pixel_target_).toNat
          else b.pixels i) ∧
        (b.pixel_target_ = 0 →
          ∀ x : Nat, start ≤ x → x < end_ → bg (x : Int) = multicolour_pixel b x)) := by
  obtain ⟨b', target, bg, hb', hbg, -, -, -, -, -, -, ht, -, hp⟩ :=
    draw_tms_character_spec ext b start end_ g h
  have hbg0 := hbg
  rw [draw_tms_background_eq ext b start end_ h] at hbg
  refine ⟨b', bg, hb', by rw [ht]; exact hbg0, ?_, ?_, ?_⟩
  · intro hsp
    have hentry : sprites_on_entry b start = [] := by
      unfold sprites_on_entry clip_left
      rw [hsp]
      simp
    funext i
    rw [hp i, hentry]
    by_cases hi : 0 ≤ i
    · rw [if_pos hi]; rfl
    · rw [if_neg hi]
  · intro hmode
    rw [if_neg hmode] at hbg
    have h1 : _ = target := congrArg Prod.fst (Option.some.inj hbg)
    have h2 : _ = bg := congrArg Prod.snd (Option.some.inj hbg)
    refine ⟨by rw [ht, ← h1], ?_, ?_⟩
    · intro i
      rw [← h2]
    · intro hcur x hx1 hx2
      rw [← h2]
      simp only
      have hin : b.pixel_target_ ≤ (x : Int) ∧
          (x : Int) < b.pixel_target_ + ((end_ : Int) - (start : Int)) := by
        rw [hcur]; omega
      rw [if_pos hin]
      have : start + ((x : Int) - b.pixel_target_).toNat = x := by
        rw [hcur]; omega
      rw [this]
  · intro hmode
    rw [if_pos hmode] at hbg
    have h1 : _ = target := congrArg Prod.fst (Option.some.inj hbg)
    have h2 : _ = bg := congrArg Prod.snd (Option.some.inj hbg)
    refine ⟨by rw [ht, ← h1], ?_, ?_⟩
    · intro i
      rw [← h2]
    · intro hcur x hx1 hx2
      rw [← h2]
      simp only
      have hin : b.pixel_target_ + (start : Int) ≤ (x : Int) ∧
          (x : Int) < b.pixel_target_ + (end_ : Int) := by
        rw [hcur]; omega
      rw [if_pos hin]
      have : ((x : Int) - b.pixel_target_).toNat = x := by
        rw [hcur]; omega
      rw [this]

/-- C20, amended, at the MultiColour call over `[0, 8)` of the zero-pattern state. -/
theorem C20_character_cursor_witness :
    0 ≤ 8 ∧
    ∃ (b' : Base) (bg : Int → Nat),
      draw_tms_character sampleExternals zeroPatternMultiColour 0 8 (fun _ => 0) = some b' ∧
      draw_tms_background sampleExternals zeroPatternMultiColour 0 8 =
        some (b'.pixel_target_, bg) ∧
      (zeroPatternMultiColour.line_buffer.active_sprites = [] → b'.pixels = bg) ∧
      (zeroPatternMultiColour.screen_mode_ ≠ ScreenMode.MultiColour →
        b'.pixel_target_ = zeroPatternMultiColour.pixel_target_ + (((8 : Nat) : Int) - ((0 : Nat) : Int)) ∧
        (∀ i : Int, bg i =
          if zeroPatternMultiColour.pixel_target_ ≤ i ∧
              i < zeroPatternMultiColour.pixel_target_ + (((8 : Nat) : Int) - ((0 : Nat) : Int)) then
            character_pixel sampleExternals zeroPatternMultiColour
              (0 + (i - zeroPatternMultiColour.pixel_target_).toNat)
          else zeroPatternMultiColour.pixels i) ∧
        (zeroPatternMultiColour.pixel_target_ = ((0 : Nat) : Int) →
          ∀ x : Nat, 0 ≤ x → x < 8 →
            bg (x : Int) = character_pixel sampleExternals zeroPatternMultiColour x)) ∧
      (zeroPatternMultiColour.screen_mode_ = ScreenMode.MultiColour →
        b'.pixel_target_ = zeroPatternMultiColour.pixel_target_ ∧
        (∀ i : Int, bg i =
          if zeroPatternMultiColour.pixel_target_ + ((0 : Nat) : Int) ≤ i ∧
              i < zeroPatternMultiColour.pixel_target_ + ((8 : Nat) : Int) then
            multicolour_pixel zeroPatternMultiColour
              (i - zeroPatternMultiColour.pixel_target_).toNat
          else zeroPatternMultiColour.pixels i) ∧
        (zeroPatternMultiColour.pixel_target_ = 0 →
          ∀ x : Nat, 0 ≤ x → x < 8 → bg (x : Int) = multicolour_pixel zeroPatternMultiColour x)) :=
  ⟨by decide, C20_character_cursor sampleExternals zeroPatternMultiColour 0 8 (fun _ => 0)
    (by decide)⟩

end TMS

namespace TMS

/-! ## Sprite priority in `draw_tms_character` -/

theorem and_mask32 (x : Nat) (h : x < 2 ^ 32) : x &&& 0xffffffff = x := by
  have := Nat.and_pow_two_sub_one_eq_mod x 32
  rw [Nat.mod_eq_of_lt h] at this
  exact this

/-- The pixel that the sprite loop stores: the sprite's palette entry where the sprite has
a set pattern bit and a non-zero colour index, the pixel it found otherwise. -/
theorem tms_sprite_pixel_eq (b : Base) (sprite : ActiveSprite) (pixel : Nat)
    (hpixel : pixel < 2 ^ 32) (hpal : b.palette (byte (sprite.image 2) &&& 15) < 2 ^ 32) :
    tms_sprite_pixel b sprite pixel =
      if tms_sprite_bit sprite = 1 ∧ byte (sprite.image 2) &&& 15 ≠ 0 then
        b.palette (byte (sprite.image 2) &&& 15)
      else pixel := by
  unfold tms_sprite_pixel
  have hbit := tms_sprite_bit_le sprite
  by_cases hcol : byte (sprite.image 2) &&& 15 = 0
  · have hm : colour_masks (byte (sprite.image 2) &&& 15) = 0 := by
      unfold colour_masks; rw [if_pos hcol]
    have hc : ¬ (tms_sprite_bit sprite = 1 ∧ byte (sprite.image 2) &&& 15 ≠ 0) :=
      fun hh => hh.2 hcol
    rw [if_neg hc]
    simp only [hm, Nat.and_zero]
    have e1 : sprite_colour_selection_masks (0 ^^^ 1) = 0xffffffff := by decide
    have e2 : sprite_colour_selection_masks 0 = 0 := by decide
    rw [e1, e2, Nat.and_zero, Nat.or_zero, and_mask32 pixel hpixel]
  · have hm : colour_masks (byte (sprite.image 2) &&& 15) = 1 := by
      unfold colour_masks; rw [if_neg hcol]
    simp only [hm]
    rcases Nat.le_one_iff_eq_zero_or_eq_one.mp hbit with h0 | h1
    · have hc : ¬ (tms_sprite_bit sprite = 1 ∧ byte (sprite.image 2) &&& 15 ≠ 0) := by
        rw [h0]; intro hh; exact absurd hh.1 (by decide)
      rw [if_neg hc, h0]
      have e1 : sprite_colour_selection_masks ((0 &&& 1) ^^^ 1) = 0xffffffff := by decide
      have e2 : sprite_colour_selection_masks (0 &&& 1) = 0 := by decide
      rw [e1, e2, Nat.and_zero, Nat.or_zero, and_mask32 pixel hpixel]
    · have hc : tms_sprite_bit sprite = 1 ∧ byte (sprite.image 2) &&& 15 ≠ 0 := ⟨h1, hcol⟩
      rw [if_pos hc, h1]
      have e1 : sprite_colour_selection_masks ((1 &&& 1) ^^^ 1) = 0 := by decide
      have e2 : sprite_colour_selection_masks (1 &&& 1) = 0xffffffff := by decide
      rw [e1, e2, Nat.and_zero, Nat.zero_or, and_mask32 _ hpal]

theorem tms_sprite_pixel_lt (b : Base) (sprite : ActiveSprite) (pixel : Nat)
    (hpixel : pixel < 2 ^ 32) (hpal : b.palette (byte (sprite.image 2) &&& 15) < 2 ^ 32) :
    tms_sprite_pixel b sprite pixel < 2 ^ 32 := by
  rw [tms_sprite_pixel_eq b sprite pixel hpixel hpal]
  split
  · exact hpal
  · exact hpixel

theorem and_fifteen_lt (x : Nat) : x &&& 15 < 16 := by
  have := Nat.and_pow_two_sub_one_eq_mod x 4
  have h2 : x &&& 15 = x % 16 := this
  rw [h2]
  exact Nat.mod_lt _ (by decide)

theorem sprites_over_lt (b : Base) (adv target start end_ c : Nat)
    (hpal : ∀ i, i < 16 → b.palette i < 2 ^ 32) (v : Nat) (hv : v < 2 ^ 32) :
    ∀ l : List ActiveSprite,
      sprites_over adv target start end_ (tms_sprite_pixel b) c l v < 2 ^ 32 := by
  intro l
  induction l with
  | nil => exact hv
  | cons s rest ih =>
    unfold sprites_over
    split
    · exact tms_sprite_pixel_lt b _ _ ih (hpal _ (and_fifteen_lt _))
    · exact ih

/-- A sprite that does not show a pixel at column `c` leaves the pixel of the sprites after
it. -/
theorem sprites_over_cons_hidden (b : Base) (start end_ c : Nat)
    (hpal : ∀ i, i < 16 → b.palette i < 2 ^ 32) (v : Nat) (hv : v < 2 ^ 32)
    (s : ActiveSprite) (rest : List ActiveSprite) (hs : ¬ tms_shows b start end_ s c) :
    sprites_over (shift_advance b) (shifter_target b) start end_ (tms_sprite_pixel b) c
        (s :: rest) v =
      sprites_over (shift_advance b) (shifter_target b) start end_ (tms_sprite_pixel b) c
        rest v := by
  show (if covers (shift_advance b) (shifter_target b) start end_ s c then _ else _) = _
  by_cases hc : covers (shift_advance b) (shifter_target b) start end_ s c
  · rw [if_pos hc, tms_sprite_pixel_eq b _ _
      (sprites_over_lt b _ _ start end_ c hpal v hv rest) (hpal _ (and_fifteen_lt _))]
    have hn : ¬ (tms_sprite_bit (sprite_at (shift_advance b) s (c - pixel_start start s)) = 1 ∧
        byte ((sprite_at (shift_advance b) s (c - pixel_start start s)).image 2) &&& 15 ≠ 0) := by
      intro hh
      exact hs ⟨⟨hc, hh.1⟩, hh.2⟩
    rw [if_neg hn]
  · rw [if_neg hc]

/-- A sprite that shows a pixel at column `c` sets the pixel to its palette entry. -/
theorem sprites_over_cons_shown (b : Base) (start end_ c : Nat)
    (hpal : ∀ i, i < 16 → b.palette i < 2 ^ 32) (v : Nat) (hv : v < 2 ^ 32)
    (s : ActiveSprite) (rest : List ActiveSprite) (hs : tms_shows b start end_ s c) :
    sprites_over (shift_advance b) (shifter_target b) start end_ (tms_sprite_pixel b) c
        (s :: rest) v = b.palette (byte (s.image 2) &&& 15) := by
  show (if covers (shift_advance b) (shifter_target b) start end_ s c then _ else _) = _
  rw [if_pos hs.1.1, tms_sprite_pixel_eq b _ _
    (sprites_over_lt b _ _ start end_ c hpal v hv rest) (hpal _ (and_fifteen_lt _))]
  have hy : tms_sprite_bit (sprite_at (shift_advance b) s (c - pixel_start start s)) = 1 ∧
      byte ((sprite_at (shift_advance b) s (c - pixel_start start s)).image 2) &&& 15 ≠ 0 :=
    ⟨hs.1.2, hs.2⟩
  rw [if_pos hy]
  rfl

/-- The pixel under a list of sprites is the palette entry of the first sprite of the list
that shows a pixel. -/
theorem sprites_over_lowest (b : Base) (start end_ c : Nat)
    (hpal : ∀ i, i < 16 → b.palette i < 2 ^ 32) (v : Nat) (hv : v < 2 ^ 32) :
    ∀ (l : List ActiveSprite) (k : Nat) (s : ActiveSprite), l[k]? = some s →
      tms_shows b start end_ s c →
      (∀ (j : Nat) (t : ActiveSprite), j < k → l[j]? = some t → ¬ tms_shows b start end_ t c) →
      sprites_over (shift_advance b) (shifter_target b) start end_ (tms_sprite_pixel b) c l v =
        b.palette (byte (s.image 2) &&& 15) := by
  intro l
  induction l with
  | nil => intro k s hk; simp at hk
  | cons a rest ih =>
    intro k s hk hs hlow
    cases k with
    | zero =>
      have ha : a = s := by simpa using hk
      rw [ha]
      exact sprites_over_cons_shown b start end_ c hpal v hv s rest hs
    | succ k =>
      have ha : ¬ tms_shows b start end_ a c := hlow 0 a (Nat.succ_pos _) (by simp)
      rw [sprites_over_cons_hidden b start end_ c hpal v hv a rest ha]
      refine ih k s (by simpa using hk) hs ?_
      intro j t hj ht
      exact hlow (j + 1) t (Nat.succ_lt_succ hj) (by simpa using ht)

/-- No sprite of the list shows a pixel at column `c`: the pixel is kept. -/
theorem sprites_over_none (b : Base) (start end_ c : Nat)
    (hpal : ∀ i, i < 16 → b.palette i < 2 ^ 32) (v : Nat) (hv : v < 2 ^ 32) :
    ∀ l : List ActiveSprite, (∀ s ∈ l, ¬ tms_shows b start end_ s c) →
      sprites_over (shift_advance b) (shifter_target b) start end_ (tms_sprite_pixel b) c l v =
        v := by
  intro l
  induction l with
  | nil => intro _; rfl
  | cons a rest ih =>
    intro hl
    rw [sprites_over_cons_hidden b start end_ c hpal v hv a rest
      (hl a (List.mem_cons_self _ _))]
    exact ih (fun s hs => hl s (List.mem_cons_of_mem _ hs))

/-- The row of the background pass holds 32-bit values when the row it started from and the
palette do. -/
theorem draw_tms_background_lt (ext : Externals) (b : Base) (start end_ : Nat)
    (h : start ≤ end_) (hpal : ∀ i, i < 16 → b.palette i < 2 ^ 32)
    (hbgc : b.background_colour_ < 16) (hpix : ∀ i, b.pixels i < 2 ^ 32)
    (target : Int) (bg : Int → Nat)
    (hbg : draw_tms_background ext b start end_ = some (target, bg)) (i : Int) :
    bg i < 2 ^ 32 := by
  rw [draw_tms_background_eq ext b start end_ h] at hbg
  by_cases hmode : b.screen_mode_ = ScreenMode.MultiColour
  · rw [if_pos hmode] at hbg
    have h2 : _ = bg := congrArg Prod.snd (Option.some.inj hbg)
    rw [← h2]
    simp only
    split
    · exact hpal _ (and_fifteen_lt _)
    · exact hpix i
  · rw [if_neg hmode] at hbg
    have h2 : _ = bg := congrArg Prod.snd (Option.some.inj hbg)
    rw [← h2]
    simp only
    split
    · unfold character_pixel colours
      split
      · split
        · exact hpal _ (and_fifteen_lt _)
        · exact hpal _ hbgc
      · split
        · have : byte (b.line_buffer.patterns ((start + (i - b.pixel_target_).toNat) >>> 3) 1)
              >>> 4 < 16 := by
            have := byte_lt (b.line_buffer.patterns ((start + (i - b.pixel_target_).toNat) >>> 3) 1)
            rw [Nat.shiftRight_eq_div_pow]
            omega
          exact hpal _ this
        · exact hpal _ hbgc
    · exact hpix i

/-- In `draw_tms_character(start, end)`, for `start ≤ end`, a palette and a row of 32-bit
values and a 4-bit background colour: the call returns, and at every column `c` of
`[start, end)`, (1) if the active sprite of slot `k` has a bit decoded as set by
`tms_sprite_bit` at `c` with a non-zero colour index and no sprite of a lower slot does,
the pixel left at `c` is `palette[image[2] & 15]` of sprite `k`; (2) if no active sprite
does, the pixel left is the one of the background pass. -/
theorem tms_lowest_slot_decoded (ext : Externals) (b : Base) (start end_ : Nat)
    (g : Nat → Nat) (h : start ≤ end_) (hpal : ∀ i, i < 16 → b.palette i < 2 ^ 32)
    (hbgc : b.background_colour_ < 16) (hpix : ∀ i, b.pixels i < 2 ^ 32) :
    ∃ (b' : Base) (target : Int) (bg : Int → Nat),
      draw_tms_character ext b start end_ g = some b' ∧
      draw_tms_background ext b start end_ = some (target, bg) ∧
      ∀ c : Nat, start ≤ c → c < end_ →
        (∀ (k : Nat) (s : ActiveSprite), (sprites_on_entry b start)[k]? = some s →
          tms_shows b start end_ s c →
          (∀ (j : Nat) (t : ActiveSprite), j < k → (sprites_on_entry b start)[j]? = some t →
            ¬ tms_shows b start end_ t c) →
          b'.pixels (c : Int) = b.palette (byte (s.image 2) &&& 15)) ∧
        ((∀ s ∈ sprites_on_entry b start, ¬ tms_shows b start end_ s c) →
          b'.pixels (c : Int) = bg (c : Int)) := by
  obtain ⟨b', target, bg, hb', hbg, -, -, -, -, -, -, -, -, hp⟩ :=
    draw_tms_character_spec ext b start end_ g h
  refine ⟨b', target, bg, hb', hbg, ?_⟩
  intro c _ _
  have hv : bg (c : Int) < 2 ^ 32 :=
    draw_tms_background_lt ext b start end_ h hpal hbgc hpix target bg hbg _
  have hpc := hp (c : Int)
  rw [if_pos (by omega), Int.toNat_ofNat] at hpc
  constructor
  · intro k s hk hs hlow
    rw [hpc]
    exact sprites_over_lowest b start end_ c hpal _ hv _ k s hk hs hlow
  · intro hnone
    rw [hpc]
    exact sprites_over_none b start end_ c hpal _ hv _ hnone

end TMS

namespace TMS

/-! ## The merge of sprites and tiles in `draw_sms` -/

/-- The border and tile passes of `draw_sms` return for every `start ≤ end`. -/
theorem draw_sms_tiles_returns (b : Base) (start end_ : Nat) (cb : Nat → Nat)
    (h : start ≤ end_) :
    ∃ tiles : Nat → Nat, draw_sms_tiles b start end_ cb = some tiles ∧
      ∀ c, start ≤ c → c < end_ → tiles c = sms_background b c := by
  rcases Nat.lt_or_ge start end_ with hlt | hge
  · exact draw_sms_tiles_spec b start end_ cb hlt
  · have he : end_ = start := by omega
    subst he
    unfold draw_sms_tiles
    simp only
    generalize b.line_buffer.latched_horizontal_scroll &&& 7 = fine
    by_cases hs : (decide (b.row ≥ 16) || !b.horizontal_scroll_lock_) = true
    · simp only [hs, if_true]
      by_cases ht : end_ - fine < end_
      · have hts := column_split (end_ - fine)
        rw [if_pos ht, tile_loop_eq b _ _ ((end_ - fine) &&& 7) hts.2
          (by simp only; omega) (by simp only; omega) (by simp only) (by simp only; rfl)]
        exact ⟨_, rfl, fun c h1 h2 => absurd h2 (by omega)⟩
      · rw [if_neg ht]
        exact ⟨_, rfl, fun c h1 h2 => absurd h2 (by omega)⟩
    · simp only [hs, Bool.false_eq_true, if_false]
      rw [if_neg (by omega)]
      exact ⟨_, rfl, fun c h1 h2 => absurd h2 (by omega)⟩

theorem sms_sprite_colour_lt (sprite : ActiveSprite) : sms_sprite_colour sprite < 16 := by
  unfold sms_sprite_colour
  simp only
  have h3 := @Nat.and_le_right (byte (sprite.image 3) <<< (sprite.shift_position >>> 1)) 0x80
  have h2 := @Nat.and_le_right (byte (sprite.image 2) <<< (sprite.shift_position >>> 1)) 0x80
  have h1 := @Nat.and_le_right (byte (sprite.image 1) <<< (sprite.shift_position >>> 1)) 0x80
  have h0 := @Nat.and_le_right (byte (sprite.image 0) <<< (sprite.shift_position >>> 1)) 0x80
  have e : (16 : Nat) = 2 ^ 4 := rfl
  rw [e]
  refine Nat.or_lt_two_pow (Nat.or_lt_two_pow (Nat.or_lt_two_pow ?_ ?_) ?_) ?_ <;>
    rw [Nat.shiftRight_eq_div_pow] <;> omega

/-- An entry of the sprite buffer is `0` or `colour | 0x10` for a non-zero 4-bit sprite
colour. -/
theorem sms_sprites_over_form (adv target start end_ c : Nat) :
    ∀ l : List ActiveSprite,
      sprites_over adv target start end_ sms_sprite_over c l 0 = 0 ∨
      ∃ colour, 0 < colour ∧ colour < 16 ∧
        sprites_over adv target start end_ sms_sprite_over c l 0 = colour ||| 0x10 := by
  intro l
  induction l with
  | nil => exact Or.inl rfl
  | cons s rest ih =>
    show (if covers adv target start end_ s c then _ else _) = 0 ∨
      ∃ colour, 0 < colour ∧ colour < 16 ∧ (if covers adv target start end_ s c then _ else _) = _
    by_cases hc : covers adv target start end_ s c
    · rw [if_pos hc]
      unfold sms_sprite_over
      by_cases hz : sms_sprite_colour (sprite_at adv s (c - pixel_start start s)) ≠ 0
      · rw [if_pos hz]
        exact Or.inr ⟨_, Nat.pos_of_ne_zero hz, sms_sprite_colour_lt _, rfl⟩
      · rw [if_neg hz]
        exact ih
    · rw [if_neg hc]
      exact ih

theorem sms_sprite_buffer_eq (b : Base) (start end_ : Nat) (sb : Nat → Nat) (c : Nat)
    (hc1 : start ≤ c) (hc2 : c < end_) :
    sms_sprite_buffer b start end_ sb c =
      sprites_over (shift_advance b) 16 start end_ sms_sprite_over c (sprites_on_entry b start)
        0 := by
  have := draw_sprites_obs (shift_advance b) 16 start end_ sms_sprite_body
    (fun a c => a.sprite_buffer c) sms_sprite_over sms_sprite_body_buffer
    (sprites_on_entry b start)
    { sprite_buffer := memset_zero sb start end_, sprite_collision := 0 } c
  have hz : ({ sprite_buffer := memset_zero sb start end_, sprite_collision := 0 } :
      SmsSpriteState).sprite_buffer c = 0 := by
    show memset_zero sb start end_ c = 0
    simp [memset_zero, hc1, hc2]
  rw [hz] at this
  exact this

theorem and_thirty_two_of_lt (v : Nat) (h : v < 32) : v &&& 0x20 = 0 := by
  interval_cases v <;> rfl

theorem or_sixteen_lt (v : Nat) (h : v < 16) : v ||| 0x10 < 32 := by
  have e : (32 : Nat) = 2 ^ 5 := rfl
  rw [e]
  exact Nat.or_lt_two_pow (by omega) (by decide)

/-- C12: in `draw_sms(start, end, cram_dot)` on a Sega VDP, at every column `c` of `[start,
end)` at which the sprite loop left a non-zero entry in the sprite buffer: the call
returns; the entry is `colour | 0x10` for a non-zero 4-bit sprite colour; the entry of
the colour buffer after the merge is that sprite entry if and only if the entry `tiles
c` that the tile pass left has bit `0x20` (tile priority) clear or its low four bits
zero; otherwise it is `tiles c`; and the merged colour buffer is what the call maps to
the output row. -/
theorem C12_sms_sprite_over_background (ext : Externals) (b : Base) (start end_ : Nat)
    (dot : Nat) (cb sb : Nat → Nat) (hsega : ext.is_sega_vdp = true) (c : Nat)
    (hc1 : start ≤ c) (hc2 : c < end_)
    (hsprite : sms_sprite_buffer b start end_ sb c ≠ 0) :
    ∃ (tiles : Nat → Nat) (b' : Base),
      draw_sms_tiles b start end_ cb = some tiles ∧
      draw_sms ext b start end_ dot cb sb = some b' ∧
      b'.pixels =
        draw_sms_output b start end_ dot (draw_sms_sprites ext b start end_ tiles sb).2.1 ∧
      (∃ colour, 0 < colour ∧ colour < 16 ∧
        sms_sprite_buffer b start end_ sb c = colour ||| 0x10) ∧
      ((draw_sms_sprites ext b start end_ tiles sb).2.1 c = sms_sprite_buffer b start end_ sb c ↔
        (tiles c &&& 0x20 = 0 ∨ tiles c &&& 0xf = 0)) ∧
      (¬ (tiles c &&& 0x20 = 0 ∨ tiles c &&& 0xf = 0) →
        (draw_sms_sprites ext b start end_ tiles sb).2.1 c = tiles c) := by
  obtain ⟨tiles, htiles, -⟩ := draw_sms_tiles_returns b start end_ cb (by omega)
  have hform : ∃ colour, 0 < colour ∧ colour < 16 ∧
      sms_sprite_buffer b start end_ sb c = colour ||| 0x10 := by
    rcases sms_sprites_over_form (shift_advance b) 16 start end_ c (sprites_on_entry b start)
      with h0 | hcol
    · exact absurd ((sms_sprite_buffer_eq b start end_ sb c hc1 hc2).trans h0) hsprite
    · obtain ⟨colour, h1, h2, h3⟩ := hcol
      exact ⟨colour, h1, h2, (sms_sprite_buffer_eq b start end_ sb c hc1 hc2).trans h3⟩
  have hlen : b.line_buffer.active_sprites.length ≠ 0 := by
    intro hl
    have hnil : b.line_buffer.active_sprites = [] := List.length_eq_zero.mp hl
    apply hsprite
    rw [sms_sprite_buffer_eq b start end_ sb c hc1 hc2]
    unfold sprites_on_entry clip_left
    rw [hnil]
    simp [sprites_over]
  have hmerge : (draw_sms_sprites ext b start end_ tiles sb).2.1 c =
      sms_merged (sms_sprite_buffer b start end_ sb c) (tiles c) := by
    unfold draw_sms_sprites
    rw [if_pos hlen]
    show for_loop (sms_merge (sms_sprite_buffer b start end_ sb)) (end_ - start) start tiles c = _
    rw [merge_loop, if_pos (by omega)]
  refine ⟨tiles, ?_⟩
  unfold draw_sms
  rw [if_pos hsega, htiles]
  refine ⟨_, rfl, rfl, rfl, hform, ?_, ?_⟩
  · rw [hmerge]
    unfold sms_merged
    constructor
    · intro heq
      by_contra hcond
      rw [if_neg (fun hh => hcond hh.2)] at heq
      obtain ⟨colour, _, h2, h3⟩ := hform
      have hlt : sms_sprite_buffer b start end_ sb c < 32 := by
        rw [h3]; exact or_sixteen_lt colour h2
      have hz := and_thirty_two_of_lt _ hlt
      rw [← heq] at hz
      exact hcond (Or.inl hz)
    · intro hcond
      rw [if_pos ⟨hsprite, hcond⟩]
  · intro hcond
    rw [hmerge]
    unfold sms_merged
    rw [if_neg (fun hh => hcond hh.2)]

theorem sample_sprite_buffer : sms_sprite_buffer sampleBase 0 16 (fun _ => 0) 2 ≠ 0 := by
  rw [sms_sprite_buffer_eq sampleBase 0 16 (fun _ => 0) 2 (by decide) (by decide)]
  decide

/-- C12 at column `2` of the call over `[0, 16)` of the sample state. -/
theorem C12_sms_sprite_over_background_witness :
    sampleExternals.is_sega_vdp = true ∧ 0 ≤ 2 ∧ 2 < 16 ∧
    sms_sprite_buffer sampleBase 0 16 (fun _ => 0) 2 ≠ 0 ∧
    ∃ (tiles : Nat → Nat) (b' : Base),
      draw_sms_tiles sampleBase 0 16 (fun _ => 0) = some tiles ∧
      draw_sms sampleExternals sampleBase 0 16 0 (fun _ => 0) (fun _ => 0) = some b' ∧
      b'.pixels =
        draw_sms_output sampleBase 0 16 0
          (draw_sms_sprites sampleExternals sampleBase 0 16 tiles (fun _ => 0)).2.1 ∧
      (∃ colour, 0 < colour ∧ colour < 16 ∧
        sms_sprite_buffer sampleBase 0 16 (fun _ => 0) 2 = colour ||| 0x10) ∧
      ((draw_sms_sprites sampleExternals sampleBase 0 16 tiles (fun _ => 0)).2.1 2 =
          sms_sprite_buffer sampleBase 0 16 (fun _ => 0) 2 ↔
        (tiles 2 &&& 0x20 = 0 ∨ tiles 2 &&& 0xf = 0)) ∧
      (¬ (tiles 2 &&& 0x20 = 0 ∨ tiles 2 &&& 0xf = 0) →
        (draw_sms_sprites sampleExternals sampleBase 0 16 tiles (fun _ => 0)).2.1 2 = tiles 2) :=
  ⟨rfl, by decide, by decide, sample_sprite_buffer,
    C12_sms_sprite_over_background sampleExternals sampleBase 0 16 0 (fun _ => 0) (fun _ => 0)
      rfl 2 (by decide) (by decide) sample_sprite_buffer⟩

end TMS

namespace TMS

/-! ## The output mapping of `draw_sms` -/

/-- For `start < end`, `draw_sms(start, end, cram_dot)` on a Sega VDP returns and
leaves the cursor where it was; every place of the row other than
`pixel_target_[start .. end - 1]` (the columns `[start, end)` when the cursor is at the
row origin) and, when `end` is `256` and the left column is hidden, other than the
columns `0 .. 7`, keeps its pixel; and each of the `end - start` places
`pixel_target_[c]`, `start ≤ c < end`, holds a pixel that the call computed: the hidden
left-column colour, or the colour-RAM entry of the column's colour index, the first of
them combined with `cram_dot`. -/
theorem draw_sms_frame (ext : Externals) (b : Base) (start end_ : Nat) (dot : Nat)
    (cb sb : Nat → Nat) (hsega : ext.is_sega_vdp = true) (h : start < end_) :
    ∃ b' : Base, draw_sms ext b start end_ dot cb sb = some b' ∧
      b'.pixel_target_ = b.pixel_target_ ∧
      (∀ i : Int,
        ¬ (b.pixel_target_ + (start : Int) ≤ i ∧ i < b.pixel_target_ + (end_ : Int)) →
        ¬ ((end_ = 256 ∧ b.hide_left_column_ = true) ∧ 0 ≤ i ∧ i < 8) →
        b'.pixels i = b.pixels i) ∧
      (∀ c : Nat, start ≤ c → c < end_ →
        b'.pixels (b.pixel_target_ + (c : Int)) =
          if (end_ = 256 ∧ b.hide_left_column_ = true) ∧
              0 ≤ b.pixel_target_ + (c : Int) ∧ b.pixel_target_ + (c : Int) < 8 then
            b.colour_ram_ (16 + b.background_colour_)
          else if c = start then b.colour_ram_ (sms_colour b start end_ c &&& 0x1f) ||| dot
          else b.colour_ram_ (sms_colour b start end_ c &&& 0x1f)) := by
  obtain ⟨b', hb', -, -, -, -, -, -, -, -, ht, -, -, hp⟩ :=
    draw_sms_spec ext b start end_ dot cb sb hsega h
  refine ⟨b', hb', ht, ?_, ?_⟩
  · intro i hi hh
    rw [hp i, if_neg hh, if_neg hi]
  · intro c hc1 hc2
    rw [hp]
    by_cases hh : (end_ = 256 ∧ b.hide_left_column_ = true) ∧
        0 ≤ b.pixel_target_ + (c : Int) ∧ b.pixel_target_ + (c : Int) < 8
    · rw [if_pos hh, if_pos hh]
    · rw [if_neg hh, if_neg hh]
      have hin : b.pixel_target_ + (start : Int) ≤ b.pixel_target_ + (c : Int) ∧
          b.pixel_target_ + (c : Int) < b.pixel_target_ + (end_ : Int) := by omega
      rw [if_pos hin]
      have hc : (b.pixel_target_ + (c : Int) - b.pixel_target_).toNat = c := by omega
      by_cases hcs : c = start
      · have he : b.pixel_target_ + (c : Int) = b.pixel_target_ + (start : Int) := by
          rw [hcs]
        rw [if_pos he, if_pos hcs, hcs]
      · have hne : ¬ b.pixel_target_ + (c : Int) = b.pixel_target_ + (start : Int) := by omega
        rw [if_neg hne, if_neg hcs, hc]

/-- C14, as stated, fails after the first column: `draw_sms(0, 16, 1024)` on the sample
state leaves at column `9` the colour-RAM entry of the column's colour index, without the
dot value `1024` combined into it. -/
theorem C14_cram_dot_missing_after_first_pixel :
    ∃ b' : Base,
      draw_sms sampleExternals sampleBase 0 16 1024 (fun _ => 0) (fun _ => 0) = some b' ∧
      b'.pixels 9 = sampleBase.colour_ram_ (sms_colour sampleBase 0 16 9 &&& 0x1f) ∧
      b'.pixels 9 ≠ sampleBase.colour_ram_ (sms_colour sampleBase 0 16 9 &&& 0x1f) ||| 1024 := by
  obtain ⟨b', hb', -, -, -, -, -, -, -, -, -, -, -, hp⟩ :=
    draw_sms_spec sampleExternals sampleBase 0 16 1024 (fun _ => 0) (fun _ => 0) rfl
      (by decide)
  have h9 := hp 9
  rw [if_neg (by decide), if_pos (by decide), if_neg (by decide)] at h9
  have hc : ((9 : Int) - sampleBase.pixel_target_).toNat = 9 := by decide
  rw [hc] at h9
  refine ⟨b', hb', h9, ?_⟩
  rw [h9]
  decide

/-- C14, amended: for `start < end`, `draw_sms(start, end, cram_dot)` on a Sega VDP returns,
and outside the left column that the call hides the pixel it leaves at `pixel_target_[c]`
is `colour_ram_[index(c) & 0x1f] | cram_dot` for `c = start` and `colour_ram_[index(c) &
0x1f]`, without `cram_dot`, for the columns `start < c < end`.  So the row differs from
that of the same call with a `cram_dot` of `0` at `pixel_target_[start]` at most, where
it is that call's pixel combined with `cram_dot`. -/
theorem C14_cram_dot_on_first_pixel (ext : Externals) (b : Base) (start end_ : Nat)
    (dot : Nat) (cb sb : Nat → Nat) (hsega : ext.is_sega_vdp = true) (h : start < end_) :
    ∃ b' b0 : Base,
      draw_sms ext b start end_ dot cb sb = some b' ∧
      draw_sms ext b start end_ 0 cb sb = some b0 ∧
      (∀ c : Nat, start ≤ c → c < end_ →
        ¬ ((end_ = 256 ∧ b.hide_left_column_ = true) ∧
          0 ≤ b.pixel_target_ + (c : Int) ∧ b.pixel_target_ + (c : Int) < 8) →
        b'.pixels (b.pixel_target_ + (c : Int)) =
          if c = start then b.colour_ram_ (sms_colour b start end_ c &&& 0x1f) ||| dot
          else b.colour_ram_ (sms_colour b start end_ c &&& 0x1f)) ∧
      (∀ i : Int, i ≠ b.pixel_target_ + (start : Int) → b'.pixels i = b0.pixels i) ∧
      (¬ ((end_ = 256 ∧ b.hide_left_column_ = true) ∧
          0 ≤ b.pixel_target_ + (start : Int) ∧ b.pixel_target_ + (start : Int) < 8) →
        b'.pixels (b.pixel_target_ + (start : Int)) =
          b0.pixels (b.pixel_target_ + (start : Int)) ||| dot) := by
  obtain ⟨b', hb', -, -, -, -, -, -, -, -, -, -, -, hp⟩ :=
    draw_sms_spec ext b start end_ dot cb sb hsega h
  obtain ⟨b0, hb0, -, -, -, -, -, -, -, -, -, -, -, hp0⟩ :=
    draw_sms_spec_no_dot ext b start end_ cb sb hsega h
  refine ⟨b', b0, hb', hb0, ?_, ?_, ?_⟩
  · intro c hc1 hc2 hh
    rw [hp, if_neg hh]
    have hin : b.pixel_target_ + (start : Int) ≤ b.pixel_target_ + (c : Int) ∧
        b.pixel_target_ + (c : Int) < b.pixel_target_ + (end_ : Int) := by omega
    rw [if_pos hin]
    have hc : (b.pixel_target_ + (c : Int) - b.pixel_target_).toNat = c := by omega
    by_cases hcs : c = start
    · have he : b.pixel_target_ + (c : Int) = b.pixel_target_ + (start : Int) := by
        rw [hcs]
      rw [if_pos he, if_pos hcs, hcs]
    · have hne : ¬ b.pixel_target_ + (c : Int) = b.pixel_target_ + (start : Int) := by omega
      rw [if_neg hne, if_neg hcs, hc]
  · intro i hi
    rw [hp, hp0]
    by_cases hh : (end_ = 256 ∧ b.hide_left_column_ = true) ∧ 0 ≤ i ∧ i < 8
    · rw [if_pos hh, if_pos hh]
    · rw [if_neg hh, if_neg hh]
      by_cases hin : b.pixel_target_ + (start : Int) ≤ i ∧ i < b.pixel_target_ + (end_ : Int)
      · rw [if_pos hin, if_pos hin, if_neg hi]
      · rw [if_neg hin, if_neg hin]
  · intro hh
    have hin : b.pixel_target_ + (start : Int) ≤ b.pixel_target_ + (start : Int) ∧
        b.pixel_target_ + (start : Int) < b.pixel_target_ + (end_ : Int) := by omega
    have hs : (b.pixel_target_ + (start : Int) - b.pixel_target_).toNat = start := by omega
    rw [hp, hp0, if_neg hh, if_neg hh, if_pos hin, if_pos hin, if_pos rfl, hs]

/-- C14, amended, at the call over `[0, 16)` of the sample state with the dot `1024`. -/
theorem C14_cram_dot_on_first_pixel_witness :
    sampleExternals.is_sega_vdp = true ∧ 0 < 16 ∧
    ∃ b' b0 : Base,
      draw_sms sampleExternals sampleBase 0 16 1024 (fun _ => 0) (fun _ => 0) = some b' ∧
      draw_sms sampleExternals sampleBase 0 16 0 (fun _ => 0) (fun _ => 0) = some b0 ∧
      (∀ c : Nat, 0 ≤ c → c < 16 →
        ¬ ((16 = 256 ∧ sampleBase.hide_left_column_ = true) ∧
          0 ≤ sampleBase.pixel_target_ + (c : Int) ∧ sampleBase.pixel_target_ + (c : Int) < 8) →
        b'.pixels (sampleBase.pixel_target_ + (c : Int)) =
          if c = 0 then sampleBase.colour_ram_ (sms_colour sampleBase 0 16 c &&& 0x1f) ||| 1024
          else sampleBase.colour_ram_ (sms_colour sampleBase 0 16 c &&& 0x1f)) ∧
      (∀ i : Int, i ≠ sampleBase.pixel_target_ + ((0 : Nat) : Int) →
        b'.pixels i = b0.pixels i) ∧
      (¬ ((16 = 256 ∧ sampleBase.hide_left_column_ = true) ∧
          0 ≤ sampleBase.pixel_target_ + ((0 : Nat) : Int) ∧
          sampleBase.pixel_target_ + ((0 : Nat) : Int) < 8) →
        b'.pixels (sampleBase.pixel_target_ + ((0 : Nat) : Int)) =
          b0.pixels (sampleBase.pixel_target_ + ((0 : Nat) : Int)) ||| 1024) :=
  ⟨rfl, by decide,
    C14_cram_dot_on_first_pixel sampleExternals sampleBase 0 16 1024 (fun _ => 0) (fun _ => 0)
      rfl (by decide)⟩

end TMS

namespace TMS

/-! ## The left clip of sprites over the calls of a line -/

/-- The sprites that a sequence of calls leaves when none of the calls starts at column
`0`: none of the calls clips. -/
theorem run_calls_sprites (draw : Base → Nat → Nat → Option Base) (tgt : Base → Nat)
    (hdraw : ∀ (b : Base) (start end_ : Nat), start ≤ end_ →
      ∃ b' : Base, draw b start end_ = some b' ∧
        shift_advance b' = shift_advance b ∧ tgt b' = tgt b ∧
        b'.line_buffer.active_sprites =
          (sprites_on_entry b start).map
            (advance_sprite (shift_advance b) (tgt b) start end_)) :
    ∀ (calls : List (Nat × Nat)) (p : Nat) (b : Base), 0 < p → ranges_from p calls →
      ∃ b' : Base, run_calls draw calls b = some b' ∧
        b'.line_buffer.active_sprites =
          advance_calls (shift_advance b) (tgt b) calls b.line_buffer.active_sprites := by
  intro calls
  induction calls with
  | nil =>
    intro p b _ _
    exact ⟨b, rfl, rfl⟩
  | cons call rest ih =>
    intro p b hp hr
    obtain ⟨h1, h2, h3⟩ := hr
    obtain ⟨b1, hb1, hsa, htg, hsp⟩ := hdraw b call.1 call.2 h2
    obtain ⟨b', hb', hsp'⟩ := ih call.2 b1 (by omega) h3
    refine ⟨b', ?_, ?_⟩
    · show (match draw b call.1 call.2 with
        | none => none
        | some b' => run_calls draw rest b') = some b'
      rw [hb1]
      exact hb'
    · rw [hsp', hsa, htg, hsp]
      have hentry : sprites_on_entry b call.1 = b.line_buffer.active_sprites := by
        unfold sprites_on_entry
        rw [if_neg (by omega)]
      rw [hentry]
      rfl

/-- The sprites that a sequence of calls leaves when the first call starts at column `0`
and is not empty: the first call clips, no later call does. -/
theorem run_calls_clip_once (draw : Base → Nat → Nat → Option Base) (tgt : Base → Nat)
    (hdraw : ∀ (b : Base) (start end_ : Nat), start ≤ end_ →
      ∃ b' : Base, draw b start end_ = some b' ∧
        shift_advance b' = shift_advance b ∧ tgt b' = tgt b ∧
        b'.line_buffer.active_sprites =
          (sprites_on_entry b start).map
            (advance_sprite (shift_advance b) (tgt b) start end_))
    (b : Base) (e : Nat) (rest : List (Nat × Nat)) (he : 0 < e) (hr : ranges_from e rest) :
    ∃ b' : Base, run_calls draw ((0, e) :: rest) b = some b' ∧
      b'.line_buffer.active_sprites =
        advance_calls (shift_advance b) (tgt b) ((0, e) :: rest)
          (clip_left (shift_advance b) b.line_buffer.active_sprites) := by
  obtain ⟨b1, hb1, hsa, htg, hsp⟩ := hdraw b 0 e (Nat.zero_le _)
  obtain ⟨b', hb', hsp'⟩ := run_calls_sprites draw tgt hdraw rest e b1 he hr
  refine ⟨b', ?_, ?_⟩
  · show (match draw b 0 e with
      | none => none
      | some b' => run_calls draw rest b') = some b'
    rw [hb1]
    exact hb'
  · rw [hsp', hsa, htg, hsp]
    rfl

theorem draw_tms_character_sprites (ext : Externals) (g : Nat → Nat) (b : Base)
    (start end_ : Nat) (h : start ≤ end_) :
    ∃ b' : Base, draw_tms_character ext b start end_ g = some b' ∧
      shift_advance b' = shift_advance b ∧ shifter_target b' = shifter_target b ∧
      b'.line_buffer.active_sprites =
        (sprites_on_entry b start).map
          (advance_sprite (shift_advance b) (shifter_target b) start end_) := by
  obtain ⟨b', target, bg, hb', -, -, -, -, -, hm, h16, -, hsp, -⟩ :=
    draw_tms_character_spec ext b start end_ g h
  refine ⟨b', hb', ?_, ?_, hsp⟩
  · unfold shift_advance; rw [hm]
  · unfold shifter_target; rw [h16]

theorem draw_sms_sprites_after (ext : Externals) (dot : Nat) (cb sb : Nat → Nat)
    (hsega : ext.is_sega_vdp = true) (b : Base) (start end_ : Nat) (h : start ≤ end_) :
    ∃ b' : Base, draw_sms ext b start end_ dot cb sb = some b' ∧
      shift_advance b' = shift_advance b ∧ (16 : Nat) = 16 ∧
      b'.line_buffer.active_sprites =
        (sprites_on_entry b start).map (advance_sprite (shift_advance b) 16 start end_) := by
  obtain ⟨tiles, htiles, hbg⟩ := draw_sms_tiles_returns b start end_ cb h
  obtain ⟨hsprites, -⟩ := draw_sms_sprites_spec ext b start end_ tiles sb hbg
  unfold draw_sms
  rw [if_pos hsega, htiles]
  exact ⟨_, rfl, rfl, rfl, hsprites⟩

/-- C15, as stated, fails when the line's first range is empty: after the calls
`draw_tms_character(0, 0)` and `draw_tms_character(0, 1)` on the sample state, whose sprite
of slot `0` has `x = -3` and `shift_position = 0` and is not magnified, the sprite's
`shift_position` is `14`, two pre-advances of `2 × 3` and one drawn pixel, where one
pre-advance gives `8`. -/
theorem C15_left_clip_repeats_at_start_zero :
    ranges_from 0 [(0, 0), (0, 1)] ∧
    ∃ b' : Base,
      draw_tms_character_calls sampleExternals (fun _ => 0) [(0, 0), (0, 1)] sampleBase =
        some b' ∧
      b'.line_buffer.active_sprites.map (fun s => s.shift_position) = [14, 0] ∧
      (advance_calls (shift_advance sampleBase) (shifter_target sampleBase) [(0, 0), (0, 1)]
        (clip_left (shift_advance sampleBase) sampleBase.line_buffer.active_sprites)).map
          (fun s => s.shift_position) = [8, 0] := by
  refine ⟨by decide, _, rfl, ?_, ?_⟩
  · decide
  · decide

/-- C15, amended: over a sequence of `draw_tms_character` calls, or of `draw_sms` calls on a
Sega VDP, whose ranges are non-decreasing and non-overlapping and whose first range
`[0, e)` begins at `0` and is not empty, all calls return and the active sprites are left
as the sprite loops of the calls advance them from the sprites clipped once: each sprite
with negative `x` has had `shift_advance × |x|` added to its `shift_position` once, by
the first call, before any drawing. -/
theorem C15_left_clip_once (ext : Externals) (b : Base) (e : Nat) (rest : List (Nat × Nat))
    (g : Nat → Nat) (dot : Nat) (cb sb : Nat → Nat) (he : 0 < e)
    (hr : ranges_from e rest) :
    (∃ b' : Base, draw_tms_character_calls ext g ((0, e) :: rest) b = some b' ∧
      b'.line_buffer.active_sprites =
        advance_calls (shift_advance b) (shifter_target b) ((0, e) :: rest)
          (b.line_buffer.active_sprites.map (fun sprite =>
            if sprite.x < 0 then
              { sprite with
                shift_position :=
                  sprite.shift_position + shift_advance b * (-sprite.x).toNat }
            else sprite))) ∧
    (ext.is_sega_vdp = true →
      ∃ b' : Base, draw_sms_calls ext dot cb sb ((0, e) :: rest) b = some b' ∧
        b'.line_buffer.active_sprites =
          advance_calls (shift_advance b) 16 ((0, e) :: rest)
            (b.line_buffer.active_sprites.map (fun sprite =>
              if sprite.x < 0 then
                { sprite with
                  shift_position :=
                    sprite.shift_position + shift_advance b * (-sprite.x).toNat }
              else sprite))) := by
  constructor
  · exact run_calls_clip_once (fun b start end_ => draw_tms_character ext b start end_ g)
      shifter_target (draw_tms_character_sprites ext g) b e rest he hr
  · intro hsega
    exact run_calls_clip_once (fun b start end_ => draw_sms ext b start end_ dot cb sb)
      (fun _ => 16) (draw_sms_sprites_after ext dot cb sb hsega) b e rest he hr

/-- C15, amended, at the calls over `[0, 1)` and `[1, 16)` of the sample state. -/
theorem C15_left_clip_once_witness :
    0 < 1 ∧ ranges_from 1 [(1, 16)] ∧
    (∃ b' : Base,
      draw_tms_character_calls sampleExternals (fun _ => 0) ((0, 1) :: [(1, 16)]) sampleBase =
        some b' ∧
      b'.line_buffer.active_sprites =
        advance_calls (shift_advance sampleBase) (shifter_target sampleBase)
          ((0, 1) :: [(1, 16)])
          (sampleBase.line_buffer.active_sprites.map (fun sprite =>
            if sprite.x < 0 then
              { sprite with
                shift_position :=
                  sprite.shift_position + shift_advance sampleBase * (-sprite.x).toNat }
            else sprite))) ∧
    (sampleExternals.is_sega_vdp = true →
      ∃ b' : Base,
        draw_sms_calls sampleExternals 0 (fun _ => 0) (fun _ => 0) ((0, 1) :: [(1, 16)])
          sampleBase = some b' ∧
        b'.line_buffer.active_sprites =
          advance_calls (shift_advance sampleBase) 16 ((0, 1) :: [(1, 16)])
            (sampleBase.line_buffer.active_sprites.map (fun sprite =>
              if sprite.x < 0 then
                { sprite with
                  shift_position :=
                    sprite.shift_position + shift_advance sampleBase * (-sprite.x).toNat }
              else sprite))) :=
  ⟨by decide, by decide,
    C15_left_clip_once sampleExternals sampleBase 1 [(1, 16)] (fun _ => 0) 0 (fun _ => 0)
      (fun _ => 0) (by decide) (by decide)⟩

end TMS

namespace TMS

/-! ## `draw_tms_text` -/

theorem text_loop_succ (ext : Externals) (b : Base) (fuel : Nat) (st : TextState) :
    text_loop ext b (fuel + 1) st =
      if st.pixels_left - st.length = 0 then
        some (st.pixel_target_ + st.length,
          (pattern_pixels (text_colours b) st.pixel_target_ st.length st.pattern st.pixels).2)
      else
        text_loop ext b fuel
          { pixels_left := st.pixels_left - st.length
            length := Min.min 6 (st.pixels_left - st.length)
            byte_column := st.byte_column + 1
            pattern := ext.bit_reverse (byte (b.line_buffer.patterns (st.byte_column + 1) 0))
            pixel_target_ := st.pixel_target_ + st.length
            pixels := (pattern_pixels (text_colours b) st.pixel_target_ st.length
              st.pattern st.pixels).2 } := by
  rw [text_loop]

theorem text_pixel_at (ext : Externals) (b : Base) (col r : Nat) (h : r < 6) :
    text_pixel ext b (6 * col + r) =
      text_colours b ((ext.bit_reverse (byte (b.line_buffer.patterns col 0)) >>> r) &&& 1) := by
  unfold text_pixel
  have h1 : (6 * col + r) / 6 = col := by omega
  have h2 : (6 * col + r) % 6 = r := by omega
  rw [h1, h2]

/-- The `while(true)` loop of `draw_tms_text`, entered `sh` pixels into the 6-pixel column
`byte_column` with `pixels_left ≥ 0` pixels to go, returns, having stored the text pixels
of the columns from `6 * byte_column + sh` on. -/
theorem text_loop_eq (ext : Externals) (b : Base) :
    ∀ (fuel : Nat) (st : TextState) (sh : Nat), sh < 6 →
      0 ≤ st.pixels_left → st.pixels_left < (fuel : Int) →
      st.length = Min.min st.pixels_left (6 - (sh : Int)) →
      st.pattern = ext.bit_reverse (byte (b.line_buffer.patterns st.byte_column 0)) >>> sh →
      text_loop ext b fuel st =
        some (st.pixel_target_ + st.pixels_left,
          fun i =>
            if st.pixel_target_ ≤ i ∧ i < st.pixel_target_ + st.pixels_left then
              text_pixel ext b (6 * st.byte_column + sh + (i - st.pixel_target_).toNat)
            else st.pixels i) := by
  intro fuel
  induction fuel with
  | zero => intro st sh _ h0 h1; omega
  | succ fuel ih =>
    intro st sh hsh h0 hfuel hlen hpat
    rw [text_loop_succ]
    have hfirst : ∀ i : Int, st.pixel_target_ ≤ i → i < st.pixel_target_ + st.length →
        (pattern_pixels (text_colours b) st.pixel_target_ st.length st.pattern st.pixels).2 i
          = text_pixel ext b (6 * st.byte_column + sh + (i - st.pixel_target_).toNat) := by
      intro i hi1 hi2
      rw [pattern_pixels_eq, if_pos ⟨hi1, by omega⟩, add_assoc,
        text_pixel_at ext b _ _ (by omega), hpat, ← Nat.shiftRight_add]
    have hrest : ∀ i : Int, ¬ (st.pixel_target_ ≤ i ∧ i < st.pixel_target_ + st.length) →
        (pattern_pixels (text_colours b) st.pixel_target_ st.length st.pattern st.pixels).2 i
          = st.pixels i := by
      intro i hi
      rw [pattern_pixels_eq, if_neg (by omega)]
    by_cases hdone : st.pixels_left - st.length = 0
    · rw [if_pos hdone]
      have hl : st.length = st.pixels_left := by omega
      congr 1
      rw [hl]
      congr 1
      funext i
      by_cases hi : st.pixel_target_ ≤ i ∧ i < st.pixel_target_ + st.pixels_left
      · rw [if_pos hi, ← hl]
        exact hfirst i hi.1 (by omega)
      · rw [if_neg hi, ← hl]
        exact hrest i (by omega)
    · rw [if_neg hdone]
      have hl : st.length = 6 - (sh : Int) := by omega
      rw [ih _ 0 (by omega) (by simp only; omega) (by simp only; omega)
        (by simp only; omega) (by simp only; rfl)]
      simp only
      congr 1
      congr 1
      · omega
      · funext i
        by_cases hi2 : st.pixel_target_ + st.length ≤ i ∧
            i < st.pixel_target_ + st.length + (st.pixels_left - st.length)
        · rw [if_pos hi2, if_pos (by omega)]
          congr 1
          omega
        · rw [if_neg hi2]
          by_cases hi : st.pixel_target_ ≤ i ∧ i < st.pixel_target_ + st.length
          · rw [if_pos (by omega)]
            exact hfirst i hi.1 hi.2
          · rw [if_neg (by omega)]
            exact hrest i hi

/-- The call `draw_tms_text(start, end)` with `start ≤ end` returns: it advances
`pixel_target_` by `end - start`, storing the text pixels of the columns `[start, end)`
from `pixel_target_` on, and changes nothing else. -/
theorem draw_tms_text_eq (ext : Externals) (b : Base) (start end_ : Nat) (h : start ≤ end_) :
    draw_tms_text ext b start end_ =
      some { b with
        pixel_target_ := b.pixel_target_ + ((end_ : Int) - (start : Int))
        pixels := fun i =>
          if b.pixel_target_ ≤ i ∧ i < b.pixel_target_ + ((end_ : Int) - (start : Int)) then
            text_pixel ext b (start + (i - b.pixel_target_).toNat)
          else b.pixels i } := by
  unfold draw_tms_text
  simp only
  have hs : 6 * (start / 6) + start % 6 = start := by omega
  rw [text_loop_eq ext b _ _ (start % 6) (Nat.mod_lt _ (by decide)) (by simp only; omega)
    (by simp only; omega) (by simp only) (by simp only)]
  simp only
  rw [hs]

/-- The text pixel of a column in the terms of the pattern byte. -/
theorem text_pixel_bit (ext : Externals) (b : Base) (hrev : ReversesBytes ext.bit_reverse)
    (x : Nat) :
    text_pixel ext b x =
      b.palette
        (if (byte (b.line_buffer.patterns (x / 6) 0)).testBit (7 - x % 6) = true then
          b.text_colour_
        else b.background_colour_) := by
  unfold text_pixel text_colours
  have hr : x % 6 < 8 := by omega
  rw [shift_and_one, hrev _ (byte_lt _) _ hr]
  by_cases hbit : (byte (b.line_buffer.patterns (x / 6) 0)).testBit (7 - x % 6) = true
  · rw [if_pos hbit, if_pos hbit, if_neg (by decide)]
  · rw [if_neg hbit, if_neg hbit, if_pos rfl]

/-- C21: for `start ≤ end`, `draw_tms_text(start, end)` returns; it advances the write
cursor `pixel_target_` by `end - start`; it changes no place of the row other than the
`end - start` places from the entry cursor on; and for every column `x` of `[start,
end)` the pixel it writes, at place `x - start` from the entry cursor, is
`palette[text_colour_]` if bit `7 - (x mod 6)` of `patterns[x / 6][0]` is set and
`palette[background_colour_]` otherwise.  With the cursor entering at column `start`
that place is column `x`. -/
theorem C21_text_pixels (ext : Externals) (b : Base) (start end_ : Nat)
    (hrev : ReversesBytes ext.bit_reverse) (h : start ≤ end_) :
    ∃ b' : Base, draw_tms_text ext b start end_ = some b' ∧
      b'.pixel_target_ = b.pixel_target_ + ((end_ : Int) - (start : Int)) ∧
      (∀ i : Int,
        ¬ (b.pixel_target_ ≤ i ∧ i < b.pixel_target_ + ((end_ : Int) - (start : Int))) →
        b'.pixels i = b.pixels i) ∧
      (∀ x : Nat, start ≤ x → x < end_ →
        b'.pixels (b.pixel_target_ + ((x : Int) - (start : Int))) =
          b.palette
            (if (byte (b.line_buffer.patterns (x / 6) 0)).testBit (7 - x % 6) = true then
              b.text_colour_
            else b.background_colour_)) ∧
      (b.pixel_target_ = (start : Int) →
        ∀ x : Nat, start ≤ x → x < end_ →
          b'.pixels (x : Int) =
            b.palette
              (if (byte (b.line_buffer.patterns (x / 6) 0)).testBit (7 - x % 6) = true then
                b.text_colour_
              else b.background_colour_)) := by
  have hwritten : ∀ x : Nat, start ≤ x → x < end_ →
      (if b.pixel_target_ ≤ b.pixel_target_ + ((x : Int) - (start : Int)) ∧
          b.pixel_target_ + ((x : Int) - (start : Int)) <
            b.pixel_target_ + ((end_ : Int) - (start : Int)) then
        text_pixel ext b
          (start + (b.pixel_target_ + ((x : Int) - (start : Int)) - b.pixel_target_).toNat)
      else b.pixels (b.pixel_target_ + ((x : Int) - (start : Int)))) =
        b.palette
          (if (byte (b.line_buffer.patterns (x / 6) 0)).testBit (7 - x % 6) = true then
            b.text_colour_
          else b.background_colour_) := by
    intro x hx1 hx2
    have hin : b.pixel_target_ ≤ b.pixel_target_ + ((x : Int) - (start : Int)) ∧
        b.pixel_target_ + ((x : Int) - (start : Int)) <
          b.pixel_target_ + ((end_ : Int) - (start : Int)) := by omega
    have hx : start + (b.pixel_target_ + ((x : Int) - (start : Int)) - b.pixel_target_).toNat
        = x := by omega
    rw [if_pos hin, hx, text_pixel_bit ext b hrev x]
  refine ⟨_, draw_tms_text_eq ext b start end_ h, rfl, ?_, ?_, ?_⟩
  · intro i hi
    show (if b.pixel_target_ ≤ i ∧ i < b.pixel_target_ + ((end_ : Int) - (start : Int)) then _
      else b.pixels i) = _
    rw [if_neg hi]
  · intro x hx1 hx2
    exact hwritten x hx1 hx2
  · intro hcur x hx1 hx2
    have hpos : (x : Int) = b.pixel_target_ + ((x : Int) - (start : Int)) := by omega
    rw [hpos]
    exact hwritten x hx1 hx2

/-- C21 at the call over `[0, 12)` of the sample state, whose cursor is at column `0`. -/
theorem C21_text_pixels_witness :
    ReversesBytes sampleExternals.bit_reverse ∧ 0 ≤ 12 ∧
    ∃ b' : Base, draw_tms_text sampleExternals sampleBase 0 12 = some b' ∧
      b'.pixel_target_ = sampleBase.pixel_target_ + (((12 : Nat) : Int) - ((0 : Nat) : Int)) ∧
      (∀ i : Int,
        ¬ (sampleBase.pixel_target_ ≤ i ∧
          i < sampleBase.pixel_target_ + (((12 : Nat) : Int) - ((0 : Nat) : Int))) →
        b'.pixels i = sampleBase.pixels i) ∧
      (∀ x : Nat, 0 ≤ x → x < 12 →
        b'.pixels (sampleBase.pixel_target_ + ((x : Int) - ((0 : Nat) : Int))) =
          sampleBase.palette
            (if (byte (sampleBase.line_buffer.patterns (x / 6) 0)).testBit (7 - x % 6) = true
              then sampleBase.text_colour_
              else sampleBase.background_colour_)) ∧
      (sampleBase.pixel_target_ = ((0 : Nat) : Int) →
        ∀ x : Nat, 0 ≤ x → x < 12 →
          b'.pixels (x : Int) =
            sampleBase.palette
              (if (byte (sampleBase.line_buffer.patterns (x / 6) 0)).testBit (7 - x % 6) = true
                then sampleBase.text_colour_
                else sampleBase.background_colour_)) :=
  ⟨reverse_byte_reverses, by decide,
    C21_text_pixels sampleExternals sampleBase 0 12 reverse_byte_reverses (by decide)⟩

end TMS

namespace TMS

/-! ## The source's sprite decoding against the sprite pattern -/

theorem xor_seven_shift (k : Nat) : (k ^^^ 7) >>> 3 = k / 8 := by
  have hk : k / 8 = k >>> 3 := (Nat.shiftRight_eq_div_pow k 3).symm
  rw [hk]
  apply Nat.eq_of_testBit_eq
  intro i
  rw [Nat.testBit_shiftRight, Nat.testBit_shiftRight, Nat.testBit_xor]
  have h7 : (7 : Nat).testBit (3 + i) = false := by
    apply Nat.testBit_lt_two_pow
    calc (7 : Nat) < 2 ^ 3 := by decide
      _ ≤ 2 ^ (3 + i) := Nat.pow_le_pow_right (by decide) (by omega)
  rw [h7, Bool.xor_false]

theorem xor_seven_and (k : Nat) : (k ^^^ 7) &&& 7 = 7 - k % 8 := by
  rw [Nat.and_xor_distrib_right]
  have h1 : k &&& 7 = k % 8 := Nat.and_pow_two_sub_one_eq_mod k 3
  have h2 : (7 : Nat) &&& 7 = 7 := by decide
  rw [h1, h2]
  have hlt : k % 8 < 8 := Nat.mod_lt _ (by decide)
  generalize k % 8 = r at hlt
  interval_cases r <;> rfl

/-- The bit that the source decodes, `(image[shift >> 3] >> (shift & 7)) & 1` with `shift =
(shift_position >> 1) ^ 7`, is the pattern bit of the sprite's position. -/
theorem tms_sprite_bit_spec (sprite : ActiveSprite) :
    tms_sprite_bit sprite = 1 ↔ spec_pattern_bit sprite = true := by
  unfold tms_sprite_bit spec_pattern_bit
  simp only
  have hk : sprite.shift_position >>> 1 = sprite.shift_position / 2 := by
    rw [Nat.shiftRight_eq_div_pow, Nat.pow_one]
  rw [hk, xor_seven_shift, xor_seven_and, shift_and_one]
  by_cases hb : (byte (sprite.image (sprite.shift_position / 2 / 8))).testBit
      (7 - sprite.shift_position / 2 % 8) = true
  · rw [if_pos hb]
    exact ⟨fun _ => hb, fun _ => rfl⟩
  · rw [if_neg hb]
    exact ⟨fun h => absurd h (by decide), fun h => absurd h hb⟩

theorem spec_presents_iff (b : Base) (start end_ : Nat) (sprite : ActiveSprite) (c : Nat) :
    spec_presents b start end_ sprite c ↔ tms_presents b start end_ sprite c := by
  unfold spec_presents tms_presents
  rw [tms_sprite_bit_spec]

theorem spec_sprites_overlap_iff (b : Base) (start end_ : Nat) :
    spec_sprites_overlap b start end_ ↔ tms_sprites_overlap b start end_ := by
  unfold spec_sprites_overlap tms_sprites_overlap
  simp only [spec_presents_iff]

theorem spec_shows_iff (b : Base) (start end_ : Nat) (sprite : ActiveSprite) (c : Nat) :
    spec_shows b start end_ sprite c ↔ tms_shows b start end_ sprite c := by
  unfold spec_shows tms_shows
  rw [spec_presents_iff]

/-- C10: a call `draw_tms_character(start, end)` with `start ≤ end` returns.  If two
distinct active sprites both present a set pattern bit at one column of `[start, end)`,
whatever their colour indices (the transparent index `0` included), the call leaves the
sprite-collision bit of `status_` set; if no two distinct sprites do, the call leaves
`status_` as it was.  The pattern bit is that of the sprite's data (`spec_pattern_bit`),
not the source's decoding of it. -/
theorem C10_tms_sprite_collision (ext : Externals) (b : Base) (start end_ : Nat)
    (g : Nat → Nat) (h : start ≤ end_) :
    ∃ b' : Base, draw_tms_character ext b start end_ g = some b' ∧
      (spec_sprites_overlap b start end_ →
        b'.status_.testBit ext.StatusSpriteCollisionShift = true) ∧
      (¬ spec_sprites_overlap b start end_ → b'.status_ = b.status_) := by
  obtain ⟨b', hb', hset, hkeep⟩ := tms_collision_decoded ext b start end_ g h
  refine ⟨b', hb', ?_, ?_⟩
  · intro hov
    exact hset ((spec_sprites_overlap_iff b start end_).mp hov)
  · intro hov
    exact hkeep (fun hd => hov ((spec_sprites_overlap_iff b start end_).mpr hd))

/-- Over `[0, 2)` the two sprites of the overlapping sample state do not overlap: the
sprite of slot `1` starts at column `2`. -/
theorem overlapBase_apart : ¬ spec_sprites_overlap overlapBase 0 2 := by
  have hentry : sprites_on_entry overlapBase 0 =
      [ { x := -3, shift_position := 6, image := fun k => if k = 2 then 0x05 else 0xff },
        { x := 2, shift_position := 0, image := fun _ => 0xf1 } ] := rfl
  have hsecond : ∀ (s : ActiveSprite) (c : Nat),
      (sprites_on_entry overlapBase 0)[1]? = some s → ¬ spec_presents overlapBase 0 2 s c := by
    intro s c hs hp
    rw [hentry] at hs
    have hs' : s = { x := 2, shift_position := 0, image := fun _ => 0xf1 } := by
      simpa using hs.symm
    have hc := hp.1
    rw [hs'] at hc
    have h1 : pixel_start 0 { x := 2, shift_position := 0, image := fun _ => 0xf1 } = 2 := rfl
    unfold covers at hc
    rw [h1] at hc
    omega
  rintro ⟨i, j, s₁, s₂, c, hne, h1, h2, hp1, hp2⟩
  have hi : i < 2 := by
    by_contra hge
    rw [hentry, List.getElem?_eq_none (by simp; omega)] at h1
    exact absurd h1 (by simp)
  have hj : j < 2 := by
    by_contra hge
    rw [hentry, List.getElem?_eq_none (by simp; omega)] at h2
    exact absurd h2 (by simp)
  have hcases : i = 1 ∨ j = 1 := by omega
  rcases hcases with h | h
  · subst h
    exact hsecond s₁ c h1 hp1
  · subst h
    exact hsecond s₂ c h2 hp2

/-- C10 at the sample state over `[0, 16)`: the sprites of slots `0` and `1`, the first of
them of the transparent colour index `0`, both present a set pattern bit at column `2`,
and the call raises the collision bit, bit `5` of `status_`, which was clear.  Over
`[0, 2)` of the overlapping sample state, where the sprite of slot `1` is not reached, no
two sprites overlap and the call leaves `status_` as it was. -/
theorem C10_tms_sprite_collision_witness :
    0 ≤ 16 ∧
    (∃ s₁ s₂ : ActiveSprite,
      (sprites_on_entry sampleBase 0)[0]? = some s₁ ∧
      (sprites_on_entry sampleBase 0)[1]? = some s₂ ∧
      byte (s₁.image 2) &&& 15 = 0 ∧
      spec_presents sampleBase 0 16 s₁ 2 ∧ spec_presents sampleBase 0 16 s₂ 2) ∧
    spec_sprites_overlap sampleBase 0 16 ∧
    sampleBase.status_.testBit sampleExternals.StatusSpriteCollisionShift = false ∧
    (∃ b' : Base, draw_tms_character sampleExternals sampleBase 0 16 (fun _ => 0) = some b' ∧
      b'.status_.testBit sampleExternals.StatusSpriteCollisionShift = true) ∧
    ¬ spec_sprites_overlap overlapBase 0 2 ∧
    (∃ b' : Base, draw_tms_character sampleExternals overlapBase 0 2 (fun _ => 0) = some b' ∧
      b'.status_ = overlapBase.status_) := by
  have hov : spec_sprites_overlap sampleBase 0 16 :=
    ⟨0, 1, _, _, 2, by decide, rfl, rfl, by decide, by decide⟩
  obtain ⟨b', hb', hset, -⟩ :=
    C10_tms_sprite_collision sampleExternals sampleBase 0 16 (fun _ => 0) (by decide)
  obtain ⟨b2, hb2, -, hkeep⟩ :=
    C10_tms_sprite_collision sampleExternals overlapBase 0 2 (fun _ => 0) (by decide)
  exact ⟨by decide, ⟨_, _, rfl, rfl, by decide, by decide, by decide⟩, hov, by decide,
    ⟨b', hb', hset hov⟩, overlapBase_apart, ⟨b2, hb2, hkeep overlapBase_apart⟩⟩

/-- C16: in `draw_tms_character(start, end)`, for `start ≤ end`, a palette and a row of
32-bit values and a 4-bit background colour: the call returns, and at every column `c` of
`[start, end)`, (1) if the active sprite of slot `k` shows a pixel at `c` (a set pattern
bit with a non-zero colour index `image[2] & 15`) and no sprite of a lower slot does, the
pixel left at `c` is `palette[image[2] & 15]` of sprite `k`, whatever the sprites of
higher slots and the sprites of colour index `0` present; (2) if no active sprite shows a
pixel at `c`, the pixel left is the one of the background pass.  The pattern bit is that
of the sprite's data (`spec_pattern_bit`), not the source's decoding of it. -/
theorem C16_lowest_slot_sprite_wins (ext : Externals) (b : Base) (start end_ : Nat)
    (g : Nat → Nat) (h : start ≤ end_) (hpal : ∀ i, i < 16 → b.palette i < 2 ^ 32)
    (hbgc : b.background_colour_ < 16) (hpix : ∀ i, b.pixels i < 2 ^ 32) :
    ∃ (b' : Base) (target : Int) (bg : Int → Nat),
      draw_tms_character ext b start end_ g = some b' ∧
      draw_tms_background ext b start end_ = some (target, bg) ∧
      ∀ c : Nat, start ≤ c → c < end_ →
        (∀ (k : Nat) (s : ActiveSprite), (sprites_on_entry b start)[k]? = some s →
          spec_shows b start end_ s c →
          (∀ (j : Nat) (t : ActiveSprite), j < k → (sprites_on_entry b start)[j]? = some t →
            ¬ spec_shows b start end_ t c) →
          b'.pixels (c : Int) = b.palette (byte (s.image 2) &&& 15)) ∧
        ((∀ s ∈ sprites_on_entry b start, ¬ spec_shows b start end_ s c) →
          b'.pixels (c : Int) = bg (c : Int)) := by
  obtain ⟨b', target, bg, hb', hbg, hcols⟩ :=
    tms_lowest_slot_decoded ext b start end_ g h hpal hbgc hpix
  refine ⟨b', target, bg, hb', hbg, ?_⟩
  intro c hc1 hc2
  obtain ⟨hlow, hnone⟩ := hcols c hc1 hc2
  constructor
  · intro k s hk hs hbelow
    exact hlow k s hk ((spec_shows_iff b start end_ s c).mp hs)
      (fun j t hj ht hd => hbelow j t hj ht ((spec_shows_iff b start end_ t c).mpr hd))
  · intro hno
    exact hnone (fun s hs hd => hno s hs ((spec_shows_iff b start end_ s c).mpr hd))

/-- C16 at the overlapping sample state over `[0, 16)`: at column `2` the sprites of slots
`0` and `1` both show a pixel, of colour indices `5` and `1`, and the call leaves
`palette[5]`, the entry of slot `0`, which is neither `palette[1]` nor the pixel of the
background pass. -/
theorem C16_lowest_slot_sprite_wins_witness :
    0 ≤ 16 ∧ (∀ i, i < 16 → overlapBase.palette i < 2 ^ 32) ∧
    overlapBase.background_colour_ < 16 ∧ (∀ i, overlapBase.pixels i < 2 ^ 32) ∧
    ∃ (s₁ s₂ : ActiveSprite) (b' : Base) (target : Int) (bg : Int → Nat),
      (sprites_on_entry overlapBase 0)[0]? = some s₁ ∧
      (sprites_on_entry overlapBase 0)[1]? = some s₂ ∧
      spec_shows overlapBase 0 16 s₁ 2 ∧ spec_shows overlapBase 0 16 s₂ 2 ∧
      byte (s₁.image 2) &&& 15 = 5 ∧ byte (s₂.image 2) &&& 15 = 1 ∧
      draw_tms_character sampleExternals overlapBase 0 16 (fun _ => 0) = some b' ∧
      draw_tms_background sampleExternals overlapBase 0 16 = some (target, bg) ∧
      b'.pixels 2 = overlapBase.palette 5 ∧
      b'.pixels 2 ≠ overlapBase.palette 1 ∧
      b'.pixels 2 ≠ bg 2 := by
  obtain ⟨b', target, bg, hb', hbg, hcols⟩ :=
    C16_lowest_slot_sprite_wins sampleExternals overlapBase 0 16 (fun _ => 0) (by decide)
      (by decide) (by decide) (fun _ => Nat.two_pow_pos 32)
  have hs1 : spec_shows overlapBase 0 16
      { x := -3, shift_position := 6, image := fun k => if k = 2 then 0x05 else 0xff } 2 := by
    decide
  have hpx : b'.pixels 2 = overlapBase.palette 5 :=
    (hcols 2 (by decide) (by decide)).1 0 _ rfl hs1 (fun j t hj => absurd hj (by omega))
  have hbg2 : bg 2 = 104 := by
    have hal := draw_tms_background_aligned sampleExternals overlapBase 0 16 (by decide) rfl
    rw [hal] at hbg
    have h2 : _ = bg := congrArg Prod.snd (Option.some.inj hbg)
    rw [← h2]
    decide
  refine ⟨by decide, by decide, by decide, fun _ => Nat.two_pow_pos 32,
    _, _, b', target, bg, rfl, rfl, hs1, by decide, by decide, by decide, hb', hbg, hpx, ?_, ?_⟩
  · rw [hpx]; decide
  · rw [hpx, hbg2]; decide

end TMS

namespace TMS

/-! ## `draw_sms` over an empty range -/

theorem or_ne_zero (x d : Nat) (hx : x ≠ 0) : x ||| d ≠ 0 := by
  intro h
  obtain ⟨i, hi⟩ := Nat.ne_zero_implies_bit_true hx
  have h2 : (x ||| d).testBit i = true := by
    rw [Nat.testBit_or, hi, Bool.true_or]
  rw [h, Nat.zero_testBit] at h2
  exact absurd h2 (by decide)

/-- C13: `draw_sms(start, end, cram_dot)` with `start = end` writes a pixel outside the empty
range.  On the sample state, whose cursor is at the row origin and whose row is `0`
everywhere, the call `draw_sms(4, 4, cram_dot)` returns with column `4` holding
`colour_ram_[colour_buffer[4] & 0x1f] | cram_dot`, whatever the uninitialised local
`colour_buffer` holds, no pass having written its entry `4`; that pixel is not the `0`
that the row held, and `end` is not `256`, so the column is not one of the hidden left
column either. -/
theorem C13_empty_range_writes_a_pixel (cram_dot : Nat)
    (colour_buffer sprite_buffer : Nat → Nat) :
    ∃ b' : Base,
      draw_sms sampleExternals sampleBase 4 4 cram_dot colour_buffer sprite_buffer = some b' ∧
      sampleBase.pixel_target_ = 0 ∧
      sampleBase.pixels 4 = 0 ∧
      b'.pixels 4 = sampleBase.colour_ram_ (colour_buffer 4 &&& 0x1f) ||| cram_dot ∧
      b'.pixels 4 ≠ sampleBase.pixels 4 := by
  have hpx : (200 + (colour_buffer 4 &&& 0x1f)) ||| cram_dot ≠ 0 :=
    or_ne_zero _ _ (by omega)
  exact ⟨_, rfl, rfl, rfl, rfl, hpx⟩

end TMS
